import Mathlib

/-!
Recursive bisectioning (`tomos/distributed/recursive_bisectioning.hpp`).

A shallow embedding of the partitioner of the tomos library and the proofs of
its specification.

Conventions of the embedding.

* The dimension `D` is 3 (the weight query and the diagnostics of the source
  are written for three axes).
* The scalar type `T` is `double` (as in `examples/external_plotter.cpp`).
  A scalar is a rational number, which every finite `double` is.  Where the
  source computes in `T` with a result that need not be a `double`, the
  result is rounded to the nearest `double`, ties to even (`round_double`):
  that is the quotient and the difference of the lambda `imbalance`.  The
  other scalar operations of the source are exact in `double`: comparisons,
  the conversions of an `int` to `T`, the product with `0.5` of the fallback,
  the sign of a difference, and the sums of hit counts (integers far below
  `2 ^ 53`).  The conversion `(int) x` truncates towards zero; it is applied
  to coordinates of crossings, which `intersect_bounds` places in the box.
* `int` has 32 bits.  The sums and differences of coordinates that
  `find_split` computes in `int` wrap around (`wrap_int`), as signed overflow
  does on two's complement machines: `last_split + split`,
  `i - bounds[d][0]`, `bounds[d][1] - bounds[d][0]` and
  `bounds[0][0] + bounds[0][1]`.  Counters (`overlap`, depths, indices) are
  mathematical integers: they are bounded by the number of elements held in
  memory.
* A read or write through `operator[]` outside the array has no defined
  result: the functions that index arrays return `Option`, and `none` stands
  for such an access.
* Text written to `std::cout` is not part of the result and is left out.
-/

namespace tomo
namespace distributed

/-! ## Vectors, boxes, volumes and images -/

/-- A `math::vec<3, T>`: a point of physical space. -/
structure vec3 where
  x : ℚ
  y : ℚ
  z : ℚ
  deriving DecidableEq, Repr

/-- A `math::vec<3, int>` (also `math::vec3<int>`). -/
structure ivec3 where
  x : Int
  y : Int
  z : Int
  deriving DecidableEq, Repr

/-- Component `v[d]` of a point. -/
def vec3.get (v : vec3) (d : Nat) : ℚ :=
  if d = 0 then v.x else if d = 1 then v.y else v.z

/-- Component `v[d]` of an integer vector. -/
def ivec3.get (v : ivec3) (d : Nat) : Int :=
  if d = 0 then v.x else if d = 1 then v.y else v.z

/-- Difference `a - b` of two points. -/
def vec3.sub (a b : vec3) : vec3 := ⟨a.x - b.x, a.y - b.y, a.z - b.z⟩

/-- Modelled from the spec: `math::sign` on a scalar (math.hpp is not under
src/): `+1` for a positive number, `-1` for a negative one, `0` for zero. -/
def sign1 (q : ℚ) : Int := if 0 < q then 1 else if q < 0 then -1 else 0

/-- Modelled from the spec: `math::sign<D, T>` (math.hpp is not under src/),
the sign of each component: "direction = sign of (exit − entry) per axis". -/
def sign (v : vec3) : ivec3 := ⟨sign1 v.x, sign1 v.y, sign1 v.z⟩

/-- The conversion `(int) q` of a scalar: truncation towards zero. -/
def trunc (q : ℚ) : Int := Int.tdiv q.num q.den

/-- The type `box_t<3>`, an array of three pairs `[lo, hi)` of voxel bounds;
`b0`, `b1`, `b2` are `bounds[0]`, `bounds[1]`, `bounds[2]`. -/
structure box_t where
  b0 : Int × Int
  b1 : Int × Int
  b2 : Int × Int
  deriving DecidableEq, Repr

/-- Entry `bounds[d]`. -/
def box_t.get (b : box_t) (d : Nat) : Int × Int :=
  if d = 0 then b.b0 else if d = 1 then b.b1 else b.b2

/-- Assignment `bounds[d][0] = a`. -/
def box_t.set_lo (b : box_t) (d : Nat) (a : Int) : box_t :=
  if d = 0 then { b with b0 := (a, b.b0.2) }
  else if d = 1 then { b with b1 := (a, b.b1.2) }
  else { b with b2 := (a, b.b2.2) }

/-- Assignment `bounds[d][1] = a`. -/
def box_t.set_hi (b : box_t) (d : Nat) (a : Int) : box_t :=
  if d = 0 then { b with b0 := (b.b0.1, a) }
  else if d = 1 then { b with b1 := (b.b1.1, a) }
  else { b with b2 := (b.b2.1, a) }

/-- The part of `tomo::volume<3, T>` this file reads: the number of voxels
along each axis, `voxels()`. -/
structure volume where
  voxels : ivec3
  deriving DecidableEq, Repr

/-- Number of cells of the voxel grid. -/
def volume.cells (v : volume) : Nat :=
  (v.voxels.x * v.voxels.y * v.voxels.z).toNat

/-- Modelled from the spec: `tomo::image<3, T>` (its header is not under
src/), "a dense D-dimensional array ..., same extents as the voxel grid": the
volume and one scalar for each cell, stored flat. -/
structure image where
  vol : volume
  data : List ℚ
  deriving DecidableEq, Repr

/-- The image `image<D, T>(volume)`: every cell zero. -/
def image.zeros (v : volume) : image := ⟨v, List.replicate v.cells 0⟩

/-- The read `img[i]`; `none` when `i` is outside the array. -/
def image.read (img : image) (i : Int) : Option ℚ :=
  if 0 ≤ i then img.data.get? i.toNat else none

/-- The write `img[i] = q`; `none` when `i` is outside the array. -/
def image.write (img : image) (i : Int) (q : ℚ) : Option image :=
  if 0 ≤ i ∧ i.toNat < img.data.length then
    some { img with data := img.data.set i.toNat q }
  else none

/-- The loop `for (int i = lo; i < hi; ++i) body`, threading the state `s`
through a body that may fail. -/
def for_loop {σ : Type} (lo hi : Int) (body : Int → σ → Option σ) (s : σ) : Option σ :=
  (List.range (hi - lo).toNat).foldlM (fun s n => body (lo + (n : Int)) s) s

/-! ## The weight field -/

/-- The lambda `idx` of `partial_sums`. -/
def partial_sums.idx (v : volume) (x y z : Int) : Int :=
  v.voxels.get 0 * v.voxels.get 1 * x + v.voxels.get 0 * y + z

/-- First triple loop of `partial_sums`. -/
def partial_sums.pass1 (w : image) (w_sums : image) : Option image :=
  let v := w.vol
  for_loop 0 (v.voxels.get 2) (fun k s =>
    for_loop 0 (v.voxels.get 1) (fun j s =>
      for_loop 1 (v.voxels.get 0) (fun i s => do
        let p ← s.read (partial_sums.idx v (i - 1) j k)
        let q ← w.read (partial_sums.idx v i j k)
        s.write (partial_sums.idx v i j k) (p + q)) s) s) w_sums

/-- Second triple loop of `partial_sums`. -/
def partial_sums.pass2 (w : image) (w_sums : image) : Option image :=
  let v := w.vol
  for_loop 0 (v.voxels.get 2) (fun k s =>
    for_loop 1 (v.voxels.get 1) (fun j s =>
      for_loop 0 (v.voxels.get 0) (fun i s => do
        let p ← s.read (partial_sums.idx v i (j - 1) k)
        let q ← w.read (partial_sums.idx v i (j - 1) k)
        s.write (partial_sums.idx v i j k) (p + q)) s) s) w_sums

/-- Third triple loop of `partial_sums`. -/
def partial_sums.pass3 (w : image) (w_sums : image) : Option image :=
  let v := w.vol
  for_loop 1 (v.voxels.get 2) (fun k s =>
    for_loop 0 (v.voxels.get 1) (fun j s =>
      for_loop 0 (v.voxels.get 0) (fun i s => do
        let p ← s.read (partial_sums.idx v i j (k - 1))
        let q ← w.read (partial_sums.idx v i j (k - 1))
        s.write (partial_sums.idx v i j k) (p + q)) s) s) w_sums

/-- The function `partial_sums(w)`. -/
def partial_sums (w : image) : Option image := do
  let w_sums := image.zeros w.vol
  let s1 ← partial_sums.pass1 w w_sums
  let s2 ← partial_sums.pass2 w s1
  partial_sums.pass3 w s2

/-- The function `weight(base, end, ws)`.  The flat index `ws.index(i, j, k)`
is a member of the image class, which is not under src/; it is the
parameter `index`. -/
def weight (index : Int → Int → Int → Int) (base end_ : ivec3) (ws : image) : Option ℚ := do
  let x := end_.x
  let y := end_.y
  let z := end_.z
  let x0 := base.x - 1
  let y0 := base.y - 1
  let z0 := base.z - 1
  let sum := fun (i j k : Int) => ws.read (index i j k)
  let a ← sum x y z
  let b ← if x0 > 0 then sum (x0 - 1) y z else some 0
  let c ← if y0 > 0 then sum x (y0 - 1) z else some 0
  let d ← if x0 > 0 ∧ y0 > 0 then sum (x0 - 1) (y0 - 1) z else some 0
  let e ← if z0 > 0 then sum x y (z0 - 1) else some 0
  let f ← if x0 > 0 ∧ z0 > 0 then sum (x0 - 1) y (z0 - 1) else some 0
  let g ← if y0 > 0 ∧ z0 > 0 then sum x (y0 - 1) (z0 - 1) else some 0
  let h ← if x0 > 0 ∧ y0 > 0 ∧ z0 > 0 then sum (x0 - 1) (y0 - 1) (z0 - 1) else some 0
  let v1 := a - b - c + d
  let v2 := e - f - g + h
  return v1 - v2

/-! ## Collaborators -/

/-- The functions this file calls and whose code is not under src/, for a
line type `L` (`math::line<3, T>`):
* `intersect_bounds line bounds`: the two points where the line meets the
  box, if it meets it (`math::intersect_bounds`);
* `approx_equal`: the comparison `math::approx_equal` of two scalars;
* `truncate_to_volume line volume`: the line clipped to the volume, if any
  of it lies inside (`math::truncate_to_volume`);
* `closest volume line`: the flat indices of the voxels the nearest-voxel
  projector `dim::closest` visits along the line. -/
structure collaborators (L : Type) where
  intersect_bounds : L → box_t → Option (vec3 × vec3)
  approx_equal : ℚ → ℚ → Bool
  truncate_to_volume : L → volume → Option L
  closest : volume → L → List Int

/-- The function `voxel_weights(geometry, volume)`: one hit for every voxel
the projector visits on every line, then the partial sums. -/
def voxel_weights {L : Type} (env : collaborators L) (geometry : List L) (vol : volume) :
    Option image := do
  let w ← geometry.foldlM (fun w line =>
      (env.closest vol line).foldlM (fun (w : image) idx => do
        let q ← w.read idx
        w.write idx (q + 1)) w) (image.zeros vol)
  partial_sums w

/-! ## Splits and the tree of splits -/

/-- The type `bulk::util::split`: an axis `d` and a coordinate `a`. -/
structure split_t where
  d : Int
  a : Int
  deriving DecidableEq, Repr

/-- The enumeration `binary_tree::dir`. -/
inductive dir where
  | left
  | right
  deriving DecidableEq, Repr

/-- Modelled from the spec: `bulk::util::binary_tree<T>` (a header of the Bulk
library, not under src/), "a binary tree whose internal nodes hold a
SplitDecision and two children (left/right)"; `nil` is an absent child. -/
inductive binary_tree (α : Type) where
  | nil : binary_tree α
  | node (value : α) (left right : binary_tree α) : binary_tree α
  deriving DecidableEq, Repr

/-- A `node*`: the node is named by the branches that lead to it from the
root. -/
abbrev node_ptr := List dir

/-- The tree `t` with the subtree at the end of `path` replaced by `s`; a
path through an absent node changes nothing. -/
def binary_tree.graft {α : Type} : binary_tree α → node_ptr → binary_tree α → binary_tree α
  | _, [], s => s
  | .nil, _ :: _, _ => .nil
  | .node v l r, dir.left :: p, s => .node v (graft l p s) r
  | .node v l r, dir.right :: p, s => .node v l (graft r p s)

/-- Modelled from the spec: `binary_tree::add(parent, direction, value)`
(Bulk, not under src/), "insert the resulting SplitDecision into the tree at
the (parent, direction) slot, producing a new tree node": a fresh node
without children becomes the `direction` child of `parent`, or the root when
`parent` is `nullptr`; the new node is returned with the tree. -/
def binary_tree.add {α : Type} (t : binary_tree α) (parent : Option node_ptr) (direction : dir)
    (value : α) : binary_tree α × node_ptr :=
  match parent with
  | none => (.node value .nil .nil, [])
  | some p => (t.graft (p ++ [direction]) (.node value .nil .nil), p ++ [direction])

/-- Number of nodes of a tree. -/
def binary_tree.size {α : Type} : binary_tree α → Nat
  | .nil => 0
  | .node _ l r => l.size + r.size + 1

/-- Every path from the root of the tree to an absent child has exactly `h`
nodes on it. -/
def binary_tree.perfect {α : Type} : Nat → binary_tree α → Prop
  | 0, .nil => True
  | 0, .node _ _ _ => False
  | _ + 1, .nil => False
  | h + 1, .node _ l r => perfect h l ∧ perfect h r

/-! ## find_split -/

/-- The local struct `crossing_event` of `find_split`. -/
structure crossing_event where
  point : vec3
  line_index : Nat
  direction : ivec3
  deriving DecidableEq, Repr

/-- The first loop of `find_split`: two crossing events for every line that
meets the box, none for a line that does not; `idx` counts the lines. -/
def collect_crossings {L : Type} (env : collaborators L) (bounds : box_t) :
    List L → Nat → List crossing_event
  | [], _ => []
  | line :: rest, idx =>
    match env.intersect_bounds line bounds with
    | some (a, b) =>
      ⟨a, idx, sign (b.sub a)⟩ :: ⟨b, idx, sign (a.sub b)⟩ ::
        collect_crossings env bounds rest (idx + 1)
    | none => collect_crossings env bounds rest (idx + 1)

/-! ### The arithmetic of `int` and of `double` -/

/-- The value of type `int` of a sum or difference whose mathematical value is
`x`: the integer of `[-2^31, 2^31)` that differs from `x` by a multiple of
`2^32`. -/
def wrap_int (x : Int) : Int := (x + 2147483648) % 4294967296 - 2147483648

/-- The power `2 ^ e` of two with an integer exponent. -/
def pow2 (e : Int) : ℚ :=
  if 0 ≤ e then ((2 ^ e.toNat : Nat) : ℚ) else 1 / ((2 ^ (-e).toNat : Nat) : ℚ)

/-- The integer nearest to `q`; of two nearest integers, the even one. -/
def round_half_even (q : ℚ) : Int :=
  let f : Int := q.num / (q.den : Int)
  if q - f < 1 / 2 then f
  else if 1 / 2 < q - f then f + 1
  else if f % 2 = 0 then f else f + 1

/-- The number of binary digits of `n`, by halving at most `fuel` times. -/
def bit_length : Nat → Nat → Nat
  | 0, _ => 0
  | fuel + 1, n => if n = 0 then 0 else bit_length fuel (n / 2) + 1

/-- The binary exponent of a rational `q` other than 0: the integer `e` with
`2 ^ e <= |q| < 2 ^ (e + 1)`. -/
def exponent (q : ℚ) : Int :=
  let e : Int := (bit_length q.num.natAbs q.num.natAbs : Int) - (bit_length q.den q.den : Int)
  if pow2 e ≤ |q| then e else e - 1

/-- The `double` nearest to `q`, ties to the even significand (the rounding
of IEEE 754 arithmetic): `q` is rounded to a multiple of
`2 ^ (exponent q - 52)`, which leaves 53 significant bits.  Overflow and
subnormal numbers are left out: the values rounded in this file are quotients
of two `int` and their differences from `0.5`. -/
def round_double (q : ℚ) : ℚ :=
  if q = 0 then 0
  else (round_half_even (q / pow2 (exponent q - 52)) : ℚ) * pow2 (exponent q - 52)

/-- The lambda `imbalance` of `find_split` on axis `d`:
`math::abs(0.5 - (T)(i - bounds[d][0]) / (bounds[d][1] - bounds[d][0]))`.  The
two differences are computed in `int`, the quotient and the difference from
`0.5` in `double`.  A box without extent along `d` makes the quotient a
division by zero, whose result is not a number below any bound: `none`. -/
def imbalance (bounds : box_t) (d : Nat) (i : Int) : Option ℚ :=
  if wrap_int ((bounds.get d).2 - (bounds.get d).1) = 0 then none
  else some |round_double (1 / 2 -
    round_double ((wrap_int (i - (bounds.get d).1) : ℚ) /
      (wrap_int ((bounds.get d).2 - (bounds.get d).1) : ℚ)))|

/-- The imbalance as the spec writes it, in exact arithmetic:
"imbalance = |0.5 - (candidate - lower)/(upper - lower)|". -/
def exact_imbalance (bounds : box_t) (d : Nat) (i : Int) : ℚ :=
  |1 / 2 - ((i - (bounds.get d).1 : Int) : ℚ) /
    (((bounds.get d).2 - (bounds.get d).1 : Int) : ℚ)|

/-- The bounds of the box along `d` lie between `-2^30` and `2^30 - 1`: the
sum and the difference of two coordinates within them are values of `int`. -/
def fits_int (bounds : box_t) (d : Nat) : Prop :=
  -1073741824 ≤ (bounds.get d).1 ∧ (bounds.get d).2 ≤ 1073741823

instance fits_int_decidable (bounds : box_t) (d : Nat) : Decidable (fits_int bounds d) :=
  inferInstanceAs (Decidable (_ ∧ _))

/-- The comparison `epsilon < bound` for an imbalance that may be undefined. -/
def below (epsilon : Option ℚ) (bound : ℚ) : Bool :=
  match epsilon with
  | some e => decide (e < bound)
  | none => false

/-- The variables `best_imbalance`, `best_overlap`, `best_split`, `best_d`. -/
structure best_t where
  best_imbalance : ℚ
  best_overlap : Int
  best_split : Int
  best_d : Int
  deriving DecidableEq, Repr

/-- The value `std::numeric_limits<int>::max()`. -/
def int_max : Int := 2147483647

/-- The state of the sweep along one axis: `overlap`, `last_split` and the
best candidate so far. -/
structure sweep_state where
  overlap : Int
  last_split : Int
  best : best_t
  deriving DecidableEq, Repr

/-- The test of the `if` that accepts a candidate. -/
def accepts (max_epsilon : ℚ) (best : best_t) (overlap : Int) (epsilon : Option ℚ) : Bool :=
  (decide (overlap < best.best_overlap) && below epsilon max_epsilon) ||
    (decide (overlap = best.best_overlap) && below epsilon best.best_imbalance)

/-- One candidate: the body of `if (split != last_split)` after
`last_split = split`. -/
def consider (bounds : box_t) (max_epsilon : ℚ) (d : Nat) (best : best_t) (overlap : Int)
    (half_split : Int) : best_t :=
  let epsilon := imbalance bounds d half_split
  if accepts max_epsilon best overlap epsilon then
    { best_overlap := overlap, best_imbalance := epsilon.getD 0,
      best_split := half_split, best_d := d }
  else best

/-- The body of the loop `for (; current_crossing < crossings.size(); ...)`. -/
def sweep_step (bounds : box_t) (max_epsilon : ℚ) (d : Nat) (st : sweep_state)
    (crossing : crossing_event) : sweep_state :=
  let split := trunc (crossing.point.get d)
  let st1 : sweep_state :=
    if split ≠ st.last_split then
      let half_split := Int.tdiv (wrap_int (st.last_split + split)) 2
      { st with last_split := split,
                best := consider bounds max_epsilon d st.best st.overlap half_split }
    else st
  { st1 with overlap := st1.overlap + crossing.direction.get d }

/-- The sweep along axis `d` over the crossings sorted along `d`: the `while`
loop passes the events at the lower bound and counts them in `overlap`, the
`for` loop runs `sweep_step` over the rest. -/
def sweep_axis {L : Type} (env : collaborators L) (bounds : box_t) (max_epsilon : ℚ) (d : Nat)
    (crossings : List crossing_event) (best : best_t) : best_t :=
  let at_lower := crossings.takeWhile
    (fun c => env.approx_equal (c.point.get d) ((bounds.get d).1 : ℚ))
  let overlap : Int := at_lower.length
  let last_split := (bounds.get d).1
  ((crossings.drop at_lower.length).foldl (sweep_step bounds max_epsilon d)
    ⟨overlap, last_split, best⟩).best

/-- The loop `for (int d = 0; d < D; ++d)`: the crossings are sorted in place
along `d` by `sort d` (the call of `std::sort` with `compare`), then swept.
The result is the best candidate and the crossings as the last sort left
them. -/
def search {L : Type} (env : collaborators L)
    (sort : Nat → List crossing_event → List crossing_event) (bounds : box_t) (max_epsilon : ℚ)
    (crossings : List crossing_event) : best_t × List crossing_event :=
  (List.range 3).foldl
    (fun (acc : best_t × List crossing_event) d =>
      let sorted := sort d acc.2
      (sweep_axis env bounds max_epsilon d sorted acc.1, sorted))
    (⟨max_epsilon, int_max, 0, -1⟩, crossings)

/-- The branch `if (best_d < 0)`: axis 0 and the middle of its bounds,
`best_split = (T)0.5 * (bounds[0][0] + bounds[0][1])` converted to `int`. -/
def fallback (bounds : box_t) (best : best_t) : best_t :=
  if best.best_d < 0 then
    { best with best_d := 0,
                best_split :=
                  trunc ((1 / 2 : ℚ) * ((wrap_int ((bounds.get 0).1 + (bounds.get 0).2) : Int) : ℚ)) }
  else best

/-- The call `s.insert(i)` on a `std::set<std::size_t>`, kept in increasing
order. -/
def set_insert (s : List Nat) (i : Nat) : List Nat :=
  if i ∈ s then s else s.orderedInsert (· ≤ ·) i

/-- The call `s.erase(i)` on a `std::set<std::size_t>`. -/
def set_erase (s : List Nat) (i : Nat) : List Nat := s.filter (fun j => j != i)

/-- The body of the loop `for (auto& crossing : crossings)` after the test
for `break`, on the pair `(indices_left, indices_right)`. -/
def classify_step (best_d : Nat) (sets : List Nat × List Nat) (crossing : crossing_event) :
    List Nat × List Nat :=
  if crossing.direction.get best_d > 0 then
    (set_insert sets.1 crossing.line_index, sets.2)
  else if crossing.direction.get best_d ≠ 0 then
    (sets.1, set_erase sets.2 crossing.line_index)
  else
    (set_insert sets.1 crossing.line_index, set_erase sets.2 crossing.line_index)

/-- The sets `indices_left` and `indices_right` after the loop over the
crossings sorted along `best_d`: the loop stops at the first crossing beyond
`best_split`; `n` is `lines.size()`. -/
def classify (best_d : Nat) (best_split : Int) (crossings : List crossing_event) (n : Nat) :
    List Nat × List Nat :=
  (crossings.takeWhile (fun c => !decide (c.point.get best_d > (best_split : ℚ)))).foldl
    (classify_step best_d) ([], List.range n)

/-- What `find_split` computes before it copies lines: the split and the two
index sets. -/
def find_split_indices {L : Type} (env : collaborators L)
    (sort : Nat → List crossing_event → List crossing_event) (lines : List L) (bounds : box_t)
    (max_epsilon : ℚ) : split_t × List Nat × List Nat :=
  let crossings := collect_crossings env bounds lines 0
  let found := search env sort bounds max_epsilon crossings
  let best := fallback bounds found.1
  let sorted := sort best.best_d.toNat found.2
  let sets := classify best.best_d.toNat best.best_split sorted lines.length
  (⟨best.best_d, best.best_split⟩, sets.1, sets.2)

/-- The function `find_split`: the split, and the vectors `lines_left` and
`lines_right` after the call (the lines of the two index sets are pushed
behind what the vectors held).  The prefix table `ws` is received and not
read. -/
def find_split {L : Type} (env : collaborators L)
    (sort : Nat → List crossing_event → List crossing_event) (lines : List L)
    (lines_left lines_right : List L) (bounds : box_t) (_ws : image) (max_epsilon : ℚ) :
    split_t × List L × List L :=
  let r := find_split_indices env sort lines bounds max_epsilon
  (r.1, lines_left ++ r.2.1.filterMap (fun i => lines.get? i),
    lines_right ++ r.2.2.filterMap (fun i => lines.get? i))

/-! ## partition_bisection -/

/-- Modelled from the spec: `math::is_power_of_two` (math.hpp is not under
src/), the test of the precondition "`P` is a power of two". -/
def is_power_of_two (n : Int) : Bool :=
  decide (0 < n) && decide (2 ^ Nat.log2 n.toNat = n.toNat)

/-- The local struct `subvolume` of `partition_bisection`. -/
structure subvolume (L : Type) where
  bounds : box_t
  parent : Option node_ptr
  direction : dir
  lines : List L
  depth : Int

/-- The variables the `while` loop works on: the stack (its top is the head
of the list) and the tree. -/
structure loop_state (L : Type) where
  split_stack : List (subvolume L)
  result : binary_tree split_t

/-- One pass through the body of `while (!split_stack.empty())` with `sub` on
top of the stack and `rest` below it; `depth` is the depth computed from the
processor count.  The source reads `sub.depth` through its reference after
`pop()`; here it is the depth the subvolume had on the stack. -/
def loop_body {L : Type} (env : collaborators L)
    (sort : Nat → List crossing_event → List crossing_event) (ws : image) (max_epsilon : ℚ)
    (depth : Int) (sub : subvolume L) (rest : List (subvolume L))
    (result : binary_tree split_t) : loop_state L :=
  let found := find_split env sort sub.lines [] [] sub.bounds ws max_epsilon
  let best_split := found.1
  let left := found.2.1
  let right := found.2.2
  let added := result.add sub.parent sub.direction best_split
  let current_node := added.2
  if sub.depth + 1 < depth then
    let bounds_left := sub.bounds.set_hi best_split.d.toNat best_split.a
    let bounds_right := sub.bounds.set_lo best_split.d.toNat best_split.a
    { split_stack :=
        ⟨bounds_right, some current_node, dir.right, right, sub.depth + 1⟩ ::
        ⟨bounds_left, some current_node, dir.left, left, sub.depth + 1⟩ :: rest,
      result := added.1 }
  else
    { split_stack := rest, result := added.1 }

/-- The loop `while (!split_stack.empty())`, run for at most `fuel` tests of
its condition: `some` tree when the stack empties within them. -/
def split_loop {L : Type} (env : collaborators L)
    (sort : Nat → List crossing_event → List crossing_event) (ws : image) (max_epsilon : ℚ)
    (depth : Int) : Nat → loop_state L → Option (binary_tree split_t)
  | 0, _ => none
  | fuel + 1, st =>
    match st.split_stack with
    | [] => some st.result
    | sub :: rest =>
      split_loop env sort ws max_epsilon depth fuel
        (loop_body env sort ws max_epsilon depth sub rest st.result)

/-- The state of the loop after `n` passes through its body (a state with an
empty stack stays as it is). -/
def loop_after {L : Type} (env : collaborators L)
    (sort : Nat → List crossing_event → List crossing_event) (ws : image) (max_epsilon : ℚ)
    (depth : Int) : Nat → loop_state L → loop_state L
  | 0, st => st
  | n + 1, st =>
    match st.split_stack with
    | [] => st
    | sub :: rest =>
      loop_after env sort ws max_epsilon depth n
        (loop_body env sort ws max_epsilon depth sub rest st.result)

/-- How a call of `partition_bisection` can end without a tree. -/
inductive failure where
  | assertion_failed
  | out_of_range
  | out_of_fuel
  deriving DecidableEq, Repr

deriving instance DecidableEq for Except

/-- The depth `(int)log2(processors)`. -/
def tree_depth (processors : Int) : Int := (Nat.log2 processors.toNat : Int)

/-- The lines `all_lines`: the lines of the geometry that
`truncate_to_volume` keeps, clipped. -/
def clip_lines {L : Type} (env : collaborators L) (geometry : List L) (object_volume : volume) :
    List L :=
  geometry.filterMap (fun l => env.truncate_to_volume l object_volume)

/-- The subvolume `complete_volume`: the box `bounds` whose upper bounds are
the voxel counts and whose lower bounds are those of a fresh `box_t`, zero
("one Subvolume covering the full voxel-space box, all clipped lines, no
parent, depth 0"). -/
def complete_volume {L : Type} (object_volume : volume) (all_lines : List L) : subvolume L :=
  { bounds := ⟨(0, object_volume.voxels.get 0), (0, object_volume.voxels.get 1),
               (0, object_volume.voxels.get 2)⟩,
    parent := none, direction := dir.left, lines := all_lines, depth := 0 }

/-- The function `partition_bisection`.  `geometry` is the sequence of lines
the geometry yields, `sort d` the call of `std::sort` along axis `d`, and
`fuel` bounds the number of times the loop tests its condition. -/
def partition_bisection {L : Type} (env : collaborators L)
    (sort : Nat → List crossing_event → List crossing_event) (fuel : Nat) (geometry : List L)
    (object_volume : volume) (processors : Int) (max_epsilon : ℚ) :
    Except failure (binary_tree split_t) :=
  if is_power_of_two processors = false then .error failure.assertion_failed
  else
    let depth := tree_depth processors
    if ((1 <<< depth.toNat : Nat) : Int) ≠ processors then .error failure.assertion_failed
    else
      let all_lines := clip_lines env geometry object_volume
      match voxel_weights env geometry object_volume with
      | none => .error failure.out_of_range
      | some ws =>
        match split_loop env sort ws max_epsilon depth fuel
            ⟨[complete_volume object_volume all_lines], binary_tree.nil⟩ with
        | none => .error failure.out_of_fuel
        | some tree => .ok tree

/-! ## The contract of the sort -/

/-- The order in which the sort along axis `d` leaves two events: `rhs` does
not go before `lhs` by `compare`, that is `lhs.point[d] <= rhs.point[d]`. -/
def along (d : Nat) (lhs rhs : crossing_event) : Prop := lhs.point.get d ≤ rhs.point.get d

instance along_decidable (d : Nat) : DecidableRel (along d) :=
  fun a b => inferInstanceAs (Decidable (a.point.get d ≤ b.point.get d))

instance along_total (d : Nat) : IsTotal crossing_event (along d) :=
  ⟨fun a b => le_total (a.point.get d) (b.point.get d)⟩

instance along_trans (d : Nat) : IsTrans crossing_event (along d) :=
  ⟨fun a b c (h1 : a.point.get d ≤ b.point.get d) (h2 : b.point.get d ≤ c.point.get d) =>
    le_trans h1 h2⟩

/-- What `std::sort` promises for the comparison along `d`: the result holds
the same events and is in non-decreasing order of the coordinate along `d`;
the order of events of equal coordinate is left open. -/
def sorts (sort : Nat → List crossing_event → List crossing_event) : Prop :=
  ∀ (d : Nat) (l : List crossing_event), (sort d l).Perm l ∧ (sort d l).Sorted (along d)

/-- The smaller of the coordinates along `d` of the two points where a line
meets the box. -/
def extent_lo (d : Nat) (ab : vec3 × vec3) : ℚ := min (ab.1.get d) (ab.2.get d)

/-- The larger of the coordinates along `d` of the two points where a line
meets the box. -/
def extent_hi (d : Nat) (ab : vec3 × vec3) : ℚ := max (ab.1.get d) (ab.2.get d)

/-! ## The candidates of the sweep -/

/-- The candidates the `for` loop of the sweep along `d` evaluates when it
runs over `crossings` from the state `overlap`, `last_split`: for each, the
overlap at that moment and the coordinate `half_split`, in the order of the
sweep. -/
def candidates_from (d : Nat) : Int → Int → List crossing_event → List (Int × Int)
  | _, _, [] => []
  | overlap, last_split, crossing :: rest =>
    let split := trunc (crossing.point.get d)
    if split ≠ last_split then
      (overlap, Int.tdiv (wrap_int (last_split + split)) 2) ::
        candidates_from d (overlap + crossing.direction.get d) split rest
    else candidates_from d (overlap + crossing.direction.get d) last_split rest

/-- The candidates the sweep along `d` evaluates on crossings sorted along
`d`, after the `while` loop has passed the events at the lower bound. -/
def candidates {L : Type} (env : collaborators L) (bounds : box_t) (d : Nat)
    (crossings : List crossing_event) : List (Int × Int) :=
  let at_lower := crossings.takeWhile
    (fun c => env.approx_equal (c.point.get d) ((bounds.get d).1 : ℚ))
  candidates_from d at_lower.length (bounds.get d).1 (crossings.drop at_lower.length)

/-- The crossings as the loop over the axes holds them during the sweep along
`d`: sorted along axis 0, then along axis 1, and so on up to `d`. -/
def sorted_along (sort : Nat → List crossing_event → List crossing_event)
    (crossings : List crossing_event) : Nat → List crossing_event
  | 0 => sort 0 crossings
  | d + 1 => sort (d + 1) (sorted_along sort crossings d)

/-- The values of the variables `best_...` before the loop over the axes. -/
def no_candidate (max_epsilon : ℚ) : best_t := ⟨max_epsilon, int_max, 0, -1⟩

/-- What holds of the best candidate throughout the search: `best_imbalance`
never exceeds the tolerance, and once a candidate is accepted it is the
imbalance of `best_split` along `best_d` and is below the tolerance. -/
def accepted_below (bounds : box_t) (max_epsilon : ℚ) (best : best_t) : Prop :=
  best.best_imbalance ≤ max_epsilon ∧
    (0 ≤ best.best_d →
      imbalance bounds best.best_d.toNat best.best_split = some best.best_imbalance ∧
        best.best_imbalance < max_epsilon)

/-- The while loop and the for loop of the sweep along `d` as one pass over
the crossings: `at_lower` tells whether the while loop is still running. -/
structure pass_state where
  at_lower : Bool
  sweep : sweep_state

/-- One crossing of the pass: counted by the while loop as long as that loop
runs and the crossing is at the lower bound, else handed to the for loop. -/
def pass_step {L : Type} (env : collaborators L) (bounds : box_t) (max_epsilon : ℚ) (d : Nat)
    (st : pass_state) (c : crossing_event) : pass_state :=
  if st.at_lower && env.approx_equal (c.point.get d) ((bounds.get d).1 : ℚ) then
    ⟨true, { st.sweep with overlap := st.sweep.overlap + 1 }⟩
  else ⟨false, sweep_step bounds max_epsilon d st.sweep c⟩

/-- A `std::set<std::size_t>` as a list: in increasing order, every element
once. -/
def is_set (s : List Nat) : Prop := s.Sorted (· ≤ ·) ∧ s.Nodup

/-! ## A concrete setting -/

/-- A segment between two points stands for a line. -/
abbrev segment := vec3 × vec3

/-- Collaborators for segments: a segment meets every box in its two end
points, scalars are approximately equal when they are equal, clipping keeps
every segment, and the projector visits no voxel. -/
def segment_env : collaborators segment where
  intersect_bounds := fun l _ => some l
  approx_equal := fun a b => decide (a = b)
  truncate_to_volume := fun l _ => some l
  closest := fun _ _ => []

/-- A sort along axis `d`: insertion sort, which keeps events of equal
coordinate in the order they had. -/
def stable_sort (d : Nat) (l : List crossing_event) : List crossing_event :=
  l.insertionSort (along d)

/-- A second sort along axis `d`, which reverses the order of events of equal
coordinate. -/
def reversing_sort (d : Nat) (l : List crossing_event) : List crossing_event :=
  l.reverse.insertionSort (along d)

/-- Four segments through the cube of 4 x 4 x 4 voxels. -/
def four_lines : List segment :=
  [(⟨0, 1, 1⟩, ⟨4, 1, 1⟩), (⟨0, 3, 3⟩, ⟨4, 3, 3⟩), (⟨1, 0, 2⟩, ⟨1, 4, 2⟩), (⟨3, 4, 1⟩, ⟨3, 0, 1⟩)]

/-- The cube of `n` voxels along each axis. -/
def cube (n : Int) : volume := ⟨⟨n, n, n⟩⟩

/-! ## The direct recursion -/

/-- The slot of the tree a subvolume fills: the root for the subvolume without
parent, else the `direction` child of `parent`. -/
def subvolume.slot {L : Type} (sub : subvolume L) : node_ptr :=
  match sub.parent with
  | none => []
  | some p => p ++ [sub.direction]

/-- The tree of the direct recursion with `levels + 1` levels: the split
found for `lines` and `bounds` at the root and, above level 0, the trees of the
left box with the left lines and of the right box with the right lines. -/
def build {L : Type} (env : collaborators L)
    (sort : Nat → List crossing_event → List crossing_event) (ws : image) (max_epsilon : ℚ) :
    Nat → List L → box_t → binary_tree split_t
  | 0, lines, bounds =>
    .node (find_split env sort lines [] [] bounds ws max_epsilon).1 .nil .nil
  | levels + 1, lines, bounds =>
    let found := find_split env sort lines [] [] bounds ws max_epsilon
    .node found.1
      (build env sort ws max_epsilon levels found.2.1
        (bounds.set_hi found.1.d.toNat found.1.a))
      (build env sort ws max_epsilon levels found.2.2
        (bounds.set_lo found.1.d.toNat found.1.a))

/-- The number of levels of the tree for `2 ^ k` processors: `k`, and one
level for one processor. -/
def levels_of (k : Nat) : Nat := max k 1

/-- A box away from the two lines `far_lines`: collaborators for which a
segment meets a box only if its first end point lies within the bounds of the
box along axis 0. -/
def clipping_env : collaborators segment where
  intersect_bounds := fun l b =>
    if ((b.get 0).1 : ℚ) ≤ l.1.get 0 ∧ l.1.get 0 ≤ ((b.get 0).2 : ℚ) then some l else none
  approx_equal := fun a b => decide (a = b)
  truncate_to_volume := fun l _ => some l
  closest := fun _ _ => []

/-- Two segments that begin at coordinate 7 and 9 along axis 0. -/
def far_lines : List segment := [(⟨7, 1, 1⟩, ⟨8, 1, 1⟩), (⟨9, 3, 3⟩, ⟨9, 3, 4⟩)]

/-! ## Definitions that follow the words of the specification -/

/-- The entry of "a standard multi-dimensional prefix-sum table" at the cell
`(i, j, k)`: the sum of the hit counts of `w` over the cells `(i', j', k')`
with `i' <= i`, `j' <= j` and `k' <= k`. -/
def prefix_sum_at (w : image) (i j k : Nat) : ℚ :=
  ((List.range (i + 1)).map (fun i' =>
    ((List.range (j + 1)).map (fun j' =>
      ((List.range (k + 1)).map (fun k' =>
        (w.read (partial_sums.idx w.vol i' j' k')).getD 0)).sum)).sum)).sum

/-- The direct recursion: `build(box, lines, depth)` is the node with the
split found for `lines` in `box` and, while `depth + 1 < limit`, with the
trees of the left box with the left lines and of the right box with the right
lines at `depth + 1` as children.  `gas` bounds the depth of the recursion; a
call without gas yields no node. -/
def recursive_build {L : Type} (env : collaborators L)
    (sort : Nat → List crossing_event → List crossing_event) (ws : image) (max_epsilon : ℚ)
    (limit : Int) : Nat → box_t → List L → Int → binary_tree split_t
  | 0, _, _, _ => .nil
  | gas + 1, bounds, lines, depth =>
    let found := find_split env sort lines [] [] bounds ws max_epsilon
    if depth + 1 < limit then
      .node found.1
        (recursive_build env sort ws max_epsilon limit gas
          (bounds.set_hi found.1.d.toNat found.1.a) found.2.1 (depth + 1))
        (recursive_build env sort ws max_epsilon limit gas
          (bounds.set_lo found.1.d.toNat found.1.a) found.2.2 (depth + 1))
    else .node found.1 .nil .nil

/-- All the candidates the search of `find_split` evaluates, in the order in
which it evaluates them: axis 0 first, and along each axis in the order of the
sweep; each with its axis, its overlap and its coordinate `half_split`. -/
def all_candidates {L : Type} (env : collaborators L)
    (sort : Nat → List crossing_event → List crossing_event) (bounds : box_t)
    (crossings : List crossing_event) : List (Nat × Int × Int) :=
  (List.range 3).flatMap (fun d =>
    (candidates env bounds d (sorted_along sort crossings d)).map (fun c => (d, c.1, c.2)))

/-- The candidate has an imbalance below `max_epsilon`. -/
def admissible (bounds : box_t) (max_epsilon : ℚ) (c : Nat × Int × Int) : Bool :=
  below (imbalance bounds c.1 c.2.2) max_epsilon

/-- The imbalance of a candidate (0 where it is undefined). -/
def imbalance_of (bounds : box_t) (c : Nat × Int × Int) : ℚ :=
  (imbalance bounds c.1 c.2.2).getD 0

/-- Candidate `c` has less overlap than `y`, or the same overlap and less
imbalance. -/
def strictly_better (bounds : box_t) (c y : Nat × Int × Int) : Prop :=
  c.2.1 < y.2.1 ∨ (c.2.1 = y.2.1 ∧ imbalance_of bounds c < imbalance_of bounds y)

/-- Candidate `c` has less overlap than `y`, or the same overlap and no more
imbalance. -/
def not_worse (bounds : box_t) (c y : Nat × Int × Int) : Prop :=
  c.2.1 < y.2.1 ∨ (c.2.1 = y.2.1 ∧ imbalance_of bounds c ≤ imbalance_of bounds y)

/-- A crossing event without the index of its line. -/
def crossing_event.unlabelled (c : crossing_event) : crossing_event :=
  { c with line_index := 0 }

/-- The crossing events of one line, without the index of the line. -/
def events_of {L : Type} (env : collaborators L) (bounds : box_t) (line : L) :
    List crossing_event :=
  match env.intersect_bounds line bounds with
  | some (a, b) => [⟨a, 0, sign (b.sub a)⟩, ⟨b, 0, sign (a.sub b)⟩]
  | none => []

/-- The line meets the box and the smaller of its two coordinates along `d`
is at or before `s`. -/
def begins_by {L : Type} (env : collaborators L) (bounds : box_t) (d : Nat) (s : Int)
    (line : L) : Bool :=
  match env.intersect_bounds line bounds with
  | some ab => decide (extent_lo d ab ≤ (s : ℚ))
  | none => false

/-- The line does not meet the box, or the larger of its two coordinates
along `d` is beyond `s`. -/
def ends_beyond {L : Type} (env : collaborators L) (bounds : box_t) (d : Nat) (s : Int)
    (line : L) : Bool :=
  match env.intersect_bounds line bounds with
  | some ab => decide ((s : ℚ) < extent_hi d ab)
  | none => true

/-- The candidates of the `for` loop of the sweep along `d` together with
what the loop has passed: for each candidate the overlap, the coordinate
`half_split`, the crossings the `for` loop has passed before it, and the
crossing at which it is evaluated.  `swept` holds the crossings passed so
far. -/
def swept_from (d : Nat) :
    List crossing_event → Int → Int → List crossing_event →
      List (Int × Int × List crossing_event × crossing_event)
  | _, _, _, [] => []
  | swept, overlap, last_split, crossing :: rest =>
    let split := trunc (crossing.point.get d)
    if split ≠ last_split then
      (overlap, Int.tdiv (wrap_int (last_split + split)) 2, swept, crossing) ::
        swept_from d (swept ++ [crossing]) (overlap + crossing.direction.get d) split rest
    else
      swept_from d (swept ++ [crossing]) (overlap + crossing.direction.get d) last_split rest

/-- The crossings the `while` loop of the sweep along `d` passes: the events
at the lower bound at the head of the sorted crossings. -/
def at_lower_bound {L : Type} (env : collaborators L) (bounds : box_t) (d : Nat)
    (crossings : List crossing_event) : List crossing_event :=
  crossings.takeWhile (fun c => env.approx_equal (c.point.get d) ((bounds.get d).1 : ℚ))

/-- The candidates of the sweep along `d` with what the `for` loop has passed
before each. -/
def swept_candidates {L : Type} (env : collaborators L) (bounds : box_t) (d : Nat)
    (crossings : List crossing_event) :
    List (Int × Int × List crossing_event × crossing_event) :=
  swept_from d [] (at_lower_bound env bounds d crossings).length (bounds.get d).1
    (crossings.drop (at_lower_bound env bounds d crossings).length)

/-- The line meets the box with its smaller coordinate along `d` before `x`
and its larger one at or after `x`. -/
def spans {L : Type} (env : collaborators L) (bounds : box_t) (d : Nat) (x : ℚ) (line : L) :
    Bool :=
  match env.intersect_bounds line bounds with
  | some ab => decide (extent_lo d ab < x) && decide (x ≤ extent_hi d ab)
  | none => false

/-- The number of lines that span the coordinate `x` along `d`. -/
def spanning_lines {L : Type} (env : collaborators L) (bounds : box_t) (d : Nat) (x : ℚ)
    (lines : List L) : Nat :=
  lines.countP (spans env bounds d x)

/-- The number of lines "whose intersection with the box has its smaller
d-coordinate at or before the previous swept coordinate and its larger
d-coordinate at or after the current swept coordinate". -/
def spanning_between {L : Type} (env : collaborators L) (bounds : box_t) (d : Nat)
    (previous current : ℚ) (lines : List L) : Nat :=
  lines.countP (fun line =>
    match env.intersect_bounds line bounds with
    | some ab => decide (extent_lo d ab ≤ previous) && decide (current ≤ extent_hi d ab)
    | none => false)

/-- The sum of the directions along `d` of a list of crossings. -/
def direction_sum (d : Nat) (crossings : List crossing_event) : Int :=
  (crossings.map (fun c => c.direction.get d)).sum

/-- A line along the face `x = 0` of the cube and a line through the cube
along axis 0. -/
def tangent_lines : List segment := [(⟨0, 1, 1⟩, ⟨0, 3, 1⟩), (⟨0, 2, 2⟩, ⟨4, 2, 2⟩)]

/-- The cube of 10 x 10 x 10 voxels as a box. -/
def ten_box : box_t := ⟨(0, 10), (0, 10), (0, 10)⟩

/-- One segment along axis 0, from `x = 6` to `x = 8`. -/
def tight_line : List segment := [(⟨6, 1, 1⟩, ⟨8, 1, 1⟩)]

/-- The `double` 0.2, that is the `double` nearest to 1/5. -/
def double_fifth : ℚ := 3602879701896397 / 18014398509481984

/-- The `double` next below the `double` 0.2. -/
def below_fifth : ℚ := 7205759403792793 / 36028797018963968

/-- The box `[0, 7) x [0, 4) x [0, 4)`. -/
def tie_box : box_t := ⟨(0, 7), (0, 4), (0, 4)⟩

/-- Two segments along axis 0 on an edge of the box, one from `x = 2` to
`x = 4` and one from `x = 4` to `x = 5`. -/
def tie_lines : List segment := [(⟨2, 0, 0⟩, ⟨4, 0, 0⟩), (⟨4, 0, 0⟩, ⟨5, 0, 0⟩)]

/-- A box with `2^31 - 1` voxels along axis 0. -/
def long_box : box_t := ⟨(0, 2147483647), (0, 4), (0, 4)⟩

/-- A segment along axis 0 from `x = 0` to `x = 10^9` and a segment along
axis 1 at `x = 1.2 * 10^9`. -/
def long_lines : List segment :=
  [(⟨0, 0, 0⟩, ⟨1000000000, 0, 0⟩), (⟨1200000000, 0, 0⟩, ⟨1200000000, 4, 0⟩)]

theorem wrap_int_of_fits (x : Int) (h1 : -2147483648 ≤ x) (h2 : x ≤ 2147483647) :
    wrap_int x = x := by
  unfold wrap_int
  omega

theorem pow2_eq_zpow (e : Int) : pow2 e = (2 : ℚ) ^ e := by
  unfold pow2
  split_ifs with h
  · obtain ⟨n, rfl⟩ := Int.eq_ofNat_of_zero_le h
    simp
  · obtain ⟨n, hn⟩ : ∃ n : Nat, e = -(n : Int) := ⟨(-e).toNat, by omega⟩
    subst hn
    simp

theorem pow2_pos (e : Int) : 0 < pow2 e := by
  rw [pow2_eq_zpow]
  positivity

theorem pow2_add (a b : Int) : pow2 (a + b) = pow2 a * pow2 b := by
  simp only [pow2_eq_zpow]
  exact zpow_add₀ (by norm_num) a b

theorem pow2_le_iff (a b : Int) : pow2 a ≤ pow2 b ↔ a ≤ b := by
  simp only [pow2_eq_zpow]
  exact zpow_le_zpow_iff_right₀ (by norm_num)

theorem pow2_natCast (n : Nat) : pow2 (n : Int) = ((2 ^ n : Nat) : ℚ) := by
  rw [pow2_eq_zpow]
  simp

/-- The rounding to the nearest integer does not pass an integer. -/
theorem round_half_even_le (y : ℚ) (n : Int) (h : y ≤ (n : ℚ)) : round_half_even y ≤ n := by
  have hfloor : y.num / (y.den : Int) = ⌊y⌋ := Rat.floor_def.symm
  have h1 : ((⌊y⌋ : Int) : ℚ) ≤ y := Int.floor_le y
  have hle : ⌊y⌋ ≤ n := by exact_mod_cast le_trans h1 h
  simp only [round_half_even, hfloor]
  split_ifs with ha hb hc
  · exact hle
  · have hlt : ((⌊y⌋ : Int) : ℚ) < (n : ℚ) := by linarith
    have : ⌊y⌋ < n := by exact_mod_cast hlt
    omega
  · exact hle
  · have hlt : ((⌊y⌋ : Int) : ℚ) < (n : ℚ) := by linarith
    have : ⌊y⌋ < n := by exact_mod_cast hlt
    omega

theorem le_round_half_even (y : ℚ) (n : Int) (h : (n : ℚ) ≤ y) : n ≤ round_half_even y := by
  have hfloor : y.num / (y.den : Int) = ⌊y⌋ := Rat.floor_def.symm
  have hle : n ≤ ⌊y⌋ := Int.le_floor.mpr h
  simp only [round_half_even, hfloor]
  split_ifs <;> omega

theorem bit_length_zero (fuel : Nat) : bit_length fuel 0 = 0 := by
  cases fuel <;> simp [bit_length]

/-- With enough fuel, `bit_length` is the number of binary digits:
`2 ^ (bit_length n - 1) <= n < 2 ^ bit_length n` for `n` other than 0. -/
theorem bit_length_spec : ∀ (fuel n : Nat), n ≤ fuel →
    n < 2 ^ bit_length fuel n ∧ (n ≠ 0 → 2 ^ bit_length fuel n ≤ 2 * n) := by
  intro fuel
  induction fuel with
  | zero =>
    intro n hn
    have : n = 0 := by omega
    subst this
    simp [bit_length]
  | succ fuel ih =>
    intro n hn
    by_cases h0 : n = 0
    · subst h0
      simp [bit_length]
    · have hstep : bit_length (fuel + 1) n = bit_length fuel (n / 2) + 1 := by
        simp [bit_length, h0]
      obtain ⟨h1, h2⟩ := ih (n / 2) (by omega)
      rw [hstep, pow_succ]
      refine ⟨by omega, fun _ => ?_⟩
      by_cases hhalf : n / 2 = 0
      · rw [hhalf, bit_length_zero]
        omega
      · have := h2 hhalf
        omega

/-- The binary exponent of `q` is not too large: `2 ^ exponent q <= |q|`. -/
theorem pow2_exponent_le (q : ℚ) (hq : q ≠ 0) : pow2 (exponent q) ≤ |q| := by
  unfold exponent
  simp only
  split_ifs with h
  · exact h
  · have hnum : q.num.natAbs ≠ 0 := by
      simpa using hq
    have hn := (bit_length_spec q.num.natAbs q.num.natAbs (le_refl _)).2 hnum
    have hd := (bit_length_spec q.den q.den (le_refl _)).1
    generalize bit_length q.num.natAbs q.num.natAbs = a at hn ⊢
    generalize bit_length q.den q.den = b at hd ⊢
    have habs : |q| = (q.num.natAbs : ℚ) / (q.den : ℚ) := by
      conv_lhs => rw [← Rat.num_div_den q]
      rw [abs_div, Nat.abs_cast, Nat.cast_natAbs, Int.cast_abs]
    rw [habs, pow2_eq_zpow, le_div_iff₀ (by exact_mod_cast q.den_pos)]
    have hpow : (2 : ℚ) ^ ((a : Int) - (b : Int) - 1) = (2 : ℚ) ^ a / ((2 : ℚ) ^ b * 2) := by
      rw [zpow_sub₀ (by norm_num), zpow_sub₀ (by norm_num), zpow_natCast, zpow_natCast,
        zpow_one, div_div]
    rw [hpow, div_mul_eq_mul_div, div_le_iff₀ (by positivity)]
    have hn' : ((2 : ℚ) ^ a) ≤ 2 * (q.num.natAbs : ℚ) := by exact_mod_cast hn
    have hd' : (q.den : ℚ) ≤ (2 : ℚ) ^ b := by exact_mod_cast hd.le
    have h0 : (0 : ℚ) ≤ (q.num.natAbs : ℚ) := Nat.cast_nonneg _
    have h2 : (0 : ℚ) ≤ (q.den : ℚ) := Nat.cast_nonneg _
    nlinarith [mul_le_mul hn' hd' h2 (by positivity : (0 : ℚ) ≤ 2 * (q.num.natAbs : ℚ))]

/-- Rounding to `double` does not pass a power of two. -/
theorem round_double_abs_le (q : ℚ) (j : Int) (h : |q| ≤ pow2 j) :
    |round_double q| ≤ pow2 j := by
  unfold round_double
  split_ifs with h0
  · rw [abs_zero]
    exact (pow2_pos j).le
  · have hE : pow2 (exponent q) ≤ |q| := pow2_exponent_le q h0
    have hej : exponent q ≤ j := (pow2_le_iff _ _).mp (le_trans hE h)
    generalize exponent q = e at hej ⊢
    have hupos : 0 < pow2 (e - 52) := pow2_pos _
    obtain ⟨k, hk⟩ : ∃ k : Nat, j - e + 52 = (k : Int) := ⟨(j - e + 52).toNat, by omega⟩
    have hB : pow2 j = ((2 ^ k : Nat) : ℚ) * pow2 (e - 52) := by
      rw [← pow2_natCast, ← pow2_add]
      congr 1
      omega
    have hy : |q / pow2 (e - 52)| ≤ ((2 ^ k : Nat) : ℚ) := by
      rw [abs_div, abs_of_pos hupos, div_le_iff₀ hupos, ← hB]
      exact h
    have hr1 : round_half_even (q / pow2 (e - 52)) ≤ ((2 ^ k : Nat) : Int) :=
      round_half_even_le _ _ (by push_cast; exact_mod_cast (abs_le.mp hy).2)
    have hr2 : -((2 ^ k : Nat) : Int) ≤ round_half_even (q / pow2 (e - 52)) :=
      le_round_half_even _ _ (by push_cast; exact_mod_cast (abs_le.mp hy).1)
    rw [abs_mul, abs_of_pos hupos, hB]
    apply mul_le_mul_of_nonneg_right _ hupos.le
    rw [abs_le]
    constructor
    · exact_mod_cast hr2
    · exact_mod_cast hr1

theorem round_double_nonneg (q : ℚ) (h : 0 ≤ q) : 0 ≤ round_double q := by
  unfold round_double
  split_ifs with h0
  · exact le_refl _
  · have hupos : 0 < pow2 (exponent q - 52) := pow2_pos _
    have hr : (0 : Int) ≤ round_half_even (q / pow2 (exponent q - 52)) :=
      le_round_half_even _ _ (by push_cast; exact div_nonneg h hupos.le)
    exact mul_nonneg (by exact_mod_cast hr) hupos.le

theorem round_half_even_error (y : ℚ) : |(round_half_even y : ℚ) - y| ≤ 1 / 2 := by
  have hfloor : y.num / (y.den : Int) = ⌊y⌋ := Rat.floor_def.symm
  have h1 : ((⌊y⌋ : Int) : ℚ) ≤ y := Int.floor_le y
  have h2 : y < ((⌊y⌋ : Int) : ℚ) + 1 := Int.lt_floor_add_one y
  simp only [round_half_even, hfloor]
  rw [abs_le]
  split_ifs with ha hb hc <;> push_cast <;> constructor <;> linarith

/-- Rounding to `double` moves a number of absolute value at most `2 ^ j` by
at most `2 ^ (j - 53)`. -/
theorem round_double_error (q : ℚ) (j : Int) (h : |q| ≤ pow2 j) :
    |round_double q - q| ≤ pow2 (j - 53) := by
  unfold round_double
  split_ifs with h0
  · rw [h0, sub_zero, abs_zero]
    exact (pow2_pos _).le
  · have hE : pow2 (exponent q) ≤ |q| := pow2_exponent_le q h0
    have hej : exponent q ≤ j := (pow2_le_iff _ _).mp (le_trans hE h)
    generalize exponent q = e at hej ⊢
    have hupos : 0 < pow2 (e - 52) := pow2_pos _
    have herr := round_half_even_error (q / pow2 (e - 52))
    have hq : q = q / pow2 (e - 52) * pow2 (e - 52) := by
      field_simp
    have hsub : (round_half_even (q / pow2 (e - 52)) : ℚ) * pow2 (e - 52) - q =
        ((round_half_even (q / pow2 (e - 52)) : ℚ) - q / pow2 (e - 52)) * pow2 (e - 52) := by
      rw [sub_mul, ← hq]
    have hhalf : pow2 (e - 53) = 1 / 2 * pow2 (e - 52) := by
      rw [show e - 53 = -1 + (e - 52) by ring, pow2_add]
      congr 1
    rw [hsub, abs_mul, abs_of_pos hupos]
    calc |(round_half_even (q / pow2 (e - 52)) : ℚ) - q / pow2 (e - 52)| * pow2 (e - 52)
        ≤ 1 / 2 * pow2 (e - 52) := mul_le_mul_of_nonneg_right herr hupos.le
      _ = pow2 (e - 53) := hhalf.symm
      _ ≤ pow2 (j - 53) := (pow2_le_iff _ _).mpr (by omega)

/-! ## Trees -/

theorem graft_graft {α : Type} (t : binary_tree α) (p q : node_ptr) (a b : binary_tree α) :
    (t.graft p a).graft (p ++ q) b = t.graft p (a.graft q b) := by
  induction p generalizing t with
  | nil => simp [binary_tree.graft]
  | cons d p ih =>
    cases t with
    | nil => simp [binary_tree.graft]
    | node v l r =>
      cases d <;> simp [binary_tree.graft, ih]

theorem add_eq_graft {L : Type} (t : binary_tree split_t) (sub : subvolume L) (v : split_t) :
    t.add sub.parent sub.direction v = (t.graft sub.slot (.node v .nil .nil), sub.slot) := by
  unfold binary_tree.add subvolume.slot
  cases sub.parent <;> simp [binary_tree.graft]

theorem build_size {L : Type} (env : collaborators L)
    (sort : Nat → List crossing_event → List crossing_event) (ws : image) (max_epsilon : ℚ)
    (n : Nat) : ∀ (lines : List L) (bounds : box_t),
      (build env sort ws max_epsilon n lines bounds).size = 2 ^ (n + 1) - 1 := by
  induction n with
  | zero => intro lines bounds; simp [build, binary_tree.size]
  | succ n ih =>
    intro lines bounds
    simp only [build, binary_tree.size, ih]
    have h : 1 ≤ 2 ^ (n + 1) := Nat.one_le_two_pow
    rw [pow_succ 2 (n + 1)]
    omega

theorem build_perfect {L : Type} (env : collaborators L)
    (sort : Nat → List crossing_event → List crossing_event) (ws : image) (max_epsilon : ℚ)
    (n : Nat) : ∀ (lines : List L) (bounds : box_t),
      (build env sort ws max_epsilon n lines bounds).perfect (n + 1) := by
  induction n with
  | zero => intro lines bounds; simp [build, binary_tree.perfect]
  | succ n ih =>
    intro lines bounds
    simp only [build, binary_tree.perfect]
    exact ⟨ih _ _, ih _ _⟩

/-! ## The worklist loop -/

theorem loop_after_add {L : Type} (env : collaborators L)
    (sort : Nat → List crossing_event → List crossing_event) (ws : image) (max_epsilon : ℚ)
    (depth : Int) (a b : Nat) : ∀ st : loop_state L,
      loop_after env sort ws max_epsilon depth (a + b) st =
        loop_after env sort ws max_epsilon depth b (loop_after env sort ws max_epsilon depth a st) := by
  induction a with
  | zero => intro st; simp [loop_after]
  | succ a ih =>
    intro st
    rw [Nat.add_right_comm]
    rcases st with ⟨stack, t⟩
    cases stack with
    | nil =>
      simp only [loop_after]
      clear ih
      induction b with
      | zero => simp [loop_after]
      | succ b _ => simp [loop_after]
    | cons sub rest => simp only [loop_after]; exact ih _

theorem split_loop_after {L : Type} (env : collaborators L)
    (sort : Nat → List crossing_event → List crossing_event) (ws : image) (max_epsilon : ℚ)
    (depth : Int) (n fuel : Nat) : ∀ st : loop_state L,
      split_loop env sort ws max_epsilon depth (n + (fuel + 1)) st =
        split_loop env sort ws max_epsilon depth (fuel + 1)
          (loop_after env sort ws max_epsilon depth n st) := by
  induction n with
  | zero => intro st; simp [loop_after]
  | succ n ih =>
    intro st
    rw [Nat.add_right_comm]
    rcases st with ⟨stack, t⟩
    cases stack with
    | nil => simp [split_loop, loop_after]
    | cons sub rest => simp only [split_loop, loop_after]; exact ih _

/-- The loop works a subvolume off in `2 ^ (m + 1) - 1` passes, where `m` is
the number of levels below it, and leaves the tree of the direct recursion
in its slot. -/
theorem loop_after_subvolume {L : Type} (env : collaborators L)
    (sort : Nat → List crossing_event → List crossing_event) (ws : image) (max_epsilon : ℚ)
    (depth : Int) (m : Nat) : ∀ (sub : subvolume L) (rest : List (subvolume L))
      (t : binary_tree split_t), (depth - sub.depth - 1).toNat = m →
      loop_after env sort ws max_epsilon depth (2 ^ (m + 1) - 1) ⟨sub :: rest, t⟩ =
        ⟨rest, t.graft sub.slot (build env sort ws max_epsilon m sub.lines sub.bounds)⟩ := by
  induction m with
  | zero =>
    intro sub rest t hm
    have hd : ¬ (sub.depth + 1 < depth) := by omega
    simp [loop_after, loop_body, hd, add_eq_graft, build]
  | succ m ih =>
    intro sub rest t hm
    have hd : sub.depth + 1 < depth := by omega
    have hpow : 2 ^ (m + 1 + 1) - 1 = 1 + ((2 ^ (m + 1) - 1) + (2 ^ (m + 1) - 1)) := by
      have h : 1 ≤ 2 ^ (m + 1) := Nat.one_le_two_pow
      rw [pow_succ 2 (m + 1)]
      omega
    rw [hpow, loop_after_add, loop_after_add]
    have h1 : loop_after env sort ws max_epsilon depth 1 ⟨sub :: rest, t⟩ =
        loop_body env sort ws max_epsilon depth sub rest t := by
      simp [loop_after]
    rw [h1]
    simp only [loop_body, hd, if_true, add_eq_graft]
    rw [ih _ _ _ (by simp only; omega), ih _ _ _ (by simp only; omega)]
    simp only [subvolume.slot, graft_graft, build, binary_tree.graft]

/-! ## C1 and C2: the shape of the tree and the precondition -/

theorem tree_depth_two_pow (k : Nat) : tree_depth ((2 ^ k : Nat) : Int) = (k : Int) := by
  unfold tree_depth
  rw [Int.toNat_ofNat, Nat.log2_two_pow]

theorem is_power_of_two_iff (p : Int) (hp : 0 < p) :
    (is_power_of_two p = true ∧ ((1 <<< (tree_depth p).toNat : Nat) : Int) = p) ↔
      ∃ k : Nat, p = ((2 ^ k : Nat) : Int) := by
  constructor
  · rintro ⟨_, h⟩
    refine ⟨(tree_depth p).toNat, ?_⟩
    rw [← Nat.one_shiftLeft]
    exact h.symm
  · rintro ⟨k, rfl⟩
    refine ⟨?_, ?_⟩
    · unfold is_power_of_two
      rw [Int.toNat_ofNat, Nat.log2_two_pow]
      simp only [decide_True, Bool.and_true, decide_eq_true_eq]
      exact hp
    · rw [tree_depth_two_pow, Int.toNat_ofNat, Nat.one_shiftLeft]

theorem assertions_pass_two_pow (k : Nat) :
    is_power_of_two ((2 ^ k : Nat) : Int) = true ∧
      ((1 <<< (tree_depth ((2 ^ k : Nat) : Int)).toNat : Nat) : Int) = ((2 ^ k : Nat) : Int) :=
  (is_power_of_two_iff _ (by positivity)).2 ⟨k, rfl⟩

theorem levels_of_pos (k : Nat) : levels_of k - 1 + 1 = levels_of k := by
  unfold levels_of; omega

theorem split_loop_complete_volume {L : Type} (env : collaborators L)
    (sort : Nat → List crossing_event → List crossing_event) (ws : image) (max_epsilon : ℚ)
    (k fuel : Nat) (hfuel : 2 ^ levels_of k ≤ fuel) (sub : subvolume L)
    (hparent : sub.parent = none) (hdepth : sub.depth = 0) :
    split_loop env sort ws max_epsilon (tree_depth ((2 ^ k : Nat) : Int)) fuel ⟨[sub], .nil⟩ =
      some (build env sort ws max_epsilon (levels_of k - 1) sub.lines sub.bounds) := by
  have h1 : 1 ≤ 2 ^ levels_of k := Nat.one_le_two_pow
  obtain ⟨f, rfl⟩ : ∃ f, fuel = (2 ^ (levels_of k - 1 + 1) - 1) + (f + 1) :=
    ⟨fuel - 2 ^ levels_of k, by rw [levels_of_pos]; omega⟩
  rw [split_loop_after, loop_after_subvolume env sort ws max_epsilon _ (levels_of k - 1)]
  · simp [split_loop, subvolume.slot, hparent, binary_tree.graft]
  · rw [tree_depth_two_pow, hdepth]; unfold levels_of; omega

theorem build_ws {L : Type} (env : collaborators L)
    (sort : Nat → List crossing_event → List crossing_event) (ws ws' : image) (max_epsilon : ℚ)
    (n : Nat) : ∀ (lines : List L) (bounds : box_t),
      build env sort ws max_epsilon n lines bounds = build env sort ws' max_epsilon n lines bounds := by
  induction n with
  | zero => intro lines bounds; rfl
  | succ n ih =>
    intro lines bounds
    simp only [build]
    rw [ih, ih]
    rfl

/-- The shape of the tree.  For `2 ^ k` processors, any `k`, any geometry,
volume and tolerance, and any fuel of at least `2 ^ max k 1`: the worklist loop
empties its stack, whatever the prefix table, and returns a tree with exactly
`2 ^ max k 1 - 1` nodes in which every path from the root to an absent child
has `max k 1` nodes (`2 ^ k - 1` nodes and paths of `k` nodes from `k = 1`
on); `partition_bisection` returns this tree, unless building the weight
field indexed outside an array. -/
theorem partition_bisection_tree_shape {L : Type} (env : collaborators L)
    (sort : Nat → List crossing_event → List crossing_event) (geometry : List L)
    (object_volume : volume) (max_epsilon : ℚ) (k fuel : Nat)
    (hfuel : 2 ^ levels_of k ≤ fuel) :
    ∃ tree : binary_tree split_t,
      tree.size = 2 ^ levels_of k - 1 ∧ tree.perfect (levels_of k) ∧
      (∀ ws : image,
        split_loop env sort ws max_epsilon (tree_depth ((2 ^ k : Nat) : Int)) fuel
          ⟨[complete_volume object_volume (clip_lines env geometry object_volume)], .nil⟩ =
            some tree) ∧
      partition_bisection env sort fuel geometry object_volume ((2 ^ k : Nat) : Int) max_epsilon =
        (match voxel_weights env geometry object_volume with
          | none => .error failure.out_of_range
          | some _ => .ok tree) := by
  let root : subvolume L := complete_volume object_volume (clip_lines env geometry object_volume)
  refine ⟨build env sort (image.zeros object_volume) max_epsilon (levels_of k - 1) root.lines
    root.bounds, ?_, ?_, ?_, ?_⟩
  · rw [build_size, levels_of_pos]
  · have h := build_perfect env sort (image.zeros object_volume) max_epsilon (levels_of k - 1)
      root.lines root.bounds
    rwa [levels_of_pos] at h
  · intro ws
    rw [split_loop_complete_volume env sort ws max_epsilon k fuel hfuel root rfl rfl]
    exact congrArg some (build_ws env sort ws _ max_epsilon _ _ _)
  · obtain ⟨hp, hs⟩ := assertions_pass_two_pow k
    unfold partition_bisection
    rw [if_neg (by rw [hp]; decide), if_neg (by simp only [ne_eq, not_not]; exact hs)]
    cases hws : voxel_weights env geometry object_volume with
    | none => rfl
    | some ws =>
      simp only
      rw [split_loop_complete_volume env sort ws max_epsilon k fuel hfuel root rfl rfl]
      simp only
      exact congrArg Except.ok (build_ws env sort ws _ max_epsilon _ _ _)

/-- The shape of the tree at `k = 2`: four processors, four lines through
the cube of 4 x 4 x 4 voxels. -/
theorem partition_bisection_tree_shape_witness :
    2 ^ levels_of 2 ≤ 4 ∧
    ∃ tree : binary_tree split_t,
      tree.size = 2 ^ levels_of 2 - 1 ∧ tree.perfect (levels_of 2) ∧
      (∀ ws : image,
        split_loop segment_env stable_sort ws (1 / 5) (tree_depth ((2 ^ 2 : Nat) : Int)) 4
          ⟨[complete_volume (cube 4) (clip_lines segment_env four_lines (cube 4))], .nil⟩ =
            some tree) ∧
      partition_bisection segment_env stable_sort 4 four_lines (cube 4) ((2 ^ 2 : Nat) : Int)
          (1 / 5) =
        (match voxel_weights segment_env four_lines (cube 4) with
          | none => .error failure.out_of_range
          | some _ => .ok tree) :=
  ⟨by decide, partition_bisection_tree_shape segment_env stable_sort four_lines (cube 4) (1 / 5)
    2 4 (by decide)⟩

/-- C1 at the failing input `k = 0`.  For one processor the depth is 0, yet
the loop pops the whole volume and adds its split to the tree before it tests
`sub.depth + 1 < depth`: the tree has one node, not `2 ^ 0 - 1 = 0` nodes, and
its root is not an absent child. -/
theorem one_processor_one_node :
    partition_bisection segment_env stable_sort 2 four_lines (cube 4) ((2 ^ 0 : Nat) : Int)
        (1 / 5) = .ok (.node ⟨2, 2⟩ .nil .nil) ∧
      (binary_tree.node (⟨2, 2⟩ : split_t) .nil .nil).size ≠ 2 ^ 0 - 1 ∧
      ¬ (binary_tree.node (⟨2, 2⟩ : split_t) .nil .nil).perfect 0 := by
  refine ⟨by decide!, by decide, ?_⟩
  simp [binary_tree.perfect]

/-- C2.  For a positive processor count, whatever the geometry, the volume,
the collaborators and the fuel: `partition_bisection` ends with a failed
assertion exactly when the count is not a power of two (so the failure does
not wait for the lines, the weights or the tree), and for `2 ^ k` both
assertions pass and the depth is `k`. -/
theorem partition_bisection_precondition {L : Type} (env : collaborators L)
    (sort : Nat → List crossing_event → List crossing_event) (fuel : Nat) (geometry : List L)
    (object_volume : volume) (max_epsilon : ℚ) (processors : Int) (hpos : 0 < processors) :
    (partition_bisection env sort fuel geometry object_volume processors max_epsilon =
        .error failure.assertion_failed ↔ ¬ ∃ k : Nat, processors = ((2 ^ k : Nat) : Int)) ∧
    (∀ k : Nat, processors = ((2 ^ k : Nat) : Int) →
      is_power_of_two processors = true ∧
      ((1 <<< (tree_depth processors).toNat : Nat) : Int) = processors ∧
      tree_depth processors = (k : Int)) := by
  constructor
  · rw [← is_power_of_two_iff processors hpos]
    unfold partition_bisection
    by_cases h1 : is_power_of_two processors = true
    · by_cases h2 : ((1 <<< (tree_depth processors).toNat : Nat) : Int) = processors
      · rw [if_neg (by simp [h1]), if_neg (by simp only [ne_eq, not_not]; exact h2)]
        simp only [h1, h2, and_self, not_true_eq_false, iff_false]
        cases voxel_weights env geometry object_volume with
        | none => simp
        | some ws =>
          simp only
          cases split_loop env sort ws max_epsilon (tree_depth processors) fuel
            ⟨[complete_volume object_volume (clip_lines env geometry object_volume)], .nil⟩ <;>
            simp
      · rw [if_neg (by simp [h1]), if_pos h2]
        simp [h2]
    · rw [if_pos (by simpa using h1)]
      simp [h1]
  · rintro k rfl
    exact ⟨(assertions_pass_two_pow k).1, (assertions_pass_two_pow k).2, tree_depth_two_pow k⟩

/-- The C2 theorem at three processors. -/
theorem partition_bisection_precondition_witness :
    (0 : Int) < 3 ∧
    (partition_bisection segment_env stable_sort 4 four_lines (cube 4) 3 (1 / 5) =
        .error failure.assertion_failed ↔ ¬ ∃ k : Nat, (3 : Int) = ((2 ^ k : Nat) : Int)) :=
  ⟨by decide, (partition_bisection_precondition segment_env stable_sort 4 four_lines (cube 4)
    (1 / 5) 3 (by decide)).1⟩

/-! ## The two index sets -/

theorem sign_get (v : vec3) (d : Nat) : (sign v).get d = sign1 (v.get d) := by
  unfold sign ivec3.get vec3.get
  split_ifs <;> rfl

theorem sub_get (a b : vec3) (d : Nat) : (a.sub b).get d = a.get d - b.get d := by
  unfold vec3.sub vec3.get
  split_ifs <;> rfl

theorem sign1_nonneg (q : ℚ) : 0 ≤ sign1 q ↔ 0 ≤ q := by
  unfold sign1
  split_ifs with h1 h2
  · simp [h1.le]
  · simp [h2]
  · have : q = 0 := le_antisymm (not_lt.mp h1) (not_lt.mp h2)
    simp [this]

theorem sign1_pos (q : ℚ) : 0 < sign1 q ↔ 0 < q := by
  unfold sign1
  split_ifs with h1 h2
  · simp [h1]
  · simp [h1]
  · simp [h1]

theorem mem_set_insert (s : List Nat) (i j : Nat) : j ∈ set_insert s i ↔ j = i ∨ j ∈ s := by
  unfold set_insert
  split_ifs with h
  · constructor
    · exact Or.inr
    · rintro (rfl | h') <;> assumption
  · simp [List.mem_orderedInsert]

theorem mem_set_erase (s : List Nat) (i j : Nat) : j ∈ set_erase s i ↔ j ∈ s ∧ j ≠ i := by
  simp [set_erase]

theorem mem_classify_left (d : Nat) (i : Nat) (cs : List crossing_event) :
    ∀ sets : List Nat × List Nat,
      i ∈ (cs.foldl (classify_step d) sets).1 ↔
        i ∈ sets.1 ∨ ∃ c ∈ cs, c.line_index = i ∧ 0 ≤ c.direction.get d := by
  induction cs with
  | nil => intro sets; simp
  | cons c cs ih =>
    intro sets
    rw [List.foldl_cons, ih]
    unfold classify_step
    split_ifs with h1 h2
    · simp only [mem_set_insert, List.mem_cons, exists_eq_or_imp]
      have : 0 ≤ c.direction.get d := le_of_lt h1
      constructor
      · rintro ((rfl | h) | h)
        · exact Or.inr (Or.inl ⟨rfl, this⟩)
        · exact Or.inl h
        · exact Or.inr (Or.inr h)
      · rintro (h | ⟨rfl, _⟩ | h)
        · exact Or.inl (Or.inr h)
        · exact Or.inl (Or.inl rfl)
        · exact Or.inr h
    · simp only [List.mem_cons, exists_eq_or_imp]
      have : ¬ 0 ≤ c.direction.get d := by omega
      simp [this]
    · simp only [mem_set_insert, List.mem_cons, exists_eq_or_imp]
      have : 0 ≤ c.direction.get d := by omega
      constructor
      · rintro ((rfl | h) | h)
        · exact Or.inr (Or.inl ⟨rfl, this⟩)
        · exact Or.inl h
        · exact Or.inr (Or.inr h)
      · rintro (h | ⟨rfl, _⟩ | h)
        · exact Or.inl (Or.inr h)
        · exact Or.inl (Or.inl rfl)
        · exact Or.inr h

theorem mem_classify_right (d : Nat) (i : Nat) (cs : List crossing_event) :
    ∀ sets : List Nat × List Nat,
      i ∈ (cs.foldl (classify_step d) sets).2 ↔
        i ∈ sets.2 ∧ ∀ c ∈ cs, c.line_index = i → 0 < c.direction.get d := by
  induction cs with
  | nil => intro sets; simp
  | cons c cs ih =>
    intro sets
    rw [List.foldl_cons, ih]
    unfold classify_step
    split_ifs with h1 h2
    · simp only [List.mem_cons, forall_eq_or_imp]
      constructor
      · rintro ⟨h, h'⟩
        exact ⟨h, fun _ => h1, h'⟩
      · rintro ⟨h, _, h'⟩
        exact ⟨h, h'⟩
    · simp only [mem_set_erase, List.mem_cons, forall_eq_or_imp]
      constructor
      · rintro ⟨⟨h, hne⟩, h'⟩
        exact ⟨h, fun he => absurd he.symm hne, h'⟩
      · rintro ⟨h, hc, h'⟩
        exact ⟨⟨h, fun he => h1 (hc he.symm)⟩, h'⟩
    · simp only [mem_set_erase, List.mem_cons, forall_eq_or_imp]
      constructor
      · rintro ⟨⟨h, hne⟩, h'⟩
        exact ⟨h, fun he => absurd he.symm hne, h'⟩
      · rintro ⟨h, hc, h'⟩
        exact ⟨⟨h, fun he => h1 (hc he.symm)⟩, h'⟩

/-- In a list sorted along `d`, the events before the first one beyond `s`
are the events at or before `s`. -/
theorem mem_takeWhile_sorted (d : Nat) (s : ℚ) (c : crossing_event) :
    ∀ l : List crossing_event, l.Sorted (along d) →
      (c ∈ l.takeWhile (fun c => !decide (c.point.get d > s)) ↔ c ∈ l ∧ c.point.get d ≤ s) := by
  intro l
  induction l with
  | nil => intro _; simp
  | cons x t ih =>
    intro hs
    have hx : ∀ y ∈ t, x.point.get d ≤ y.point.get d := (List.sorted_cons.mp hs).1
    have ht := ih (List.sorted_cons.mp hs).2
    by_cases hp : x.point.get d > s
    · rw [List.takeWhile_cons_of_neg (by simpa using hp)]
      simp only [List.not_mem_nil, List.mem_cons, false_iff, not_and, not_le]
      rintro (rfl | h)
      · exact hp
      · exact lt_of_lt_of_le hp (hx _ h)
    · rw [List.takeWhile_cons_of_pos (by simpa using hp)]
      simp only [List.mem_cons, ht]
      constructor
      · rintro (rfl | ⟨h, h'⟩)
        · exact ⟨Or.inl rfl, not_lt.mp hp⟩
        · exact ⟨Or.inr h, h'⟩
      · rintro ⟨rfl | h, h'⟩
        · exact Or.inl rfl
        · exact Or.inr ⟨h, h'⟩

theorem mem_collect_crossings {L : Type} (env : collaborators L) (bounds : box_t)
    (c : crossing_event) : ∀ (lines : List L) (idx : Nat),
      c ∈ collect_crossings env bounds lines idx ↔
        ∃ (i : Nat) (l : L) (a b : vec3), lines.get? i = some l ∧
          env.intersect_bounds l bounds = some (a, b) ∧
          (c = ⟨a, idx + i, sign (b.sub a)⟩ ∨ c = ⟨b, idx + i, sign (a.sub b)⟩) := by
  intro lines
  induction lines with
  | nil => intro idx; simp [collect_crossings]
  | cons l rest ih =>
    intro idx
    have step : (∃ (i : Nat) (l' : L) (a b : vec3), (l :: rest).get? i = some l' ∧
          env.intersect_bounds l' bounds = some (a, b) ∧
          (c = ⟨a, idx + i, sign (b.sub a)⟩ ∨ c = ⟨b, idx + i, sign (a.sub b)⟩)) ↔
        (∃ (a b : vec3), env.intersect_bounds l bounds = some (a, b) ∧
          (c = ⟨a, idx, sign (b.sub a)⟩ ∨ c = ⟨b, idx, sign (a.sub b)⟩)) ∨
        (∃ (i : Nat) (l' : L) (a b : vec3), rest.get? i = some l' ∧
          env.intersect_bounds l' bounds = some (a, b) ∧
          (c = ⟨a, idx + 1 + i, sign (b.sub a)⟩ ∨ c = ⟨b, idx + 1 + i, sign (a.sub b)⟩)) := by
      constructor
      · rintro ⟨i, l', a, b, hi, hab, hc⟩
        cases i with
        | zero =>
          simp only [List.get?_cons_zero, Option.some.injEq] at hi
          subst hi
          exact Or.inl ⟨a, b, hab, by simpa using hc⟩
        | succ i =>
          simp only [List.get?_cons_succ] at hi
          refine Or.inr ⟨i, l', a, b, hi, hab, ?_⟩
          rw [Nat.add_assoc, Nat.add_comm 1 i]
          exact hc
      · rintro (⟨a, b, hab, hc⟩ | ⟨i, l', a, b, hi, hab, hc⟩)
        · exact ⟨0, l, a, b, by simp, hab, by simpa using hc⟩
        · refine ⟨i + 1, l', a, b, by simpa using hi, hab, ?_⟩
          rw [Nat.add_assoc, Nat.add_comm 1 i] at hc
          exact hc
    rw [step, ← ih (idx + 1)]
    cases hint : env.intersect_bounds l bounds with
    | none => simp [collect_crossings, hint]
    | some ab =>
      obtain ⟨a, b⟩ := ab
      simp only [collect_crossings, hint, List.mem_cons, Option.some.injEq, Prod.mk.injEq]
      constructor
      · rintro (h | h | h)
        · exact Or.inl ⟨a, b, ⟨rfl, rfl⟩, Or.inl h⟩
        · exact Or.inl ⟨a, b, ⟨rfl, rfl⟩, Or.inr h⟩
        · exact Or.inr h
      · rintro (⟨a', b', ⟨rfl, rfl⟩, h | h⟩ | h)
        · exact Or.inl h
        · exact Or.inr (Or.inl h)
        · exact Or.inr (Or.inr h)

theorem search_snd_perm {L : Type} (env : collaborators L)
    (sort : Nat → List crossing_event → List crossing_event) (hsort : sorts sort)
    (bounds : box_t) (max_epsilon : ℚ) (crossings : List crossing_event) :
    (search env sort bounds max_epsilon crossings).2.Perm crossings := by
  have h : (search env sort bounds max_epsilon crossings).2 = sort 2 (sort 1 (sort 0 crossings)) := by
    simp [search, List.range, List.range.loop]
  rw [h]
  exact ((hsort 2 _).1.trans (hsort 1 _).1).trans (hsort 0 _).1

/-- The set `indices_left` holds the lines whose smaller coordinate along the
axis is at or before the cut. -/
theorem classify_left {L : Type} (env : collaborators L) (bounds : box_t) (lines : List L)
    (d : Nat) (s : Int) (sorted : List crossing_event)
    (hperm : sorted.Perm (collect_crossings env bounds lines 0))
    (hsorted : sorted.Sorted (along d)) (i : Nat) :
    i ∈ (classify d s sorted lines.length).1 ↔
      ∃ (l : L) (a b : vec3), lines.get? i = some l ∧
        env.intersect_bounds l bounds = some (a, b) ∧ extent_lo d (a, b) ≤ (s : ℚ) := by
  unfold classify
  rw [mem_classify_left]
  simp only [List.not_mem_nil, false_or, extent_lo, min_le_iff]
  constructor
  · rintro ⟨c, hc, hidx, hdir⟩
    rw [mem_takeWhile_sorted d _ c sorted hsorted, hperm.mem_iff, mem_collect_crossings] at hc
    obtain ⟨⟨i', l, a, b, hget, hint, hc | hc⟩, hle⟩ := hc
    · subst hc
      simp only [Nat.zero_add] at hidx
      subst hidx
      exact ⟨l, a, b, hget, hint, Or.inl hle⟩
    · subst hc
      simp only [Nat.zero_add] at hidx
      subst hidx
      exact ⟨l, a, b, hget, hint, Or.inr hle⟩
  · rintro ⟨l, a, b, hget, hint, hle⟩
    by_cases hab : a.get d ≤ b.get d
    · refine ⟨⟨a, i, sign (b.sub a)⟩, ?_, rfl, ?_⟩
      · rw [mem_takeWhile_sorted d _ _ sorted hsorted, hperm.mem_iff, mem_collect_crossings]
        refine ⟨⟨i, l, a, b, hget, hint, Or.inl (by simp)⟩, ?_⟩
        rcases hle with h | h
        · exact h
        · exact le_trans hab h
      · simp only [sign_get, sub_get, sign1_nonneg]
        linarith
    · refine ⟨⟨b, i, sign (a.sub b)⟩, ?_, rfl, ?_⟩
      · rw [mem_takeWhile_sorted d _ _ sorted hsorted, hperm.mem_iff, mem_collect_crossings]
        refine ⟨⟨i, l, a, b, hget, hint, Or.inr (by simp)⟩, ?_⟩
        rcases hle with h | h
        · exact le_trans (le_of_lt (not_le.mp hab)) h
        · exact h
      · simp only [sign_get, sub_get, sign1_nonneg]
        linarith [not_le.mp hab]

/-- The set `indices_right` holds the lines whose larger coordinate along the
axis is beyond the cut, and the lines that do not meet the box. -/
theorem classify_right {L : Type} (env : collaborators L) (bounds : box_t) (lines : List L)
    (d : Nat) (s : Int) (sorted : List crossing_event)
    (hperm : sorted.Perm (collect_crossings env bounds lines 0))
    (hsorted : sorted.Sorted (along d)) (i : Nat) :
    i ∈ (classify d s sorted lines.length).2 ↔
      ∃ l : L, lines.get? i = some l ∧
        ∀ a b : vec3, env.intersect_bounds l bounds = some (a, b) →
          (s : ℚ) < extent_hi d (a, b) := by
  unfold classify
  rw [mem_classify_right]
  simp only [List.mem_range, extent_hi, lt_max_iff]
  constructor
  · rintro ⟨hlt, hall⟩
    obtain ⟨l, hget⟩ : ∃ l, lines.get? i = some l := ⟨lines.get ⟨i, hlt⟩, List.get?_eq_get hlt⟩
    refine ⟨l, hget, ?_⟩
    intro a b hint
    by_contra hcon
    simp only [not_or, not_lt] at hcon
    by_cases hab : a.get d ≤ b.get d
    · have hmem : (⟨b, i, sign (a.sub b)⟩ : crossing_event) ∈
          sorted.takeWhile (fun c => !decide (c.point.get d > (s : ℚ))) := by
        rw [mem_takeWhile_sorted d _ _ sorted hsorted, hperm.mem_iff, mem_collect_crossings]
        exact ⟨⟨i, l, a, b, hget, hint, Or.inr (by simp)⟩, hcon.2⟩
      have h := hall _ hmem rfl
      simp only [sign_get, sub_get, sign1_pos] at h
      linarith
    · have hmem : (⟨a, i, sign (b.sub a)⟩ : crossing_event) ∈
          sorted.takeWhile (fun c => !decide (c.point.get d > (s : ℚ))) := by
        rw [mem_takeWhile_sorted d _ _ sorted hsorted, hperm.mem_iff, mem_collect_crossings]
        exact ⟨⟨i, l, a, b, hget, hint, Or.inl (by simp)⟩, hcon.1⟩
      have h := hall _ hmem rfl
      simp only [sign_get, sub_get, sign1_pos] at h
      linarith
  · rintro ⟨l, hget, hall⟩
    refine ⟨(List.get?_eq_some.mp hget).1, ?_⟩
    intro c hc hidx
    rw [mem_takeWhile_sorted d _ c sorted hsorted, hperm.mem_iff, mem_collect_crossings] at hc
    obtain ⟨⟨i', l', a, b, hget', hint, hc | hc⟩, hle⟩ := hc
    · subst hc
      simp only [Nat.zero_add] at hidx
      subst hidx
      rw [hget] at hget'
      cases hget'
      simp only [sign_get, sub_get, sign1_pos]
      rcases hall a b hint with h | h
      · exact absurd hle (not_le.mpr h)
      · linarith
    · subst hc
      simp only [Nat.zero_add] at hidx
      subst hidx
      rw [hget] at hget'
      cases hget'
      simp only [sign_get, sub_get, sign1_pos]
      rcases hall a b hint with h | h
      · linarith
      · exact absurd hle (not_le.mpr h)

/-- The index sets of `find_split` in terms of the split it returns. -/
theorem find_split_indices_mem {L : Type} (env : collaborators L)
    (sort : Nat → List crossing_event → List crossing_event) (hsort : sorts sort)
    (lines : List L) (bounds : box_t) (max_epsilon : ℚ) (i : Nat) :
    (i ∈ (find_split_indices env sort lines bounds max_epsilon).2.1 ↔
      ∃ (l : L) (a b : vec3), lines.get? i = some l ∧
        env.intersect_bounds l bounds = some (a, b) ∧
        extent_lo (find_split_indices env sort lines bounds max_epsilon).1.d.toNat (a, b) ≤
          ((find_split_indices env sort lines bounds max_epsilon).1.a : ℚ)) ∧
    (i ∈ (find_split_indices env sort lines bounds max_epsilon).2.2 ↔
      ∃ l : L, lines.get? i = some l ∧
        ∀ a b : vec3, env.intersect_bounds l bounds = some (a, b) →
          ((find_split_indices env sort lines bounds max_epsilon).1.a : ℚ) <
            extent_hi (find_split_indices env sort lines bounds max_epsilon).1.d.toNat (a, b)) := by
  have hperm := ((hsort (fallback bounds (search env sort bounds max_epsilon
      (collect_crossings env bounds lines 0)).1).best_d.toNat
      (search env sort bounds max_epsilon (collect_crossings env bounds lines 0)).2).1).trans
    (search_snd_perm env sort hsort bounds max_epsilon (collect_crossings env bounds lines 0))
  have hsorted := (hsort (fallback bounds (search env sort bounds max_epsilon
      (collect_crossings env bounds lines 0)).1).best_d.toNat
      (search env sort bounds max_epsilon (collect_crossings env bounds lines 0)).2).2
  exact ⟨classify_left env bounds lines _ _ _ hperm hsorted i,
    classify_right env bounds lines _ _ _ hperm hsorted i⟩

/-- The vectors `lines_left` and `lines_right` of a call with empty vectors,
line by line. -/
theorem find_split_mem {L : Type} (env : collaborators L)
    (sort : Nat → List crossing_event → List crossing_event) (hsort : sorts sort)
    (lines : List L) (bounds : box_t) (ws : image) (max_epsilon : ℚ) (l : L) :
    (l ∈ (find_split env sort lines [] [] bounds ws max_epsilon).2.1 ↔
      l ∈ lines ∧ ∃ a b : vec3, env.intersect_bounds l bounds = some (a, b) ∧
        extent_lo (find_split env sort lines [] [] bounds ws max_epsilon).1.d.toNat (a, b) ≤
          ((find_split env sort lines [] [] bounds ws max_epsilon).1.a : ℚ)) ∧
    (l ∈ (find_split env sort lines [] [] bounds ws max_epsilon).2.2 ↔
      l ∈ lines ∧ ∀ a b : vec3, env.intersect_bounds l bounds = some (a, b) →
        ((find_split env sort lines [] [] bounds ws max_epsilon).1.a : ℚ) <
          extent_hi (find_split env sort lines [] [] bounds ws max_epsilon).1.d.toNat (a, b)) := by
  have hsplit : (find_split env sort lines [] [] bounds ws max_epsilon).1 =
      (find_split_indices env sort lines bounds max_epsilon).1 := rfl
  have hleft : (find_split env sort lines [] [] bounds ws max_epsilon).2.1 =
      (find_split_indices env sort lines bounds max_epsilon).2.1.filterMap
        (fun i => lines.get? i) := by simp [find_split]
  have hright : (find_split env sort lines [] [] bounds ws max_epsilon).2.2 =
      (find_split_indices env sort lines bounds max_epsilon).2.2.filterMap
        (fun i => lines.get? i) := by simp [find_split]
  rw [hsplit, hleft, hright]
  simp only [List.mem_filterMap]
  constructor
  · constructor
    · rintro ⟨i, hi, hget⟩
      obtain ⟨l', a, b, hget', hint, hle⟩ :=
        (find_split_indices_mem env sort hsort lines bounds max_epsilon i).1.mp hi
      rw [hget] at hget'
      cases hget'
      exact ⟨List.get?_mem hget, a, b, hint, hle⟩
    · rintro ⟨hmem, a, b, hint, hle⟩
      obtain ⟨i, hget⟩ := List.mem_iff_get?.mp hmem
      exact ⟨i, (find_split_indices_mem env sort hsort lines bounds max_epsilon i).1.mpr
        ⟨l, a, b, hget, hint, hle⟩, hget⟩
  · constructor
    · rintro ⟨i, hi, hget⟩
      obtain ⟨l', hget', hall⟩ :=
        (find_split_indices_mem env sort hsort lines bounds max_epsilon i).2.mp hi
      rw [hget] at hget'
      cases hget'
      exact ⟨List.get?_mem hget, hall⟩
    · rintro ⟨hmem, hall⟩
      obtain ⟨i, hget⟩ := List.mem_iff_get?.mp hmem
      exact ⟨i, (find_split_indices_mem env sort hsort lines bounds max_epsilon i).2.mpr
        ⟨l, hget, hall⟩, hget⟩

/-! ## C3 and C4: where the lines of a subvolume go -/

theorem stable_sort_sorts : sorts stable_sort :=
  fun d l => ⟨List.perm_insertionSort (along d) l, List.sorted_insertionSort (along d) l⟩

theorem reversing_sort_sorts : sorts reversing_sort :=
  fun d l => ⟨(List.perm_insertionSort (along d) l.reverse).trans (List.reverse_perm l),
    List.sorted_insertionSort (along d) l.reverse⟩

theorem extent_lo_le_hi (d : Nat) (ab : vec3 × vec3) : extent_lo d ab ≤ extent_hi d ab :=
  le_trans (min_le_left _ _) (le_max_left _ _)

theorem find_split_left_or_right {L : Type} (env : collaborators L)
    (sort : Nat → List crossing_event → List crossing_event) (hsort : sorts sort)
    (lines : List L) (bounds : box_t) (ws : image) (max_epsilon : ℚ) (l : L) (hl : l ∈ lines) :
    l ∈ (find_split env sort lines [] [] bounds ws max_epsilon).2.1 ∨
      l ∈ (find_split env sort lines [] [] bounds ws max_epsilon).2.2 := by
  obtain ⟨hleft, hright⟩ := find_split_mem env sort hsort lines bounds ws max_epsilon l
  by_cases h : l ∈ (find_split env sort lines [] [] bounds ws max_epsilon).2.2
  · exact Or.inr h
  · left
    rw [hright] at h
    simp only [not_and, not_forall, not_lt] at h
    obtain ⟨a, b, hint, hle⟩ := h hl
    exact hleft.mpr ⟨hl, a, b, hint, le_trans (extent_lo_le_hi _ _) hle⟩

/-- A line of a subvolume on top of the stack is, at every level from that of
the subvolume down to the last, a line of a subvolume that comes on top of
the stack. -/
theorem loop_after_owner {L : Type} (env : collaborators L)
    (sort : Nat → List crossing_event → List crossing_event) (hsort : sorts sort) (ws : image)
    (max_epsilon : ℚ) (depth : Int) (l : L) (m : Nat) :
    ∀ (sub : subvolume L) (rest : List (subvolume L)) (t : binary_tree split_t) (j : Int),
      (depth - sub.depth - 1).toNat = m → l ∈ sub.lines → sub.depth ≤ j → j ≤ sub.depth + m →
      ∃ (n : Nat) (sub' : subvolume L) (rest' : List (subvolume L)),
        (loop_after env sort ws max_epsilon depth n ⟨sub :: rest, t⟩).split_stack = sub' :: rest' ∧
          sub'.depth = j ∧ l ∈ sub'.lines := by
  induction m with
  | zero =>
    intro sub rest t j _ hl h1 h2
    exact ⟨0, sub, rest, rfl, by omega, hl⟩
  | succ m ih =>
    intro sub rest t j hm hl h1 h2
    by_cases hj : j = sub.depth
    · exact ⟨0, sub, rest, rfl, hj.symm, hl⟩
    · have hd : sub.depth + 1 < depth := by omega
      have h1' : loop_after env sort ws max_epsilon depth 1 ⟨sub :: rest, t⟩ =
          loop_body env sort ws max_epsilon depth sub rest t := by
        simp [loop_after]
      have hlr := find_split_left_or_right env sort hsort sub.lines sub.bounds ws max_epsilon l hl
      generalize hf : find_split env sort sub.lines [] [] sub.bounds ws max_epsilon = found at hlr
      generalize ha : t.add sub.parent sub.direction found.1 = added
      have hbody : loop_body env sort ws max_epsilon depth sub rest t =
          ⟨(⟨sub.bounds.set_lo found.1.d.toNat found.1.a, some added.2, dir.right, found.2.2,
              sub.depth + 1⟩ : subvolume L) ::
            (⟨sub.bounds.set_hi found.1.d.toNat found.1.a, some added.2, dir.left, found.2.1,
              sub.depth + 1⟩ : subvolume L) :: rest, added.1⟩ := by
        simp only [loop_body, hd, if_true, hf, ha]
      rcases hlr with hleft | hright
      · have hR := loop_after_subvolume env sort ws max_epsilon depth m
          (⟨sub.bounds.set_lo found.1.d.toNat found.1.a, some added.2, dir.right, found.2.2,
              sub.depth + 1⟩ : subvolume L)
          ((⟨sub.bounds.set_hi found.1.d.toNat found.1.a, some added.2, dir.left, found.2.1,
              sub.depth + 1⟩ : subvolume L) :: rest) added.1 (by simp only; omega)
        obtain ⟨n, sub', rest', hn, hdep, hmem⟩ := ih
          (⟨sub.bounds.set_hi found.1.d.toNat found.1.a, some added.2, dir.left, found.2.1,
              sub.depth + 1⟩ : subvolume L) rest
          (added.1.graft (subvolume.slot (⟨sub.bounds.set_lo found.1.d.toNat found.1.a,
              some added.2, dir.right, found.2.2, sub.depth + 1⟩ : subvolume L))
            (build env sort ws max_epsilon m found.2.2
              (sub.bounds.set_lo found.1.d.toNat found.1.a)))
          j (by simp only; omega) hleft (by simp only; omega) (by simp only; omega)
        refine ⟨1 + (2 ^ (m + 1) - 1) + n, sub', rest', ?_, hdep, hmem⟩
        rw [loop_after_add, loop_after_add, h1', hbody, hR]
        exact hn
      · obtain ⟨n, sub', rest', hn, hdep, hmem⟩ := ih
          (⟨sub.bounds.set_lo found.1.d.toNat found.1.a, some added.2, dir.right, found.2.2,
              sub.depth + 1⟩ : subvolume L)
          ((⟨sub.bounds.set_hi found.1.d.toNat found.1.a, some added.2, dir.left, found.2.1,
              sub.depth + 1⟩ : subvolume L) :: rest) added.1
          j (by simp only; omega) hright (by simp only; omega) (by simp only; omega)
        refine ⟨1 + n, sub', rest', ?_, hdep, hmem⟩
        rw [loop_after_add, h1', hbody]
        exact hn

/-- C3.  With a sort that sorts: every line given to `find_split` with empty
output vectors is in `lines_left` or in `lines_right` afterwards, a line that
does not meet the box included; and in the loop of `partition_bisection` for
`2 ^ k` processors every clipped line is, at every level `j` of the tree, a
line of a subvolume of depth `j` that comes on top of the stack, and the
split of that subvolume puts it into one of its two parts. -/
theorem every_line_is_owned {L : Type} (env : collaborators L)
    (sort : Nat → List crossing_event → List crossing_event) (hsort : sorts sort)
    (ws : image) (max_epsilon : ℚ) :
    (∀ (lines : List L) (bounds : box_t) (l : L), l ∈ lines →
      l ∈ (find_split env sort lines [] [] bounds ws max_epsilon).2.1 ∨
        l ∈ (find_split env sort lines [] [] bounds ws max_epsilon).2.2) ∧
    (∀ (geometry : List L) (object_volume : volume) (k j : Nat) (l : L),
      l ∈ clip_lines env geometry object_volume → j < levels_of k →
      ∃ (n : Nat) (sub : subvolume L) (rest : List (subvolume L)),
        (loop_after env sort ws max_epsilon (tree_depth ((2 ^ k : Nat) : Int)) n
          ⟨[complete_volume object_volume (clip_lines env geometry object_volume)],
            .nil⟩).split_stack = sub :: rest ∧
        sub.depth = (j : Int) ∧ l ∈ sub.lines ∧
        (l ∈ (find_split env sort sub.lines [] [] sub.bounds ws max_epsilon).2.1 ∨
          l ∈ (find_split env sort sub.lines [] [] sub.bounds ws max_epsilon).2.2)) := by
  refine ⟨fun lines bounds l hl =>
    find_split_left_or_right env sort hsort lines bounds ws max_epsilon l hl, ?_⟩
  intro geometry object_volume k j l hl hj
  obtain ⟨n, sub, rest, hn, hdep, hmem⟩ :=
    loop_after_owner env sort hsort ws max_epsilon (tree_depth ((2 ^ k : Nat) : Int)) l
      (levels_of k - 1)
      (complete_volume object_volume (clip_lines env geometry object_volume)) [] .nil (j : Int)
      (by rw [tree_depth_two_pow]; simp only [complete_volume]; unfold levels_of; omega)
      hl (by simp only [complete_volume]; omega)
      (by simp only [complete_volume]; unfold levels_of at *; omega)
  exact ⟨n, sub, rest, hn, hdep, hmem,
    find_split_left_or_right env sort hsort sub.lines sub.bounds ws max_epsilon l hmem⟩

/-- The C3 theorem for the insertion sort, the four lines in the cube and
four processors. -/
theorem every_line_is_owned_witness :
    sorts stable_sort ∧
    ∀ (j : Nat) (l : segment), l ∈ clip_lines segment_env four_lines (cube 4) →
      j < levels_of 2 →
      ∃ (n : Nat) (sub : subvolume segment) (rest : List (subvolume segment)),
        (loop_after segment_env stable_sort (image.zeros (cube 4)) (1 / 5)
          (tree_depth ((2 ^ 2 : Nat) : Int)) n
          ⟨[complete_volume (cube 4) (clip_lines segment_env four_lines (cube 4))],
            .nil⟩).split_stack = sub :: rest ∧
        sub.depth = (j : Int) ∧ l ∈ sub.lines ∧
        (l ∈ (find_split segment_env stable_sort sub.lines [] [] sub.bounds
            (image.zeros (cube 4)) (1 / 5)).2.1 ∨
          l ∈ (find_split segment_env stable_sort sub.lines [] [] sub.bounds
            (image.zeros (cube 4)) (1 / 5)).2.2) :=
  ⟨stable_sort_sorts, fun j l =>
    (every_line_is_owned segment_env stable_sort stable_sort_sorts (image.zeros (cube 4))
      (1 / 5)).2 four_lines (cube 4) 2 j l⟩

/-- C4.  With a sort that sorts, for a call of `find_split` with empty output
vectors that returns the split `(d, a)`: a line of `lines` is in both
`lines_left` and `lines_right` exactly when it meets the box and its extent
along `d` crosses the cut (the smaller coordinate is at most `a`, the larger
one is beyond `a`); a line that does not cross the cut is in exactly one of
the two.  The same holds for the index of the line and the two index sets. -/
theorem in_both_iff_crosses_cut {L : Type} (env : collaborators L)
    (sort : Nat → List crossing_event → List crossing_event) (hsort : sorts sort)
    (lines : List L) (bounds : box_t) (ws : image) (max_epsilon : ℚ) :
    (∀ l ∈ lines,
      ((l ∈ (find_split env sort lines [] [] bounds ws max_epsilon).2.1 ∧
          l ∈ (find_split env sort lines [] [] bounds ws max_epsilon).2.2) ↔
        ∃ a b : vec3, env.intersect_bounds l bounds = some (a, b) ∧
          extent_lo (find_split env sort lines [] [] bounds ws max_epsilon).1.d.toNat (a, b) ≤
            ((find_split env sort lines [] [] bounds ws max_epsilon).1.a : ℚ) ∧
          ((find_split env sort lines [] [] bounds ws max_epsilon).1.a : ℚ) <
            extent_hi (find_split env sort lines [] [] bounds ws max_epsilon).1.d.toNat (a, b)) ∧
      ((¬ ∃ a b : vec3, env.intersect_bounds l bounds = some (a, b) ∧
          extent_lo (find_split env sort lines [] [] bounds ws max_epsilon).1.d.toNat (a, b) ≤
            ((find_split env sort lines [] [] bounds ws max_epsilon).1.a : ℚ) ∧
          ((find_split env sort lines [] [] bounds ws max_epsilon).1.a : ℚ) <
            extent_hi (find_split env sort lines [] [] bounds ws max_epsilon).1.d.toNat (a, b)) →
        ((l ∈ (find_split env sort lines [] [] bounds ws max_epsilon).2.1 ∧
            l ∉ (find_split env sort lines [] [] bounds ws max_epsilon).2.2) ∨
          (l ∉ (find_split env sort lines [] [] bounds ws max_epsilon).2.1 ∧
            l ∈ (find_split env sort lines [] [] bounds ws max_epsilon).2.2)))) ∧
    (∀ (i : Nat) (l : L), lines.get? i = some l →
      ((i ∈ (find_split_indices env sort lines bounds max_epsilon).2.1 ∧
          i ∈ (find_split_indices env sort lines bounds max_epsilon).2.2) ↔
        ∃ a b : vec3, env.intersect_bounds l bounds = some (a, b) ∧
          extent_lo (find_split_indices env sort lines bounds max_epsilon).1.d.toNat (a, b) ≤
            ((find_split_indices env sort lines bounds max_epsilon).1.a : ℚ) ∧
          ((find_split_indices env sort lines bounds max_epsilon).1.a : ℚ) <
            extent_hi (find_split_indices env sort lines bounds max_epsilon).1.d.toNat (a, b))) := by
  constructor
  · intro l hl
    obtain ⟨hleft, hright⟩ := find_split_mem env sort hsort lines bounds ws max_epsilon l
    have hboth : (l ∈ (find_split env sort lines [] [] bounds ws max_epsilon).2.1 ∧
          l ∈ (find_split env sort lines [] [] bounds ws max_epsilon).2.2) ↔
        ∃ a b : vec3, env.intersect_bounds l bounds = some (a, b) ∧
          extent_lo (find_split env sort lines [] [] bounds ws max_epsilon).1.d.toNat (a, b) ≤
            ((find_split env sort lines [] [] bounds ws max_epsilon).1.a : ℚ) ∧
          ((find_split env sort lines [] [] bounds ws max_epsilon).1.a : ℚ) <
            extent_hi (find_split env sort lines [] [] bounds ws max_epsilon).1.d.toNat (a, b) := by
      rw [hleft, hright]
      constructor
      · rintro ⟨⟨_, a, b, hint, hle⟩, _, hall⟩
        exact ⟨a, b, hint, hle, hall a b hint⟩
      · rintro ⟨a, b, hint, hle, hlt⟩
        refine ⟨⟨hl, a, b, hint, hle⟩, hl, ?_⟩
        intro a' b' hint'
        rw [hint] at hint'
        cases hint'
        exact hlt
    refine ⟨hboth, ?_⟩
    intro hno
    rw [← hboth] at hno
    rcases find_split_left_or_right env sort hsort lines bounds ws max_epsilon l hl with h | h
    · exact Or.inl ⟨h, fun h' => hno ⟨h, h'⟩⟩
    · exact Or.inr ⟨fun h' => hno ⟨h', h⟩, h⟩
  · intro i l hget
    obtain ⟨hleft, hright⟩ := find_split_indices_mem env sort hsort lines bounds max_epsilon i
    rw [hleft, hright]
    constructor
    · rintro ⟨⟨l', a, b, hget', hint, hle⟩, l'', hget'', hall⟩
      rw [hget] at hget' hget''
      cases hget'
      cases hget''
      exact ⟨a, b, hint, hle, hall a b hint⟩
    · rintro ⟨a, b, hint, hle, hlt⟩
      refine ⟨⟨l, a, b, hget, hint, hle⟩, l, hget, ?_⟩
      intro a' b' hint'
      rw [hint] at hint'
      cases hint'
      exact hlt

/-- The C4 theorem for the insertion sort and the four lines in the cube. -/
theorem in_both_iff_crosses_cut_witness :
    sorts stable_sort ∧
    ∀ l ∈ four_lines,
      ((l ∈ (find_split segment_env stable_sort four_lines [] [] ⟨(0, 4), (0, 4), (0, 4)⟩
            (image.zeros (cube 4)) (1 / 5)).2.1 ∧
          l ∈ (find_split segment_env stable_sort four_lines [] [] ⟨(0, 4), (0, 4), (0, 4)⟩
            (image.zeros (cube 4)) (1 / 5)).2.2) ↔
        ∃ a b : vec3, segment_env.intersect_bounds l ⟨(0, 4), (0, 4), (0, 4)⟩ = some (a, b) ∧
          extent_lo (find_split segment_env stable_sort four_lines [] []
            ⟨(0, 4), (0, 4), (0, 4)⟩ (image.zeros (cube 4)) (1 / 5)).1.d.toNat (a, b) ≤
            ((find_split segment_env stable_sort four_lines [] [] ⟨(0, 4), (0, 4), (0, 4)⟩
              (image.zeros (cube 4)) (1 / 5)).1.a : ℚ) ∧
          ((find_split segment_env stable_sort four_lines [] [] ⟨(0, 4), (0, 4), (0, 4)⟩
              (image.zeros (cube 4)) (1 / 5)).1.a : ℚ) <
            extent_hi (find_split segment_env stable_sort four_lines [] []
              ⟨(0, 4), (0, 4), (0, 4)⟩ (image.zeros (cube 4)) (1 / 5)).1.d.toNat (a, b)) :=
  ⟨stable_sort_sorts, fun l hl =>
    ((in_both_iff_crosses_cut segment_env stable_sort stable_sort_sorts four_lines
      ⟨(0, 4), (0, 4), (0, 4)⟩ (image.zeros (cube 4)) (1 / 5)).1 l hl).1⟩

/-! ## C5 and C6: the weight query on small grids -/

/-- C5 at a failing input.  On the grid of 2 x 2 x 2 voxels with one hit in
every voxel (8 hits) `partial_sums` yields the table `i + j + k`; the query
over the full box reads the table at `(2, 2, 2)`, outside its 8 cells, and the
last cell inside, `(1, 1, 1)`, holds 3.  On the grid of one voxel with 5 hits
the table is the single cell 0. -/
theorem weight_full_box_two_cube :
    partial_sums ⟨cube 2, [1, 1, 1, 1, 1, 1, 1, 1]⟩ = some ⟨cube 2, [0, 1, 1, 2, 1, 2, 2, 3]⟩ ∧
    weight (partial_sums.idx (cube 2)) ⟨0, 0, 0⟩ ⟨2, 2, 2⟩ ⟨cube 2, [0, 1, 1, 2, 1, 2, 2, 3]⟩ =
      none ∧
    weight (partial_sums.idx (cube 2)) ⟨0, 0, 0⟩ ⟨1, 1, 1⟩ ⟨cube 2, [0, 1, 1, 2, 1, 2, 2, 3]⟩ =
      some 3 ∧
    partial_sums ⟨cube 1, [5]⟩ = some ⟨cube 1, [0]⟩ := by
  refine ⟨by decide!, by decide!, by decide!, by decide!⟩

/-- C6 at a failing input.  On the grid of 3 x 3 x 3 voxels, for the table
whose cells are all 1 (the prefix sums of a single hit in voxel `(0, 0, 0)`),
the box from `(0, 0, 0)` to `(2, 2, 2)` cut along axis 0 at 1: the box weighs
1, and so does each of its two halves. -/
theorem weight_of_halves_three_cube :
    weight (partial_sums.idx (cube 3)) ⟨0, 0, 0⟩ ⟨2, 2, 2⟩ ⟨cube 3, List.replicate 27 1⟩ =
      some 1 ∧
    weight (partial_sums.idx (cube 3)) ⟨0, 0, 0⟩ ⟨1, 2, 2⟩ ⟨cube 3, List.replicate 27 1⟩ =
      some 1 ∧
    weight (partial_sums.idx (cube 3)) ⟨1, 0, 0⟩ ⟨2, 2, 2⟩ ⟨cube 3, List.replicate 27 1⟩ =
      some 1 := by
  refine ⟨by decide!, by decide!, by decide!⟩

/-! ## The sweep as a fold over its candidates -/

theorem sweep_fold (bounds : box_t) (max_epsilon : ℚ) (d : Nat) (cs : List crossing_event) :
    ∀ (overlap last_split : Int) (best : best_t),
      (cs.foldl (sweep_step bounds max_epsilon d) ⟨overlap, last_split, best⟩).best =
        (candidates_from d overlap last_split cs).foldl
          (fun b c => consider bounds max_epsilon d b c.1 c.2) best := by
  induction cs with
  | nil => intro overlap last_split best; rfl
  | cons c cs ih =>
    intro overlap last_split best
    rw [List.foldl_cons]
    by_cases h : trunc (c.point.get d) = last_split
    · have h1 : sweep_step bounds max_epsilon d ⟨overlap, last_split, best⟩ c =
          ⟨overlap + c.direction.get d, last_split, best⟩ := by
        simp [sweep_step, h]
      have h2 : candidates_from d overlap last_split (c :: cs) =
          candidates_from d (overlap + c.direction.get d) last_split cs := by
        simp [candidates_from, h]
      rw [h1, h2, ih]
    · have h1 : sweep_step bounds max_epsilon d ⟨overlap, last_split, best⟩ c =
          ⟨overlap + c.direction.get d, trunc (c.point.get d),
            consider bounds max_epsilon d best overlap
              (Int.tdiv (wrap_int (last_split + trunc (c.point.get d))) 2)⟩ := by
        simp [sweep_step, h]
      have h2 : candidates_from d overlap last_split (c :: cs) =
          (overlap, Int.tdiv (wrap_int (last_split + trunc (c.point.get d))) 2) ::
            candidates_from d (overlap + c.direction.get d) (trunc (c.point.get d)) cs := by
        simp [candidates_from, h]
      rw [h1, h2, ih, List.foldl_cons]

/-- The sweep along an axis does to the best candidate what `consider` does,
candidate after candidate. -/
theorem sweep_axis_eq {L : Type} (env : collaborators L) (bounds : box_t) (max_epsilon : ℚ)
    (d : Nat) (crossings : List crossing_event) (best : best_t) :
    sweep_axis env bounds max_epsilon d crossings best =
      (candidates env bounds d crossings).foldl
        (fun b c => consider bounds max_epsilon d b c.1 c.2) best := by
  unfold sweep_axis candidates
  exact sweep_fold bounds max_epsilon d _ _ _ _

theorem search_eq {L : Type} (env : collaborators L)
    (sort : Nat → List crossing_event → List crossing_event) (bounds : box_t) (max_epsilon : ℚ)
    (crossings : List crossing_event) :
    search env sort bounds max_epsilon crossings =
      (sweep_axis env bounds max_epsilon 2 (sorted_along sort crossings 2)
        (sweep_axis env bounds max_epsilon 1 (sorted_along sort crossings 1)
          (sweep_axis env bounds max_epsilon 0 (sorted_along sort crossings 0)
            (no_candidate max_epsilon))),
        sorted_along sort crossings 2) := by
  simp [search, List.range, List.range.loop, sorted_along, no_candidate]

/-! ## C7: the imbalance of an accepted split -/

theorem below_iff (epsilon : Option ℚ) (bound : ℚ) :
    below epsilon bound = true ↔ ∃ e, epsilon = some e ∧ e < bound := by
  cases epsilon with
  | none => simp [below]
  | some e => simp [below]

theorem consider_accepted_below (bounds : box_t) (max_epsilon : ℚ) (d : Nat) (best : best_t)
    (overlap half_split : Int) (h : accepted_below bounds max_epsilon best) :
    accepted_below bounds max_epsilon (consider bounds max_epsilon d best overlap half_split) := by
  unfold consider
  simp only
  split_ifs with hacc
  · have hlt : ∃ e, imbalance bounds d half_split = some e ∧ e < max_epsilon := by
      simp only [accepts, Bool.or_eq_true, Bool.and_eq_true, below_iff] at hacc
      rcases hacc with ⟨_, e, he, hlt⟩ | ⟨_, e, he, hlt⟩
      · exact ⟨e, he, hlt⟩
      · exact ⟨e, he, lt_of_lt_of_le hlt h.1⟩
    obtain ⟨e, he, hlt⟩ := hlt
    refine ⟨?_, fun _ => ⟨?_, ?_⟩⟩
    · simp only [he, Option.getD_some]; exact le_of_lt hlt
    · simp only [he, Option.getD_some, Int.toNat_ofNat]
    · simp only [he, Option.getD_some]; exact hlt
  · exact h

theorem foldl_consider_accepted_below (bounds : box_t) (max_epsilon : ℚ) (d : Nat)
    (cs : List (Int × Int)) : ∀ best : best_t, accepted_below bounds max_epsilon best →
      accepted_below bounds max_epsilon
        (cs.foldl (fun b c => consider bounds max_epsilon d b c.1 c.2) best) := by
  induction cs with
  | nil => intro best h; exact h
  | cons c cs ih =>
    intro best h
    rw [List.foldl_cons]
    exact ih _ (consider_accepted_below bounds max_epsilon d best c.1 c.2 h)

theorem search_accepted_below {L : Type} (env : collaborators L)
    (sort : Nat → List crossing_event → List crossing_event) (bounds : box_t) (max_epsilon : ℚ)
    (crossings : List crossing_event) :
    accepted_below bounds max_epsilon (search env sort bounds max_epsilon crossings).1 := by
  rw [search_eq]
  simp only [sweep_axis_eq]
  refine foldl_consider_accepted_below _ _ _ _ _ (foldl_consider_accepted_below _ _ _ _ _
    (foldl_consider_accepted_below _ _ _ _ _ ?_))
  refine ⟨le_refl _, fun h => ?_⟩
  simp [no_candidate] at h

theorem pow2_zero : pow2 0 = 1 := by norm_num [pow2]

theorem pow2_neg_one : pow2 (-1) = 1 / 2 := by norm_num [pow2]

/-- Within a box whose bounds fit, the differences of `imbalance` do not wrap
around, the computed imbalance lies between 0 and 1/2 and differs from the
exact one by at most `3 * 2 ^ (-54)`. -/
theorem imbalance_in_box (bounds : box_t) (d : Nat) (i : Int) (hfits : fits_int bounds d)
    (hbox : (bounds.get d).1 < (bounds.get d).2)
    (hi : (bounds.get d).1 ≤ i ∧ i ≤ (bounds.get d).2) :
    ∃ e : ℚ, imbalance bounds d i = some e ∧
      e = |round_double (1 / 2 - round_double (((i - (bounds.get d).1 : Int) : ℚ) /
        (((bounds.get d).2 - (bounds.get d).1 : Int) : ℚ)))| ∧
      0 ≤ e ∧ e ≤ 1 / 2 ∧ |e - exact_imbalance bounds d i| ≤ 3 * pow2 (-54) ∧
      0 ≤ exact_imbalance bounds d i ∧ exact_imbalance bounds d i ≤ 1 / 2 := by
  unfold fits_int at hfits
  have hw1 : wrap_int ((bounds.get d).2 - (bounds.get d).1) =
      (bounds.get d).2 - (bounds.get d).1 := wrap_int_of_fits _ (by omega) (by omega)
  have hw2 : wrap_int (i - (bounds.get d).1) = i - (bounds.get d).1 :=
    wrap_int_of_fits _ (by omega) (by omega)
  have hne : (bounds.get d).2 - (bounds.get d).1 ≠ 0 := by omega
  have hden : (0 : ℚ) < (((bounds.get d).2 - (bounds.get d).1 : Int) : ℚ) := by
    exact_mod_cast (by omega : 0 < (bounds.get d).2 - (bounds.get d).1)
  have hnum0 : (0 : ℚ) ≤ ((i - (bounds.get d).1 : Int) : ℚ) := by
    exact_mod_cast (by omega : 0 ≤ i - (bounds.get d).1)
  have hnum1 : ((i - (bounds.get d).1 : Int) : ℚ) ≤
      (((bounds.get d).2 - (bounds.get d).1 : Int) : ℚ) := by
    exact_mod_cast (by omega : i - (bounds.get d).1 ≤ (bounds.get d).2 - (bounds.get d).1)
  have hexact : exact_imbalance bounds d i =
      |1 / 2 - ((i - (bounds.get d).1 : Int) : ℚ) /
        (((bounds.get d).2 - (bounds.get d).1 : Int) : ℚ)| := rfl
  have h0 : 0 ≤ ((i - (bounds.get d).1 : Int) : ℚ) /
      (((bounds.get d).2 - (bounds.get d).1 : Int) : ℚ) := div_nonneg hnum0 hden.le
  have h1 : ((i - (bounds.get d).1 : Int) : ℚ) /
      (((bounds.get d).2 - (bounds.get d).1 : Int) : ℚ) ≤ 1 := (div_le_one hden).mpr hnum1
  have himb : imbalance bounds d i =
      some |round_double (1 / 2 - round_double (((i - (bounds.get d).1 : Int) : ℚ) /
        (((bounds.get d).2 - (bounds.get d).1 : Int) : ℚ)))| := by
    unfold imbalance
    rw [hw1, hw2, if_neg hne]
  generalize ((i - (bounds.get d).1 : Int) : ℚ) /
      (((bounds.get d).2 - (bounds.get d).1 : Int) : ℚ) = q at hexact h0 h1 himb ⊢
  have hq : |q| ≤ pow2 0 := by
    rw [pow2_zero, abs_le]
    constructor <;> linarith
  have hq0 : 0 ≤ round_double q := round_double_nonneg q h0
  have hq1 : round_double q ≤ 1 := by
    have := round_double_abs_le q 0 hq
    rw [pow2_zero] at this
    exact (abs_le.mp this).2
  have hqe : |round_double q - q| ≤ pow2 (-53) := by
    have := round_double_error q 0 hq
    rwa [show (0 : Int) - 53 = -53 by norm_num] at this
  have hx : |1 / 2 - round_double q| ≤ pow2 (-1) := by
    rw [pow2_neg_one, abs_le]
    constructor <;> linarith
  have hx1 : |round_double (1 / 2 - round_double q)| ≤ 1 / 2 := by
    have := round_double_abs_le _ (-1) hx
    rwa [pow2_neg_one] at this
  have hxe : |round_double (1 / 2 - round_double q) - (1 / 2 - round_double q)| ≤
      pow2 (-54) := by
    have := round_double_error _ (-1) hx
    rwa [show (-1 : Int) - 53 = -54 by norm_num] at this
  have h53 : pow2 (-53) = 2 * pow2 (-54) := by
    have h2 : pow2 1 = 2 := by norm_num [pow2]
    rw [show (-53 : Int) = 1 + (-54) by norm_num, pow2_add, h2]
  refine ⟨_, himb, rfl, abs_nonneg _, hx1, ?_, ?_, ?_⟩
  · rw [hexact]
    calc |(|round_double (1 / 2 - round_double q)| - |1 / 2 - q|)|
        ≤ |round_double (1 / 2 - round_double q) - (1 / 2 - q)| := abs_abs_sub_abs_le _ _
      _ = |(round_double (1 / 2 - round_double q) - (1 / 2 - round_double q)) -
            (round_double q - q)| := by ring_nf
      _ ≤ |round_double (1 / 2 - round_double q) - (1 / 2 - round_double q)| +
            |round_double q - q| := abs_sub _ _
      _ ≤ 3 * pow2 (-54) := by linarith
  · rw [hexact]; exact abs_nonneg _
  · rw [hexact, abs_le]
    constructor <;> linarith

/-- C7 (counterexample).  For the segment from `x = 6` to `x = 8` in the cube
of 10 x 10 x 10 voxels and `max_epsilon` the `double` next below 0.2, the
search accepts the cut at 7 along axis 0, whose imbalance `|0.5 - 7/10|` is
1/5, not below `max_epsilon`: the value computed in `double` is
`0.19999999999999996`, which is below. -/
theorem accepted_split_exact_imbalance :
    (find_split segment_env stable_sort tight_line [] [] ten_box (image.zeros (cube 10))
      below_fifth).1 = ⟨0, 7⟩ ∧
    0 ≤ (search segment_env stable_sort ten_box below_fifth
      (collect_crossings segment_env ten_box tight_line 0)).1.best_d ∧
    round_double below_fifth = below_fifth ∧
    exact_imbalance ten_box 0 7 = 1 / 5 ∧
    ¬ exact_imbalance ten_box 0 7 < below_fifth ∧
    imbalance ten_box 0 7 = some (900719925474099 / 4503599627370496) ∧
    (900719925474099 / 4503599627370496 : ℚ) < below_fifth := by
  decide!

/-- C7 (amended).  When the search of `find_split` ends with a candidate (the
fallback branch is not taken), the returned split `(d, a)` lies in a box with
extent along `d`, and the imbalance the code computes for it,
`|0.5 - (a - lo_d) / (hi_d - lo_d)|` with the differences in `int` and the
quotient and the difference from 0.5 in `double`, is below `max_epsilon`; the
proof goes through both branches of the acceptance test.  When the bounds
along `d` fit and `a` lies within them, the exact imbalance is below
`max_epsilon + 3 * 2 ^ (-54)`. -/
theorem accepted_split_imbalance {L : Type} (env : collaborators L)
    (sort : Nat → List crossing_event → List crossing_event) (lines lines_left lines_right : List L)
    (bounds : box_t) (ws : image) (max_epsilon : ℚ)
    (haccepted : 0 ≤ (search env sort bounds max_epsilon
      (collect_crossings env bounds lines 0)).1.best_d) :
    ∃ (d : Nat) (a : Int) (e : ℚ),
      (find_split env sort lines lines_left lines_right bounds ws max_epsilon).1 =
        ⟨(d : Int), a⟩ ∧
      wrap_int ((bounds.get d).2 - (bounds.get d).1) ≠ 0 ∧
      imbalance bounds d a = some e ∧
      e = |round_double (1 / 2 - round_double ((wrap_int (a - (bounds.get d).1) : ℚ) /
        (wrap_int ((bounds.get d).2 - (bounds.get d).1) : ℚ)))| ∧
      e < max_epsilon ∧
      (fits_int bounds d → (bounds.get d).1 ≤ a → a ≤ (bounds.get d).2 →
        exact_imbalance bounds d a < max_epsilon + 3 * pow2 (-54)) := by
  have hinv := search_accepted_below env sort bounds max_epsilon
    (collect_crossings env bounds lines 0)
  obtain ⟨himb, hlt⟩ := hinv.2 haccepted
  have hfb : fallback bounds (search env sort bounds max_epsilon
      (collect_crossings env bounds lines 0)).1 =
      (search env sort bounds max_epsilon (collect_crossings env bounds lines 0)).1 := by
    unfold fallback
    rw [if_neg (not_lt.mpr haccepted)]
  have hsplit : (find_split env sort lines lines_left lines_right bounds ws max_epsilon).1 =
      ⟨(search env sort bounds max_epsilon (collect_crossings env bounds lines 0)).1.best_d,
        (search env sort bounds max_epsilon (collect_crossings env bounds lines 0)).1.best_split⟩ := by
    simp only [find_split, find_split_indices, hfb]
  generalize (search env sort bounds max_epsilon
    (collect_crossings env bounds lines 0)).1 = best at haccepted himb hlt hsplit
  have hd : ((best.best_d.toNat : Nat) : Int) = best.best_d := Int.toNat_of_nonneg haccepted
  refine ⟨best.best_d.toNat, best.best_split, best.best_imbalance, by rw [hsplit, hd], ?_,
    himb, ?_, hlt, ?_⟩
  · intro h0
    unfold imbalance at himb
    rw [if_pos h0] at himb
    exact Option.noConfusion himb
  · unfold imbalance at himb
    split_ifs at himb with h0
    exact (Option.some.inj himb).symm
  · intro hfits hlo hhi
    have hne : (bounds.get best.best_d.toNat).1 ≠ (bounds.get best.best_d.toNat).2 := by
      intro heq
      unfold imbalance at himb
      rw [heq, sub_self] at himb
      exact Option.noConfusion (himb.symm.trans (if_pos (by decide)))
    obtain ⟨e, he, _, _, _, herr, _, _⟩ := imbalance_in_box bounds best.best_d.toNat
      best.best_split hfits (by omega) ⟨hlo, hhi⟩
    rw [himb] at he
    rw [← Option.some.inj he] at herr
    have := (abs_le.mp herr).1
    linarith

/-- The amended C7 theorem for the segment from `x = 6` to `x = 8` in the cube
of 10 x 10 x 10 voxels and `max_epsilon` the `double` 0.2: the cut at 3 has
the computed imbalance 0.2, which is not below; the cut at 7 has the computed
imbalance `0.19999999999999996` and is accepted. -/
theorem accepted_split_imbalance_witness :
    (0 ≤ (search segment_env stable_sort ten_box double_fifth
      (collect_crossings segment_env ten_box tight_line 0)).1.best_d) ∧
    round_double (1 / 5) = double_fifth ∧
    (find_split segment_env stable_sort tight_line [] [] ten_box (image.zeros (cube 10))
      double_fifth).1 = ⟨0, 7⟩ ∧
    imbalance ten_box 0 3 = some double_fifth ∧
    imbalance ten_box 0 7 = some (900719925474099 / 4503599627370496) ∧
    ∃ (d : Nat) (a : Int) (e : ℚ),
      (find_split segment_env stable_sort tight_line [] [] ten_box (image.zeros (cube 10))
        double_fifth).1 = ⟨(d : Int), a⟩ ∧
      wrap_int ((ten_box.get d).2 - (ten_box.get d).1) ≠ 0 ∧
      imbalance ten_box d a = some e ∧
      e = |round_double (1 / 2 - round_double ((wrap_int (a - (ten_box.get d).1) : ℚ) /
        (wrap_int ((ten_box.get d).2 - (ten_box.get d).1) : ℚ)))| ∧
      e < double_fifth ∧
      (fits_int ten_box d → (ten_box.get d).1 ≤ a → a ≤ (ten_box.get d).2 →
        exact_imbalance ten_box d a < double_fifth + 3 * pow2 (-54)) :=
  ⟨by decide!, by decide!, by decide!, by decide!, by decide!,
    accepted_split_imbalance segment_env stable_sort tight_line [] [] ten_box
      (image.zeros (cube 10)) double_fifth (by decide!)⟩

/-! ## C8: every candidate lies in the box -/

theorem trunc_eq (q : ℚ) : trunc q = if 0 ≤ q then ⌊q⌋ else ⌈q⌉ := by
  unfold trunc
  split_ifs with h
  · rw [Int.tdiv_eq_ediv (Rat.num_nonneg.mpr h) (by positivity), Rat.floor_def]
  · have hq : q < 0 := not_le.mp h
    have hnum : 0 ≤ -q.num := by
      have := Rat.num_neg.mpr hq
      omega
    have hceil : ⌈q⌉ = -⌊-q⌋ := by rw [Int.floor_neg, neg_neg]
    rw [hceil, Rat.floor_def, Rat.neg_num, Rat.neg_den, ← Int.tdiv_eq_ediv hnum (by positivity),
      Int.neg_tdiv, neg_neg]

theorem le_trunc (lo : Int) (q : ℚ) (h : (lo : ℚ) ≤ q) : lo ≤ trunc q := by
  rw [trunc_eq]
  split_ifs
  · exact Int.le_floor.mpr h
  · exact Int.cast_le.mp (le_trans h (Int.le_ceil q))

theorem trunc_le (hi : Int) (q : ℚ) (h : q ≤ (hi : ℚ)) : trunc q ≤ hi := by
  rw [trunc_eq]
  split_ifs
  · exact Int.cast_le.mp (le_trans (Int.floor_le q) h)
  · exact Int.ceil_le.mpr h

theorem tdiv_two (a : Int) : Int.tdiv a 2 = if 0 ≤ a then a / 2 else -((-a) / 2) := by
  split_ifs with h
  · exact Int.tdiv_eq_ediv h (by norm_num)
  · rw [show a = -(-a) by ring, Int.neg_tdiv, Int.tdiv_eq_ediv (by omega) (by norm_num)]
    simp

theorem half_split_bounds (lo hi a b : Int) (hlo : -1073741824 ≤ lo) (hhi : hi ≤ 1073741823)
    (ha : lo ≤ a ∧ a ≤ hi) (hb : lo ≤ b ∧ b ≤ hi) :
    lo ≤ Int.tdiv (wrap_int (a + b)) 2 ∧ Int.tdiv (wrap_int (a + b)) 2 ≤ hi := by
  rw [wrap_int_of_fits _ (by omega) (by omega), tdiv_two]
  split_ifs <;> omega

theorem candidates_from_in_box (d : Nat) (lo hi : Int) (hlo : -1073741824 ≤ lo)
    (hhi : hi ≤ 1073741823) (cs : List crossing_event) :
    ∀ (overlap last_split : Int), lo ≤ last_split ∧ last_split ≤ hi →
      (∀ c ∈ cs, (lo : ℚ) ≤ c.point.get d ∧ c.point.get d ≤ (hi : ℚ)) →
      ∀ cand ∈ candidates_from d overlap last_split cs,
        lo < hi ∧ lo ≤ cand.2 ∧ cand.2 ≤ hi := by
  induction cs with
  | nil => intro overlap last_split _ _ cand hcand; simp [candidates_from] at hcand
  | cons c cs ih =>
    intro overlap last_split hlast hall cand hcand
    have hc := hall c (List.mem_cons_self _ _)
    have hsplit : lo ≤ trunc (c.point.get d) ∧ trunc (c.point.get d) ≤ hi :=
      ⟨le_trunc lo _ hc.1, trunc_le hi _ hc.2⟩
    have hrest : ∀ c' ∈ cs, (lo : ℚ) ≤ c'.point.get d ∧ c'.point.get d ≤ (hi : ℚ) :=
      fun c' hc' => hall c' (List.mem_cons_of_mem _ hc')
    by_cases h : trunc (c.point.get d) = last_split
    · rw [show candidates_from d overlap last_split (c :: cs) =
          candidates_from d (overlap + c.direction.get d) last_split cs by
        simp [candidates_from, h]] at hcand
      exact ih _ _ hlast hrest cand hcand
    · rw [show candidates_from d overlap last_split (c :: cs) =
          (overlap, Int.tdiv (wrap_int (last_split + trunc (c.point.get d))) 2) ::
            candidates_from d (overlap + c.direction.get d) (trunc (c.point.get d)) cs by
        simp [candidates_from, h]] at hcand
      rcases List.mem_cons.mp hcand with rfl | hcand
      · refine ⟨by omega, ?_⟩
        exact half_split_bounds lo hi _ _ hlo hhi hlast hsplit
      · exact ih _ _ hsplit hrest cand hcand

/-- C8 (counterexample).  In a box with `2^31 - 1` voxels along axis 0 and
crossings within the box at `x = 0`, `x = 10^9` and `x = 1.2 * 10^9`, the sum
`last_split + split = 10^9 + 1.2 * 10^9` of the second candidate is no `int`:
it wraps around, the candidate is `-1047483648`, outside the box, and its
imbalance is above 0.98. -/
theorem candidate_imbalance_beyond_half :
    (∀ c ∈ stable_sort 0 (collect_crossings segment_env long_box long_lines 0),
      (((long_box.get 0).1 : Int) : ℚ) ≤ c.point.get 0 ∧
      c.point.get 0 ≤ (((long_box.get 0).2 : Int) : ℚ)) ∧
    candidates segment_env long_box 0
      (stable_sort 0 (collect_crossings segment_env long_box long_lines 0)) =
      [(1, 500000000), (0, -1047483648)] ∧
    wrap_int (1000000000 + 1200000000) = -2094967296 ∧
    imbalance long_box 0 (-1047483648) = some (4448532242078677 / 4503599627370496) ∧
    (49 / 50 : ℚ) < 4448532242078677 / 4503599627370496 ∧
    (1 / 2 : ℚ) < exact_imbalance long_box 0 (-1047483648) := by
  decide!

/-- C8 (amended).  On any axis `d` along which the bounds of the box lie
between `-2^30` and `2^30 - 1`, for crossings that lie within the bounds of
the box along `d`: the sweep treats the best candidate as `consider` does on
the candidates `half_split = (last_split + split) / 2` in turn; each of them
lies within the bounds, the box has `lo_d < hi_d`, so that nothing is divided
by zero, and the imbalance `|0.5 - (half_split - lo_d) / (hi_d - lo_d)|`, as
computed in `double` without any `int` wrapping around and also in exact
arithmetic, lies between 0 and 1/2. -/
theorem candidate_imbalance_range {L : Type} (env : collaborators L) (bounds : box_t)
    (max_epsilon : ℚ) (d : Nat) (crossings : List crossing_event) (hfits : fits_int bounds d)
    (hwithin : ∀ c ∈ crossings, ((bounds.get d).1 : ℚ) ≤ c.point.get d ∧
      c.point.get d ≤ ((bounds.get d).2 : ℚ)) :
    (∀ best : best_t, sweep_axis env bounds max_epsilon d crossings best =
      (candidates env bounds d crossings).foldl
        (fun b c => consider bounds max_epsilon d b c.1 c.2) best) ∧
    ∀ cand ∈ candidates env bounds d crossings,
      (bounds.get d).1 < (bounds.get d).2 ∧
      (bounds.get d).1 ≤ cand.2 ∧ cand.2 ≤ (bounds.get d).2 ∧
      ∃ e : ℚ, imbalance bounds d cand.2 = some e ∧
        e = |round_double (1 / 2 - round_double (((cand.2 - (bounds.get d).1 : Int) : ℚ) /
          (((bounds.get d).2 - (bounds.get d).1 : Int) : ℚ)))| ∧
        0 ≤ e ∧ e ≤ 1 / 2 ∧
        0 ≤ exact_imbalance bounds d cand.2 ∧ exact_imbalance bounds d cand.2 ≤ 1 / 2 := by
  refine ⟨fun best => sweep_axis_eq env bounds max_epsilon d crossings best, ?_⟩
  intro cand hcand
  unfold candidates at hcand
  simp only at hcand
  generalize hrest : crossings.drop (crossings.takeWhile
    (fun c => env.approx_equal (c.point.get d) ((bounds.get d).1 : ℚ))).length = rest at hcand
  have hrest_mem : ∀ c ∈ rest, ((bounds.get d).1 : ℚ) ≤ c.point.get d ∧
      c.point.get d ≤ ((bounds.get d).2 : ℚ) := by
    intro c hc
    rw [← hrest] at hc
    exact hwithin c (List.mem_of_mem_drop hc)
  cases rest with
  | nil => simp [candidates_from] at hcand
  | cons c cs =>
    have hc := hrest_mem c (List.mem_cons_self _ _)
    have hle : (bounds.get d).1 ≤ (bounds.get d).2 := by
      exact_mod_cast le_trans hc.1 hc.2
    obtain ⟨hlt, hlo, hhi⟩ := candidates_from_in_box d (bounds.get d).1 (bounds.get d).2
      hfits.1 hfits.2 (c :: cs) _ _ ⟨le_refl _, hle⟩ hrest_mem cand hcand
    obtain ⟨e, he, hval, h0, h1, _, hx0, hx1⟩ :=
      imbalance_in_box bounds d cand.2 hfits hlt ⟨hlo, hhi⟩
    exact ⟨hlt, hlo, hhi, e, he, hval, h0, h1, hx0, hx1⟩

/-- The amended C8 theorem along axis 0 for the two segments of `tie_lines` in
the box `[0, 7) x [0, 4) x [0, 4)`: the candidates are 1, 3 and 4, and the
imbalance computed for 3 is a little above the one computed for 4. -/
theorem candidate_imbalance_range_witness :
    fits_int tie_box 0 ∧
    (∀ c ∈ stable_sort 0 (collect_crossings segment_env tie_box tie_lines 0),
      (((tie_box.get 0).1 : Int) : ℚ) ≤ c.point.get 0 ∧
      c.point.get 0 ≤ (((tie_box.get 0).2 : Int) : ℚ)) ∧
    candidates segment_env tie_box 0
      (stable_sort 0 (collect_crossings segment_env tie_box tie_lines 0)) =
      [(0, 1), (1, 3), (1, 4)] ∧
    imbalance tie_box 0 3 = some (1286742750677285 / 18014398509481984) ∧
    imbalance tie_box 0 4 = some (321685687669321 / 4503599627370496) ∧
    ∀ cand ∈ candidates segment_env tie_box 0
        (stable_sort 0 (collect_crossings segment_env tie_box tie_lines 0)),
      (tie_box.get 0).1 < (tie_box.get 0).2 ∧
      (tie_box.get 0).1 ≤ cand.2 ∧ cand.2 ≤ (tie_box.get 0).2 ∧
      ∃ e : ℚ, imbalance tie_box 0 cand.2 = some e ∧
        e = |round_double (1 / 2 - round_double (((cand.2 - (tie_box.get 0).1 : Int) : ℚ) /
          (((tie_box.get 0).2 - (tie_box.get 0).1 : Int) : ℚ)))| ∧
        0 ≤ e ∧ e ≤ 1 / 2 ∧
        0 ≤ exact_imbalance tie_box 0 cand.2 ∧ exact_imbalance tie_box 0 cand.2 ≤ 1 / 2 :=
  ⟨by decide, by decide!, by decide!, by decide!, by decide!,
    (candidate_imbalance_range segment_env tie_box (1 / 5) 0
      (stable_sort 0 (collect_crossings segment_env tie_box tie_lines 0)) (by decide)
      (by decide!)).2⟩

/-! ## C9: the fallback -/

theorem sign1_le_one (q : ℚ) : sign1 q ≤ 1 := by
  unfold sign1
  split_ifs <;> decide

theorem collect_crossings_direction_le {L : Type} (env : collaborators L) (bounds : box_t)
    (lines : List L) (d : Nat) :
    ∀ c ∈ collect_crossings env bounds lines 0, c.direction.get d ≤ 1 := by
  intro c hc
  rw [mem_collect_crossings] at hc
  obtain ⟨i, l, a, b, _, _, rfl | rfl⟩ := hc <;>
    simp only [sign_get] <;> exact sign1_le_one _

theorem collect_crossings_length {L : Type} (env : collaborators L) (bounds : box_t) :
    ∀ (lines : List L) (idx : Nat),
      (collect_crossings env bounds lines idx).length ≤ 2 * lines.length := by
  intro lines
  induction lines with
  | nil => intro idx; simp [collect_crossings]
  | cons l rest ih =>
    intro idx
    have := ih (idx + 1)
    cases hint : env.intersect_bounds l bounds with
    | none => simp only [collect_crossings, hint, List.length_cons]; omega
    | some ab =>
      obtain ⟨a, b⟩ := ab
      simp only [collect_crossings, hint, List.length_cons]; omega

theorem sorted_along_perm (sort : Nat → List crossing_event → List crossing_event)
    (hsort : sorts sort) (crossings : List crossing_event) (d : Nat) :
    (sorted_along sort crossings d).Perm crossings := by
  induction d with
  | zero => exact (hsort 0 crossings).1
  | succ d ih => exact ((hsort (d + 1) _).1).trans ih

theorem candidates_from_overlap_le (d : Nat) (cs : List crossing_event) :
    ∀ (overlap last_split : Int), (∀ c ∈ cs, c.direction.get d ≤ 1) →
      ∀ cand ∈ candidates_from d overlap last_split cs, cand.1 ≤ overlap + cs.length := by
  induction cs with
  | nil => intro overlap last_split _ cand hcand; simp [candidates_from] at hcand
  | cons c cs ih =>
    intro overlap last_split hall cand hcand
    have hc := hall c (List.mem_cons_self _ _)
    have hrest : ∀ c' ∈ cs, c'.direction.get d ≤ 1 :=
      fun c' hc' => hall c' (List.mem_cons_of_mem _ hc')
    simp only [List.length_cons, Nat.cast_add, Nat.cast_one]
    by_cases h : trunc (c.point.get d) = last_split
    · rw [show candidates_from d overlap last_split (c :: cs) =
          candidates_from d (overlap + c.direction.get d) last_split cs by
        simp [candidates_from, h]] at hcand
      have := ih _ _ hrest cand hcand
      omega
    · rw [show candidates_from d overlap last_split (c :: cs) =
          (overlap, Int.tdiv (wrap_int (last_split + trunc (c.point.get d))) 2) ::
            candidates_from d (overlap + c.direction.get d) (trunc (c.point.get d)) cs by
        simp [candidates_from, h]] at hcand
      rcases List.mem_cons.mp hcand with rfl | hcand
      · simp only; omega
      · have := ih _ _ hrest cand hcand
        omega

theorem candidates_overlap_le {L : Type} (env : collaborators L) (bounds : box_t) (d : Nat)
    (crossings : List crossing_event) (hdir : ∀ c ∈ crossings, c.direction.get d ≤ 1) :
    ∀ cand ∈ candidates env bounds d crossings, cand.1 ≤ crossings.length := by
  intro cand hcand
  unfold candidates at hcand
  have h := candidates_from_overlap_le d _ _ _
    (fun c hc => hdir c (List.mem_of_mem_drop hc)) cand hcand
  have hlen : (crossings.takeWhile
      (fun c => env.approx_equal (c.point.get d) ((bounds.get d).1 : ℚ))).length ≤
      crossings.length := (List.takeWhile_sublist _).length_le
  rw [List.length_drop] at h
  omega

theorem consider_no_candidate (bounds : box_t) (max_epsilon : ℚ) (d : Nat) (c : Int × Int)
    (h : below (imbalance bounds d c.2) max_epsilon = false) :
    consider bounds max_epsilon d (no_candidate max_epsilon) c.1 c.2 =
      no_candidate max_epsilon := by
  simp [consider, accepts, no_candidate, h]

theorem trunc_half (n : Int) : trunc ((1 / 2 : ℚ) * (n : ℚ)) = Int.tdiv n 2 := by
  have hdiv : (1 / 2 : ℚ) * (n : ℚ) = (n : ℚ) / ((2 : ℕ) : ℚ) := by push_cast; ring
  have hneg : -((n : ℚ) / ((2 : ℕ) : ℚ)) = ((-n : Int) : ℚ) / ((2 : ℕ) : ℚ) := by
    push_cast; ring
  rw [trunc_eq, tdiv_two, hdiv]
  by_cases h : 0 ≤ n
  · have hq : (0 : ℚ) ≤ (n : ℚ) / ((2 : ℕ) : ℚ) := by
      apply div_nonneg
      · exact_mod_cast h
      · norm_num
    rw [if_pos hq, if_pos h, Rat.floor_intCast_div_natCast]
    norm_num
  · have hq : ¬ (0 : ℚ) ≤ (n : ℚ) / ((2 : ℕ) : ℚ) := by
      rw [not_le]
      apply div_neg_of_neg_of_pos
      · exact_mod_cast (not_le.mp h)
      · norm_num
    rw [if_neg hq, if_neg h]
    have hceil : ⌈(n : ℚ) / ((2 : ℕ) : ℚ)⌉ = -⌊-((n : ℚ) / ((2 : ℕ) : ℚ))⌋ := by
      rw [Int.floor_neg, neg_neg]
    rw [hceil, hneg, Rat.floor_intCast_div_natCast]
    norm_num

theorem find_split_fallback_split {L : Type} (env : collaborators L)
    (sort : Nat → List crossing_event → List crossing_event) (lines lines_left lines_right : List L)
    (bounds : box_t) (ws : image) (max_epsilon : ℚ)
    (h : (search env sort bounds max_epsilon (collect_crossings env bounds lines 0)).1.best_d < 0) :
    (find_split env sort lines lines_left lines_right bounds ws max_epsilon).1 =
      ⟨0, Int.tdiv (wrap_int ((bounds.get 0).1 + (bounds.get 0).2)) 2⟩ := by
  simp only [find_split, find_split_indices, fallback, h, if_true, trunc_half]

/-- A fold over a list sorted by a key gives the same result on every sorted
arrangement of the list, when steps on elements of equal key commute. -/
theorem foldl_eq_of_sorted_perm {α σ : Type} (key : α → ℚ) (step : σ → α → σ)
    (hcomm : ∀ (s : σ) (a b : α), key a = key b → step (step s a) b = step (step s b) a) :
    ∀ (l₁ l₂ : List α), l₁.Perm l₂ → l₁.Sorted (fun a b => key a ≤ key b) →
      l₂.Sorted (fun a b => key a ≤ key b) → ∀ s : σ, l₁.foldl step s = l₂.foldl step s := by
  intro l₁
  induction l₁ with
  | nil =>
    intro l₂ hperm _ _ s
    rw [List.perm_nil.mp hperm.symm]
  | cons a t ih =>
    intro l₂ hperm hs₁ hs₂ s
    obtain ⟨pre, post, rfl⟩ := List.append_of_mem (hperm.mem_iff.mp (List.mem_cons_self a t))
    have hkey : ∀ x ∈ pre, key x = key a := by
      intro x hx
      have h1 : key x ≤ key a :=
        (List.pairwise_append.mp hs₂).2.2 x hx a (List.mem_cons_self _ _)
      have hx' : x ∈ a :: t := hperm.mem_iff.mpr (List.mem_append_left _ hx)
      have h2 : key a ≤ key x := by
        rcases List.mem_cons.mp hx' with rfl | hxt
        · exact le_refl _
        · exact (List.sorted_cons.mp hs₁).1 x hxt
      exact le_antisymm h1 h2
    have hmove : ∀ (pre : List α), (∀ x ∈ pre, key x = key a) → ∀ s : σ,
        (pre ++ a :: post).foldl step s = (a :: (pre ++ post)).foldl step s := by
      intro pre
      induction pre with
      | nil => intro _ s; rfl
      | cons x pre ihp =>
        intro hk s
        rw [List.cons_append, List.foldl_cons,
          ihp (fun y hy => hk y (List.mem_cons_of_mem _ hy)), List.foldl_cons,
          hcomm s x a (hk x (List.mem_cons_self _ _))]
        rfl
    rw [hmove pre hkey s, List.foldl_cons, List.foldl_cons]
    apply ih
    · exact (hperm.trans List.perm_middle).cons_inv
    · exact (List.sorted_cons.mp hs₁).2
    · have hsub : (pre ++ post).Sublist (pre ++ a :: post) :=
        List.Sublist.append_left (List.sublist_cons_self a post) pre
      exact List.Pairwise.sublist hsub hs₂

theorem foldl_pass_step_for {L : Type} (env : collaborators L) (bounds : box_t)
    (max_epsilon : ℚ) (d : Nat) (cs : List crossing_event) : ∀ s : sweep_state,
      cs.foldl (pass_step env bounds max_epsilon d) ⟨false, s⟩ =
        ⟨false, cs.foldl (sweep_step bounds max_epsilon d) s⟩ := by
  induction cs with
  | nil => intro s; rfl
  | cons c cs ih =>
    intro s
    rw [List.foldl_cons, List.foldl_cons, ← ih]
    rfl

/-- The sweep along `d` is the pass over all the crossings. -/
theorem sweep_axis_eq_pass {L : Type} (env : collaborators L) (bounds : box_t)
    (max_epsilon : ℚ) (d : Nat) (cs : List crossing_event) : ∀ (overlap : Int) (best : best_t),
      ((cs.drop (cs.takeWhile
          (fun c => env.approx_equal (c.point.get d) ((bounds.get d).1 : ℚ))).length).foldl
        (sweep_step bounds max_epsilon d)
        ⟨overlap + ((cs.takeWhile
          (fun c => env.approx_equal (c.point.get d) ((bounds.get d).1 : ℚ))).length : Int),
          (bounds.get d).1, best⟩).best =
      (cs.foldl (pass_step env bounds max_epsilon d)
        ⟨true, ⟨overlap, (bounds.get d).1, best⟩⟩).sweep.best := by
  induction cs with
  | nil => intro overlap best; simp
  | cons c cs ih =>
    intro overlap best
    by_cases hp : env.approx_equal (c.point.get d) ((bounds.get d).1 : ℚ) = true
    · rw [List.takeWhile_cons, if_pos hp, List.foldl_cons]
      have hstep : pass_step env bounds max_epsilon d ⟨true, ⟨overlap, (bounds.get d).1, best⟩⟩ c =
          ⟨true, ⟨overlap + 1, (bounds.get d).1, best⟩⟩ := by
        simp [pass_step, hp]
      rw [hstep, ← ih (overlap + 1) best]
      simp only [List.length_cons, List.drop_succ_cons, Nat.cast_add, Nat.cast_one]
      rw [show overlap + ((((cs.takeWhile
          (fun c => env.approx_equal (c.point.get d) ((bounds.get d).1 : ℚ))).length : Nat) : Int)
            + 1) = overlap + 1 + (((cs.takeWhile
          (fun c => env.approx_equal (c.point.get d) ((bounds.get d).1 : ℚ))).length : Nat) : Int)
        by ring]
    · rw [List.takeWhile_cons, if_neg hp, List.foldl_cons]
      have hstep : pass_step env bounds max_epsilon d ⟨true, ⟨overlap, (bounds.get d).1, best⟩⟩ c =
          ⟨false, sweep_step bounds max_epsilon d ⟨overlap, (bounds.get d).1, best⟩ c⟩ := by
        simp [pass_step, hp]
      rw [hstep, foldl_pass_step_for]
      simp

theorem sweep_step_comm (bounds : box_t) (max_epsilon : ℚ) (d : Nat) (s : sweep_state)
    (a b : crossing_event) (h : a.point.get d = b.point.get d) :
    sweep_step bounds max_epsilon d (sweep_step bounds max_epsilon d s a) b =
      sweep_step bounds max_epsilon d (sweep_step bounds max_epsilon d s b) a := by
  unfold sweep_step
  rw [h]
  by_cases hs : trunc (b.point.get d) = s.last_split
  · simp [hs, add_right_comm]
  · simp [hs, add_right_comm]

theorem pass_step_comm {L : Type} (env : collaborators L) (bounds : box_t) (max_epsilon : ℚ)
    (d : Nat) (st : pass_state) (a b : crossing_event) (h : a.point.get d = b.point.get d) :
    pass_step env bounds max_epsilon d (pass_step env bounds max_epsilon d st a) b =
      pass_step env bounds max_epsilon d (pass_step env bounds max_epsilon d st b) a := by
  unfold pass_step
  rw [h]
  cases hl : st.at_lower <;>
    cases hp : env.approx_equal (b.point.get d) ((bounds.get d).1 : ℚ) <;>
    simp only [hp, Bool.and_true, Bool.and_false, Bool.false_and, Bool.true_and, if_true,
      if_false, Bool.false_eq_true]
  · exact congrArg _ (sweep_step_comm bounds max_epsilon d st.sweep a b h)
  · exact congrArg _ (sweep_step_comm bounds max_epsilon d st.sweep a b h)
  · exact congrArg _ (sweep_step_comm bounds max_epsilon d st.sweep a b h)

/-- The sweep along `d` gives the same best candidate on any two sorted
arrangements of the same crossings. -/
theorem sweep_axis_perm {L : Type} (env : collaborators L) (bounds : box_t) (max_epsilon : ℚ)
    (d : Nat) (l₁ l₂ : List crossing_event) (hperm : l₁.Perm l₂) (hs₁ : l₁.Sorted (along d))
    (hs₂ : l₂.Sorted (along d)) (best : best_t) :
    sweep_axis env bounds max_epsilon d l₁ best = sweep_axis env bounds max_epsilon d l₂ best := by
  have h : ∀ l : List crossing_event, sweep_axis env bounds max_epsilon d l best =
      (l.foldl (pass_step env bounds max_epsilon d)
        ⟨true, ⟨0, (bounds.get d).1, best⟩⟩).sweep.best := by
    intro l
    rw [← sweep_axis_eq_pass env bounds max_epsilon d l 0 best]
    simp [sweep_axis]
  have hfold := foldl_eq_of_sorted_perm (fun c : crossing_event => c.point.get d)
    (pass_step env bounds max_epsilon d) (pass_step_comm env bounds max_epsilon d) l₁ l₂ hperm
    hs₁ hs₂
  rw [h l₁, h l₂, hfold]

theorem sorted_along_sorted (sort : Nat → List crossing_event → List crossing_event)
    (hsort : sorts sort) (crossings : List crossing_event) (d : Nat) :
    (sorted_along sort crossings d).Sorted (along d) := by
  cases d with
  | zero => exact (hsort 0 crossings).2
  | succ d => exact (hsort (d + 1) _).2

/-- The search finds the same best candidate with any two sorts that
sort. -/
theorem search_sort_irrelevant {L : Type} (env : collaborators L)
    (sort₁ sort₂ : Nat → List crossing_event → List crossing_event) (h₁ : sorts sort₁)
    (h₂ : sorts sort₂) (bounds : box_t) (max_epsilon : ℚ) (crossings : List crossing_event) :
    (search env sort₁ bounds max_epsilon crossings).1 =
      (search env sort₂ bounds max_epsilon crossings).1 := by
  have hp : ∀ d, (sorted_along sort₁ crossings d).Perm (sorted_along sort₂ crossings d) :=
    fun d => (sorted_along_perm sort₁ h₁ crossings d).trans
      (sorted_along_perm sort₂ h₂ crossings d).symm
  rw [search_eq, search_eq]
  simp only
  rw [sweep_axis_perm env bounds max_epsilon 0 _ _ (hp 0) (sorted_along_sorted sort₁ h₁ _ 0)
      (sorted_along_sorted sort₂ h₂ _ 0),
    sweep_axis_perm env bounds max_epsilon 1 _ _ (hp 1) (sorted_along_sorted sort₁ h₁ _ 1)
      (sorted_along_sorted sort₂ h₂ _ 1),
    sweep_axis_perm env bounds max_epsilon 2 _ _ (hp 2) (sorted_along_sorted sort₁ h₁ _ 2)
      (sorted_along_sorted sort₂ h₂ _ 2)]

theorem set_insert_is_set (s : List Nat) (i : Nat) (h : is_set s) : is_set (set_insert s i) := by
  unfold set_insert
  split_ifs with hi
  · exact h
  · exact ⟨h.1.orderedInsert i s,
      (List.perm_orderedInsert (· ≤ ·) i s).nodup_iff.mpr (List.nodup_cons.mpr ⟨hi, h.2⟩)⟩

theorem set_erase_is_set (s : List Nat) (i : Nat) (h : is_set s) : is_set (set_erase s i) :=
  ⟨h.1.filter _, h.2.filter _⟩

theorem classify_step_is_set (d : Nat) (sets : List Nat × List Nat) (c : crossing_event)
    (h : is_set sets.1 ∧ is_set sets.2) :
    is_set (classify_step d sets c).1 ∧ is_set (classify_step d sets c).2 := by
  unfold classify_step
  split_ifs
  · exact ⟨set_insert_is_set _ _ h.1, h.2⟩
  · exact ⟨h.1, set_erase_is_set _ _ h.2⟩
  · exact ⟨set_insert_is_set _ _ h.1, set_erase_is_set _ _ h.2⟩

theorem foldl_classify_step_is_set (d : Nat) (cs : List crossing_event) :
    ∀ sets : List Nat × List Nat, is_set sets.1 ∧ is_set sets.2 →
      is_set (cs.foldl (classify_step d) sets).1 ∧ is_set (cs.foldl (classify_step d) sets).2 := by
  induction cs with
  | nil => intro sets h; exact h
  | cons c cs ih =>
    intro sets h
    rw [List.foldl_cons]
    exact ih _ (classify_step_is_set d sets c h)

/-- The two index sets are sets: increasing, every index once. -/
theorem classify_is_set (d : Nat) (s : Int) (crossings : List crossing_event) (n : Nat) :
    is_set (classify d s crossings n).1 ∧ is_set (classify d s crossings n).2 := by
  unfold classify
  apply foldl_classify_step_is_set
  exact ⟨⟨List.sorted_nil, List.nodup_nil⟩, List.sorted_le_range n, List.nodup_range n⟩

theorem is_set_ext (s t : List Nat) (hs : is_set s) (ht : is_set t)
    (h : ∀ i, i ∈ s ↔ i ∈ t) : s = t :=
  List.eq_of_perm_of_sorted ((List.perm_ext_iff_of_nodup hs.2 ht.2).mpr h) hs.1 ht.1

/-- The two index sets are the same for any two sorted arrangements of the
crossings. -/
theorem classify_perm {L : Type} (env : collaborators L) (bounds : box_t) (lines : List L)
    (d : Nat) (s : Int) (l₁ l₂ : List crossing_event)
    (hp₁ : l₁.Perm (collect_crossings env bounds lines 0)) (hs₁ : l₁.Sorted (along d))
    (hp₂ : l₂.Perm (collect_crossings env bounds lines 0)) (hs₂ : l₂.Sorted (along d)) :
    classify d s l₁ lines.length = classify d s l₂ lines.length := by
  refine Prod.ext ?_ ?_
  · apply is_set_ext _ _ (classify_is_set d s l₁ _).1 (classify_is_set d s l₂ _).1
    intro i
    rw [classify_left env bounds lines d s l₁ hp₁ hs₁ i,
      classify_left env bounds lines d s l₂ hp₂ hs₂ i]
  · apply is_set_ext _ _ (classify_is_set d s l₁ _).2 (classify_is_set d s l₂ _).2
    intro i
    rw [classify_right env bounds lines d s l₁ hp₁ hs₁ i,
      classify_right env bounds lines d s l₂ hp₂ hs₂ i]

/-- The function `find_split` returns the same split and the same two
vectors with any two sorts that sort. -/
theorem find_split_sort_irrelevant {L : Type} (env : collaborators L)
    (sort₁ sort₂ : Nat → List crossing_event → List crossing_event) (h₁ : sorts sort₁)
    (h₂ : sorts sort₂) (lines lines_left lines_right : List L) (bounds : box_t) (ws : image)
    (max_epsilon : ℚ) :
    find_split env sort₁ lines lines_left lines_right bounds ws max_epsilon =
      find_split env sort₂ lines lines_left lines_right bounds ws max_epsilon := by
  have hidx : find_split_indices env sort₁ lines bounds max_epsilon =
      find_split_indices env sort₂ lines bounds max_epsilon := by
    unfold find_split_indices
    simp only
    rw [search_sort_irrelevant env sort₁ sort₂ h₁ h₂ bounds max_epsilon
      (collect_crossings env bounds lines 0)]
    rw [classify_perm env bounds lines _ _
      (sort₁ (fallback bounds (search env sort₂ bounds max_epsilon
          (collect_crossings env bounds lines 0)).1).best_d.toNat
        (search env sort₁ bounds max_epsilon (collect_crossings env bounds lines 0)).2)
      (sort₂ (fallback bounds (search env sort₂ bounds max_epsilon
          (collect_crossings env bounds lines 0)).1).best_d.toNat
        (search env sort₂ bounds max_epsilon (collect_crossings env bounds lines 0)).2)
      ((h₁ _ _).1.trans (search_snd_perm env sort₁ h₁ bounds max_epsilon _)) (h₁ _ _).2
      ((h₂ _ _).1.trans (search_snd_perm env sort₂ h₂ bounds max_epsilon _)) (h₂ _ _).2]
  unfold find_split
  rw [hidx]

theorem split_loop_sort_irrelevant {L : Type} (env : collaborators L)
    (sort₁ sort₂ : Nat → List crossing_event → List crossing_event) (h₁ : sorts sort₁)
    (h₂ : sorts sort₂) (ws : image) (max_epsilon : ℚ) (depth : Int) (fuel : Nat) :
    ∀ st : loop_state L, split_loop env sort₁ ws max_epsilon depth fuel st =
      split_loop env sort₂ ws max_epsilon depth fuel st := by
  induction fuel with
  | zero => intro st; rfl
  | succ fuel ih =>
    intro st
    rcases st with ⟨stack, t⟩
    cases stack with
    | nil => rfl
    | cons sub rest =>
      simp only [split_loop]
      rw [ih]
      congr 1
      simp only [loop_body, find_split_sort_irrelevant env sort₁ sort₂ h₁ h₂]

/-- C10.  The tree does not depend on anything but the geometry, the volume,
the processor count and the tolerance: two runs of `partition_bisection` on
the same arguments end in the same way and, when they return a tree, return
the same tree (same shape, same axis and coordinate at every node), also when
the two runs use different sorts, as long as both sort; the order in which a
sort leaves events of equal coordinate has no influence. -/
theorem partition_bisection_deterministic {L : Type} (env : collaborators L)
    (sort₁ sort₂ : Nat → List crossing_event → List crossing_event) (h₁ : sorts sort₁)
    (h₂ : sorts sort₂) (fuel : Nat) (geometry : List L) (object_volume : volume)
    (processors : Int) (max_epsilon : ℚ) :
    partition_bisection env sort₁ fuel geometry object_volume processors max_epsilon =
      partition_bisection env sort₂ fuel geometry object_volume processors max_epsilon := by
  unfold partition_bisection
  simp only [split_loop_sort_irrelevant env sort₁ sort₂ h₁ h₂]

/-- The C10 theorem for a sort that keeps and a sort that reverses the order
of events of equal coordinate, which arrange the crossings of the four lines
differently along axis 0, on the four lines in the cube and four processors:
both runs return the same tree of three splits. -/
theorem partition_bisection_deterministic_witness :
    sorts stable_sort ∧ sorts reversing_sort ∧
    stable_sort 0 (collect_crossings segment_env ⟨(0, 4), (0, 4), (0, 4)⟩ four_lines 0) ≠
      reversing_sort 0 (collect_crossings segment_env ⟨(0, 4), (0, 4), (0, 4)⟩ four_lines 0) ∧
    partition_bisection segment_env stable_sort 4 four_lines (cube 4) 4 (1 / 5) =
      partition_bisection segment_env reversing_sort 4 four_lines (cube 4) 4 (1 / 5) ∧
    partition_bisection segment_env stable_sort 4 four_lines (cube 4) 4 (1 / 5) =
      .ok (.node ⟨2, 2⟩ (.node ⟨2, 1⟩ .nil .nil) (.node ⟨0, 2⟩ .nil .nil)) :=
  ⟨stable_sort_sorts, reversing_sort_sorts, by decide!,
    partition_bisection_deterministic segment_env stable_sort reversing_sort stable_sort_sorts
      reversing_sort_sorts 4 four_lines (cube 4) 4 (1 / 5), by decide!⟩

/-! ## C11, C16, C17, C18: the weight field again -/

/-- C11 at a failing input.  On the grid of 2 x 2 x 2 voxels with the hit
counts 1, 2, ..., 8 the table of `partial_sums` is `[0, 1, 1, 4, 5, 10, 10, 17]`:
its first cell holds 0 where the prefix sum is the hit count 1 of that cell,
and its last cell holds 17 where the prefix sum is the sum 36 of all hit
counts. -/
theorem partial_sums_is_no_prefix_table :
    partial_sums ⟨cube 2, [1, 2, 3, 4, 5, 6, 7, 8]⟩ =
      some ⟨cube 2, [0, 1, 1, 4, 5, 10, 10, 17]⟩ ∧
    prefix_sum_at ⟨cube 2, [1, 2, 3, 4, 5, 6, 7, 8]⟩ 0 0 0 = 1 ∧
    prefix_sum_at ⟨cube 2, [1, 2, 3, 4, 5, 6, 7, 8]⟩ 1 1 1 = 36 ∧
    (⟨cube 2, [0, 1, 1, 4, 5, 10, 10, 17]⟩ : image).read (partial_sums.idx (cube 2) 0 0 0) =
      some 0 ∧
    (⟨cube 2, [0, 1, 1, 4, 5, 10, 10, 17]⟩ : image).read (partial_sums.idx (cube 2) 1 1 1) =
      some 17 := by
  refine ⟨by decide!, by decide!, by decide!, by decide!, by decide!⟩

/-- C16 at a failing input.  On the grid of 3 x 3 x 3 voxels the box from
`(1, 1, 1)` to `(3, 3, 3)` lies within the extents, yet the first lookup of
`weight` is at `(3, 3, 3)`, flat index 39 of a table of 27 cells: the read is
outside the table and is not replaced by zero. -/
theorem weight_reads_beyond_table :
    weight (partial_sums.idx (cube 3)) ⟨1, 1, 1⟩ ⟨3, 3, 3⟩ ⟨cube 3, List.replicate 27 1⟩ = none ∧
    partial_sums.idx (cube 3) 3 3 3 = 39 ∧
    (⟨cube 3, List.replicate 27 1⟩ : image).read (partial_sums.idx (cube 3) 3 3 3) = none ∧
    (cube 3).cells = 27 := by
  refine ⟨by decide!, by decide!, by decide!, by decide!⟩

/-- C17 at a failing input.  For the extents `(2, 1, 1)` the cell `(1, 0, 0)`
has flat index 2 in a table of 2 cells, and `partial_sums` indexes outside
its arrays; for the extents `(2, 2, 3)` the cells `(0, 0, 2)` and `(0, 1, 0)`
share the flat index 2. -/
theorem idx_beyond_table :
    partial_sums.idx ⟨⟨2, 1, 1⟩⟩ 1 0 0 = 2 ∧ (⟨⟨2, 1, 1⟩⟩ : volume).cells = 2 ∧
    partial_sums ⟨⟨⟨2, 1, 1⟩⟩, [1, 1]⟩ = none ∧
    partial_sums.idx ⟨⟨2, 2, 3⟩⟩ 0 0 2 = partial_sums.idx ⟨⟨2, 2, 3⟩⟩ 0 1 0 := by
  refine ⟨by decide!, by decide!, by decide!, by decide!⟩

/-- C18.  The split and the two vectors `find_split` returns are the same for
any two prefix tables: the table is received and never read. -/
theorem find_split_ignores_weights {L : Type} (env : collaborators L)
    (sort : Nat → List crossing_event → List crossing_event)
    (lines lines_left lines_right : List L) (bounds : box_t) (ws₁ ws₂ : image)
    (max_epsilon : ℚ) :
    find_split env sort lines lines_left lines_right bounds ws₁ max_epsilon =
      find_split env sort lines lines_left lines_right bounds ws₂ max_epsilon :=
  rfl

/-! ## C20: the stack against the direct recursion -/

theorem recursive_build_eq_build {L : Type} (env : collaborators L)
    (sort : Nat → List crossing_event → List crossing_event) (ws : image) (max_epsilon : ℚ)
    (limit : Int) (m : Nat) : ∀ (gas : Nat) (bounds : box_t) (lines : List L) (depth : Int),
      (limit - depth - 1).toNat = m → m < gas →
      recursive_build env sort ws max_epsilon limit gas bounds lines depth =
        build env sort ws max_epsilon m lines bounds := by
  induction m with
  | zero =>
    intro gas bounds lines depth hm hgas
    obtain ⟨g, rfl⟩ : ∃ g, gas = g + 1 := ⟨gas - 1, by omega⟩
    have hd : ¬ (depth + 1 < limit) := by omega
    simp [recursive_build, build, hd]
  | succ m ih =>
    intro gas bounds lines depth hm hgas
    obtain ⟨g, rfl⟩ : ∃ g, gas = g + 1 := ⟨gas - 1, by omega⟩
    have hd : depth + 1 < limit := by omega
    simp only [recursive_build, build, hd, if_true]
    rw [ih g _ _ (depth + 1) (by omega) (by omega), ih g _ _ (depth + 1) (by omega) (by omega)]

/-- C20.  For `2 ^ k` processors, enough fuel for the loop and enough gas for
the recursion: the tree the stack of `partition_bisection` builds is the tree
of the direct recursion from the whole volume with all clipped lines at depth
0, whatever the prefix table, and `partition_bisection` returns it unless
building the weight field indexed outside an array; in every pass that pushes
children, the right child lies on top of the left one, so it is worked off
first. -/
theorem stack_builds_recursive_tree {L : Type} (env : collaborators L)
    (sort : Nat → List crossing_event → List crossing_event) (geometry : List L)
    (object_volume : volume) (max_epsilon : ℚ) (k fuel gas : Nat)
    (hfuel : 2 ^ levels_of k ≤ fuel) (hgas : levels_of k ≤ gas) :
    (∀ ws : image,
      split_loop env sort ws max_epsilon (tree_depth ((2 ^ k : Nat) : Int)) fuel
        ⟨[complete_volume object_volume (clip_lines env geometry object_volume)], .nil⟩ =
      some (recursive_build env sort ws max_epsilon (tree_depth ((2 ^ k : Nat) : Int)) gas
        (complete_volume object_volume (clip_lines env geometry object_volume)).bounds
        (clip_lines env geometry object_volume) 0)) ∧
    partition_bisection env sort fuel geometry object_volume ((2 ^ k : Nat) : Int) max_epsilon =
      (match voxel_weights env geometry object_volume with
        | none => .error failure.out_of_range
        | some ws => .ok (recursive_build env sort ws max_epsilon
            (tree_depth ((2 ^ k : Nat) : Int)) gas
            (complete_volume object_volume (clip_lines env geometry object_volume)).bounds
            (clip_lines env geometry object_volume) 0)) ∧
    (∀ (ws : image) (depth : Int) (sub : subvolume L) (rest : List (subvolume L))
        (t : binary_tree split_t), sub.depth + 1 < depth →
      ∃ right left : subvolume L,
        (loop_body env sort ws max_epsilon depth sub rest t).split_stack =
          right :: left :: rest ∧
        right.direction = dir.right ∧ left.direction = dir.left) := by
  have hrec : ∀ ws : image,
      recursive_build env sort ws max_epsilon (tree_depth ((2 ^ k : Nat) : Int)) gas
        (complete_volume object_volume (clip_lines env geometry object_volume)).bounds
        (clip_lines env geometry object_volume) 0 =
      build env sort ws max_epsilon (levels_of k - 1)
        (complete_volume object_volume (clip_lines env geometry object_volume)).lines
        (complete_volume object_volume (clip_lines env geometry object_volume)).bounds := by
    intro ws
    apply recursive_build_eq_build
    · rw [tree_depth_two_pow]; unfold levels_of; omega
    · unfold levels_of at *; omega
  have hloop : ∀ ws : image,
      split_loop env sort ws max_epsilon (tree_depth ((2 ^ k : Nat) : Int)) fuel
        ⟨[complete_volume object_volume (clip_lines env geometry object_volume)], .nil⟩ =
      some (recursive_build env sort ws max_epsilon (tree_depth ((2 ^ k : Nat) : Int)) gas
        (complete_volume object_volume (clip_lines env geometry object_volume)).bounds
        (clip_lines env geometry object_volume) 0) := by
    intro ws
    rw [hrec ws]
    exact split_loop_complete_volume env sort ws max_epsilon k fuel hfuel _ rfl rfl
  refine ⟨hloop, ?_, ?_⟩
  · obtain ⟨hp, hs⟩ := assertions_pass_two_pow k
    unfold partition_bisection
    rw [if_neg (by rw [hp]; decide), if_neg (by simp only [ne_eq, not_not]; exact hs)]
    cases hws : voxel_weights env geometry object_volume with
    | none => rfl
    | some ws =>
      simp only
      rw [hloop ws]
  · intro ws depth sub rest t hd
    simp only [loop_body, hd, if_true]
    exact ⟨_, _, rfl, rfl, rfl⟩

/-- The C20 theorem for four processors and the four lines in the cube. -/
theorem stack_builds_recursive_tree_witness :
    2 ^ levels_of 2 ≤ 4 ∧ levels_of 2 ≤ 2 ∧
    partition_bisection segment_env stable_sort 4 four_lines (cube 4) ((2 ^ 2 : Nat) : Int)
        (1 / 5) =
      (match voxel_weights segment_env four_lines (cube 4) with
        | none => .error failure.out_of_range
        | some ws => .ok (recursive_build segment_env stable_sort ws (1 / 5)
            (tree_depth ((2 ^ 2 : Nat) : Int)) 2
            (complete_volume (cube 4) (clip_lines segment_env four_lines (cube 4))).bounds
            (clip_lines segment_env four_lines (cube 4)) 0)) :=
  ⟨by decide, by decide, (stack_builds_recursive_tree segment_env stable_sort four_lines (cube 4)
    (1 / 5) 2 4 2 (by decide) (by decide)).2.1⟩

/-! ## C13: the two index sets by the events that fill them -/

theorem classify_left_events (d : Nat) (s : Int) (crossings sorted : List crossing_event)
    (hperm : sorted.Perm crossings) (hsorted : sorted.Sorted (along d)) (n i : Nat) :
    i ∈ (classify d s sorted n).1 ↔
      ∃ c ∈ crossings, c.line_index = i ∧ c.point.get d ≤ (s : ℚ) ∧ 0 ≤ c.direction.get d := by
  unfold classify
  rw [mem_classify_left]
  simp only [List.not_mem_nil, false_or]
  constructor
  · rintro ⟨c, hc, hidx, hdir⟩
    rw [mem_takeWhile_sorted d _ c sorted hsorted, hperm.mem_iff] at hc
    exact ⟨c, hc.1, hidx, hc.2, hdir⟩
  · rintro ⟨c, hc, hidx, hle, hdir⟩
    exact ⟨c, (mem_takeWhile_sorted d _ c sorted hsorted).mpr ⟨hperm.mem_iff.mpr hc, hle⟩,
      hidx, hdir⟩

theorem classify_right_events (d : Nat) (s : Int) (crossings sorted : List crossing_event)
    (hperm : sorted.Perm crossings) (hsorted : sorted.Sorted (along d)) (n i : Nat) :
    i ∈ (classify d s sorted n).2 ↔
      i < n ∧ ¬ ∃ c ∈ crossings, c.line_index = i ∧ c.point.get d ≤ (s : ℚ) ∧
        c.direction.get d ≤ 0 := by
  unfold classify
  rw [mem_classify_right]
  simp only [List.mem_range]
  constructor
  · rintro ⟨hlt, hall⟩
    refine ⟨hlt, ?_⟩
    rintro ⟨c, hc, hidx, hle, hdir⟩
    have := hall c ((mem_takeWhile_sorted d _ c sorted hsorted).mpr
      ⟨hperm.mem_iff.mpr hc, hle⟩) hidx
    omega
  · rintro ⟨hlt, hno⟩
    refine ⟨hlt, ?_⟩
    intro c hc hidx
    rw [mem_takeWhile_sorted d _ c sorted hsorted, hperm.mem_iff] at hc
    by_contra hdir
    exact hno ⟨c, hc.1, hidx, hc.2, by omega⟩

theorem collect_crossings_index_lt {L : Type} (env : collaborators L) (bounds : box_t)
    (lines : List L) : ∀ c ∈ collect_crossings env bounds lines 0, c.line_index < lines.length := by
  intro c hc
  rw [mem_collect_crossings] at hc
  obtain ⟨i, l, a, b, hget, _, rfl | rfl⟩ := hc <;>
    simpa using (List.get?_eq_some.mp hget).1

theorem map_some_filterMap {α β : Type} (f : α → Option β) (l : List α)
    (h : ∀ x ∈ l, (f x).isSome = true) : (l.filterMap f).map some = l.map f := by
  induction l with
  | nil => rfl
  | cons x l ih =>
    have hx := h x (List.mem_cons_self _ _)
    obtain ⟨y, hy⟩ := Option.isSome_iff_exists.mp hx
    rw [List.filterMap_cons, hy]
    simp only [List.map_cons, hy]
    rw [ih (fun z hz => h z (List.mem_cons_of_mem _ hz))]

/-- C13.  With a sort that sorts, for the split `(d, a)` of `find_split`: the
left index set holds exactly the indices of the lines with a crossing event
at or before `a` along `d` whose direction along `d` is not negative, the
right index set exactly the indices of the lines without a crossing event at
or before `a` whose direction is not positive; both are in strictly increasing
order, so each index occurs once; and `lines_left` and `lines_right` of a call
with empty vectors are the lines at these indices, in this order. -/
theorem index_sets_by_events {L : Type} (env : collaborators L)
    (sort : Nat → List crossing_event → List crossing_event) (hsort : sorts sort)
    (lines : List L) (bounds : box_t) (ws : image) (max_epsilon : ℚ) :
    (∀ i : Nat, i ∈ (find_split_indices env sort lines bounds max_epsilon).2.1 ↔
      ∃ c ∈ collect_crossings env bounds lines 0, c.line_index = i ∧
        c.point.get (find_split_indices env sort lines bounds max_epsilon).1.d.toNat ≤
          ((find_split_indices env sort lines bounds max_epsilon).1.a : ℚ) ∧
        0 ≤ c.direction.get (find_split_indices env sort lines bounds max_epsilon).1.d.toNat) ∧
    (∀ i : Nat, i ∈ (find_split_indices env sort lines bounds max_epsilon).2.2 ↔
      i < lines.length ∧ ¬ ∃ c ∈ collect_crossings env bounds lines 0, c.line_index = i ∧
        c.point.get (find_split_indices env sort lines bounds max_epsilon).1.d.toNat ≤
          ((find_split_indices env sort lines bounds max_epsilon).1.a : ℚ) ∧
        c.direction.get (find_split_indices env sort lines bounds max_epsilon).1.d.toNat ≤ 0) ∧
    (find_split_indices env sort lines bounds max_epsilon).2.1.Sorted (· < ·) ∧
    (find_split_indices env sort lines bounds max_epsilon).2.2.Sorted (· < ·) ∧
    (find_split env sort lines [] [] bounds ws max_epsilon).1 =
      (find_split_indices env sort lines bounds max_epsilon).1 ∧
    (find_split env sort lines [] [] bounds ws max_epsilon).2.1.map some =
      (find_split_indices env sort lines bounds max_epsilon).2.1.map (fun i => lines.get? i) ∧
    (find_split env sort lines [] [] bounds ws max_epsilon).2.2.map some =
      (find_split_indices env sort lines bounds max_epsilon).2.2.map (fun i => lines.get? i) := by
  have hperm := ((hsort (fallback bounds (search env sort bounds max_epsilon
      (collect_crossings env bounds lines 0)).1).best_d.toNat
      (search env sort bounds max_epsilon (collect_crossings env bounds lines 0)).2).1).trans
    (search_snd_perm env sort hsort bounds max_epsilon (collect_crossings env bounds lines 0))
  have hsorted := (hsort (fallback bounds (search env sort bounds max_epsilon
      (collect_crossings env bounds lines 0)).1).best_d.toNat
      (search env sort bounds max_epsilon (collect_crossings env bounds lines 0)).2).2
  have hleft : ∀ i : Nat, i ∈ (find_split_indices env sort lines bounds max_epsilon).2.1 ↔
      ∃ c ∈ collect_crossings env bounds lines 0, c.line_index = i ∧
        c.point.get (find_split_indices env sort lines bounds max_epsilon).1.d.toNat ≤
          ((find_split_indices env sort lines bounds max_epsilon).1.a : ℚ) ∧
        0 ≤ c.direction.get (find_split_indices env sort lines bounds max_epsilon).1.d.toNat :=
    fun i => classify_left_events _ _ _ _ hperm hsorted lines.length i
  have hright : ∀ i : Nat, i ∈ (find_split_indices env sort lines bounds max_epsilon).2.2 ↔
      i < lines.length ∧ ¬ ∃ c ∈ collect_crossings env bounds lines 0, c.line_index = i ∧
        c.point.get (find_split_indices env sort lines bounds max_epsilon).1.d.toNat ≤
          ((find_split_indices env sort lines bounds max_epsilon).1.a : ℚ) ∧
        c.direction.get (find_split_indices env sort lines bounds max_epsilon).1.d.toNat ≤ 0 :=
    fun i => classify_right_events _ _ _ _ hperm hsorted lines.length i
  have hsets := classify_is_set
    (fallback bounds (search env sort bounds max_epsilon
      (collect_crossings env bounds lines 0)).1).best_d.toNat
    (fallback bounds (search env sort bounds max_epsilon
      (collect_crossings env bounds lines 0)).1).best_split
    (sort (fallback bounds (search env sort bounds max_epsilon
      (collect_crossings env bounds lines 0)).1).best_d.toNat
      (search env sort bounds max_epsilon (collect_crossings env bounds lines 0)).2)
    lines.length
  refine ⟨hleft, hright, hsets.1.1.lt_of_le hsets.1.2, hsets.2.1.lt_of_le hsets.2.2, rfl, ?_, ?_⟩
  · have h : (find_split env sort lines [] [] bounds ws max_epsilon).2.1 =
        (find_split_indices env sort lines bounds max_epsilon).2.1.filterMap
          (fun i => lines.get? i) := by simp [find_split]
    rw [h]
    apply map_some_filterMap
    intro i hi
    obtain ⟨c, hc, hidx, _, _⟩ := (hleft i).mp hi
    have hlt := collect_crossings_index_lt env bounds lines c hc
    rw [hidx] at hlt
    simp only [List.get?_eq_getElem?, List.getElem?_eq_getElem hlt, Option.isSome_some]
  · have h : (find_split env sort lines [] [] bounds ws max_epsilon).2.2 =
        (find_split_indices env sort lines bounds max_epsilon).2.2.filterMap
          (fun i => lines.get? i) := by simp [find_split]
    rw [h]
    apply map_some_filterMap
    intro i hi
    have hlt := ((hright i).mp hi).1
    simp only [List.get?_eq_getElem?, List.getElem?_eq_getElem hlt, Option.isSome_some]

/-- The C13 theorem for the insertion sort and the four lines in the cube,
with the index sets it describes. -/
theorem index_sets_by_events_witness :
    sorts stable_sort ∧
    (find_split_indices segment_env stable_sort four_lines ⟨(0, 4), (0, 4), (0, 4)⟩ (1 / 5)) =
      (⟨2, 2⟩, [0, 2, 3], [1]) ∧
    (find_split_indices segment_env stable_sort four_lines ⟨(0, 4), (0, 4), (0, 4)⟩
      (1 / 5)).2.1.Sorted (· < ·) ∧
    (find_split segment_env stable_sort four_lines [] [] ⟨(0, 4), (0, 4), (0, 4)⟩
        (image.zeros (cube 4)) (1 / 5)).2.1.map some =
      (find_split_indices segment_env stable_sort four_lines ⟨(0, 4), (0, 4), (0, 4)⟩
        (1 / 5)).2.1.map (fun i => four_lines.get? i) :=
  ⟨stable_sort_sorts, by decide!,
    (index_sets_by_events segment_env stable_sort stable_sort_sorts four_lines
      ⟨(0, 4), (0, 4), (0, 4)⟩ (image.zeros (cube 4)) (1 / 5)).2.2.1,
    (index_sets_by_events segment_env stable_sort stable_sort_sorts four_lines
      ⟨(0, 4), (0, 4), (0, 4)⟩ (image.zeros (cube 4)) (1 / 5)).2.2.2.2.2.1⟩

/-! ## C12: the split found is the first best candidate -/

theorem search_eq_foldl_all {L : Type} (env : collaborators L)
    (sort : Nat → List crossing_event → List crossing_event) (bounds : box_t) (max_epsilon : ℚ)
    (crossings : List crossing_event) :
    (search env sort bounds max_epsilon crossings).1 =
      (all_candidates env sort bounds crossings).foldl
        (fun b c => consider bounds max_epsilon c.1 b c.2.1 c.2.2) (no_candidate max_epsilon) := by
  rw [search_eq]
  simp only [sweep_axis_eq, all_candidates, List.range, List.range.loop, List.flatMap_cons,
    List.flatMap_nil, List.append_nil, List.foldl_append, List.foldl_map]

theorem candidates_overlap_le_int_max {L : Type} (env : collaborators L)
    (sort : Nat → List crossing_event → List crossing_event) (hsort : sorts sort)
    (lines : List L) (bounds : box_t) (hsize : 2 * (lines.length : Int) ≤ int_max) (d : Nat) :
    ∀ cand ∈ candidates env bounds d
      (sorted_along sort (collect_crossings env bounds lines 0) d), cand.1 ≤ int_max := by
  intro cand hcand
  have hperm := sorted_along_perm sort hsort (collect_crossings env bounds lines 0) d
  have h1 := candidates_overlap_le env bounds d _
    (fun c hc => collect_crossings_direction_le env bounds lines d c (hperm.mem_iff.mp hc))
    cand hcand
  have h2 := collect_crossings_length env bounds lines 0
  rw [hperm.length_eq] at h1
  omega

theorem all_candidates_overlap_le {L : Type} (env : collaborators L)
    (sort : Nat → List crossing_event → List crossing_event) (hsort : sorts sort)
    (lines : List L) (bounds : box_t) (hsize : 2 * (lines.length : Int) ≤ int_max) :
    ∀ c ∈ all_candidates env sort bounds (collect_crossings env bounds lines 0),
      c.2.1 ≤ int_max := by
  intro c hc
  simp only [all_candidates, List.mem_flatMap, List.mem_map] at hc
  obtain ⟨d, _, cand, hcand, rfl⟩ := hc
  exact candidates_overlap_le_int_max env sort hsort lines bounds hsize d cand hcand

/-- The fold of the acceptance step over candidates ends either without a
candidate, when none is admissible, or with the first of the admissible
candidates that are best by overlap and then by imbalance. -/
theorem foldl_consider_first_best (bounds : box_t) (max_epsilon : ℚ)
    (l : List (Nat × Int × Int)) (hover : ∀ c ∈ l, c.2.1 ≤ int_max) :
    (l.foldl (fun b c => consider bounds max_epsilon c.1 b c.2.1 c.2.2)
        (no_candidate max_epsilon) = no_candidate max_epsilon ∧
      ∀ c ∈ l, admissible bounds max_epsilon c = false) ∨
    ∃ (pre : List (Nat × Int × Int)) (c : Nat × Int × Int) (post : List (Nat × Int × Int)),
      l = pre ++ c :: post ∧ admissible bounds max_epsilon c = true ∧
      l.foldl (fun b c => consider bounds max_epsilon c.1 b c.2.1 c.2.2)
        (no_candidate max_epsilon) = ⟨imbalance_of bounds c, c.2.1, c.2.2, (c.1 : Int)⟩ ∧
      (∀ y ∈ pre, admissible bounds max_epsilon y = true → strictly_better bounds c y) ∧
      (∀ y ∈ post, admissible bounds max_epsilon y = true → not_worse bounds c y) := by
  induction l using List.reverseRecOn with
  | nil => exact Or.inl ⟨rfl, fun c hc => by simp at hc⟩
  | append_singleton l x ih =>
    have hl : ∀ c ∈ l, c.2.1 ≤ int_max := fun c hc => hover c (List.mem_append_left _ hc)
    have hx : x.2.1 ≤ int_max := hover x (by simp)
    rw [List.foldl_append, List.foldl_cons, List.foldl_nil]
    rcases ih hl with ⟨hr, hnone⟩ | ⟨pre, c, post, hdec, hadm, hr, hpre, hpost⟩
    · rw [hr]
      by_cases hax : admissible bounds max_epsilon x = true
      · right
        refine ⟨l, x, [], rfl, hax, ?_, ?_, ?_⟩
        · have hacc : accepts max_epsilon (no_candidate max_epsilon) x.2.1
              (imbalance bounds x.1 x.2.2) = true := by
            unfold admissible at hax
            simp only [accepts, no_candidate, hax, Bool.and_true, Bool.or_eq_true,
              decide_eq_true_eq]
            omega
          simp [consider, hacc, imbalance_of]
        · intro y hy hay
          rw [hnone y hy] at hay
          exact absurd hay (by decide)
        · intro y hy
          simp at hy
      · left
        have hax' : admissible bounds max_epsilon x = false := by simpa using hax
        refine ⟨consider_no_candidate bounds max_epsilon x.1 (x.2.1, x.2.2) hax', ?_⟩
        intro y hy
        rcases List.mem_append.mp hy with hy | hy
        · exact hnone y hy
        · simp only [List.mem_singleton] at hy
          rw [hy]; exact hax'
    · right
      rw [hr]
      obtain ⟨ec, hec, hec_lt⟩ := (below_iff _ _).mp hadm
      have himb_c : imbalance_of bounds c = ec := by simp [imbalance_of, hec]
      by_cases hacc : accepts max_epsilon ⟨imbalance_of bounds c, c.2.1, c.2.2, (c.1 : Int)⟩
          x.2.1 (imbalance bounds x.1 x.2.2) = true
      · have hbetter : ∃ ex, imbalance bounds x.1 x.2.2 = some ex ∧ ex < max_epsilon ∧
            (x.2.1 < c.2.1 ∨ (x.2.1 = c.2.1 ∧ ex < imbalance_of bounds c)) := by
          simp only [accepts, Bool.or_eq_true, Bool.and_eq_true, decide_eq_true_eq,
            below_iff] at hacc
          rcases hacc with ⟨h1, ex, hex, hlt⟩ | ⟨h1, ex, hex, hlt⟩
          · exact ⟨ex, hex, hlt, Or.inl h1⟩
          · exact ⟨ex, hex, by rw [himb_c] at hlt; exact lt_trans hlt hec_lt, Or.inr ⟨h1, hlt⟩⟩
        obtain ⟨ex, hex, hex_lt, hxc⟩ := hbetter
        have himb_x : imbalance_of bounds x = ex := by simp [imbalance_of, hex]
        have hxc' : strictly_better bounds x c := by
          unfold strictly_better
          rw [himb_x]
          exact hxc
        refine ⟨l, x, [], rfl, ?_, ?_, ?_, ?_⟩
        · exact (below_iff _ _).mpr ⟨ex, hex, hex_lt⟩
        · simp only [consider]
          rw [if_pos hacc]
          rfl
        · intro y hy hay
          rw [hdec] at hy
          unfold strictly_better at hxc' ⊢
          rcases List.mem_append.mp hy with hy | hy
          · have := hpre y hy hay
            unfold strictly_better at this
            rcases hxc' with h1 | ⟨h1, h2⟩ <;> rcases this with h3 | ⟨h3, h4⟩
            · exact Or.inl (by omega)
            · exact Or.inl (by omega)
            · exact Or.inl (by omega)
            · exact Or.inr ⟨by omega, lt_trans h2 h4⟩
          · rcases List.mem_cons.mp hy with rfl | hy
            · exact hxc'
            · have := hpost y hy hay
              unfold not_worse at this
              rcases hxc' with h1 | ⟨h1, h2⟩ <;> rcases this with h3 | ⟨h3, h4⟩
              · exact Or.inl (by omega)
              · exact Or.inl (by omega)
              · exact Or.inl (by omega)
              · exact Or.inr ⟨by omega, lt_of_lt_of_le h2 h4⟩
        · intro y hy
          simp at hy
      · refine ⟨pre, c, post ++ [x], by rw [hdec]; simp, hadm, ?_, hpre, ?_⟩
        · simp only [consider]
          rw [if_neg hacc]
        · intro y hy hay
          rcases List.mem_append.mp hy with hy | hy
          · exact hpost y hy hay
          · simp only [List.mem_singleton] at hy
            subst hy
            obtain ⟨ey, hey, hey_lt⟩ := (below_iff _ _).mp hay
            have himb_y : imbalance_of bounds y = ey := by simp [imbalance_of, hey]
            simp only [accepts, Bool.or_eq_true, Bool.and_eq_true, decide_eq_true_eq,
              not_or, not_and, Bool.not_eq_true] at hacc
            have h1 : ¬ y.2.1 < c.2.1 := by
              intro h
              have := hacc.1 h
              unfold admissible at hay
              rw [hay] at this
              exact absurd this (by decide)
            have h2 : y.2.1 = c.2.1 → ¬ ey < imbalance_of bounds c := by
              intro h hlt
              have := hacc.2 h
              rw [hey] at this
              simp [below, hlt] at this
            unfold not_worse
            rw [himb_y]
            by_cases heq : y.2.1 = c.2.1
            · exact Or.inr ⟨heq.symm, not_lt.mp (h2 heq)⟩
            · exact Or.inl (by omega)

theorem find_split_accepted {L : Type} (env : collaborators L)
    (sort : Nat → List crossing_event → List crossing_event)
    (lines lines_left lines_right : List L) (bounds : box_t) (ws : image) (max_epsilon : ℚ)
    (haccepted : 0 ≤ (search env sort bounds max_epsilon
      (collect_crossings env bounds lines 0)).1.best_d) :
    (find_split env sort lines lines_left lines_right bounds ws max_epsilon).1 =
      ⟨(search env sort bounds max_epsilon (collect_crossings env bounds lines 0)).1.best_d,
        (search env sort bounds max_epsilon (collect_crossings env bounds lines 0)).1.best_split⟩ := by
  have hfb : fallback bounds (search env sort bounds max_epsilon
      (collect_crossings env bounds lines 0)).1 =
      (search env sort bounds max_epsilon (collect_crossings env bounds lines 0)).1 := by
    unfold fallback
    rw [if_neg (not_lt.mpr haccepted)]
  simp only [find_split, find_split_indices, hfb]

/-- C12 (counterexample).  For a segment from `x = 2` to `x = 4` and a segment
from `x = 4` to `x = 5` in the box `[0, 7) x [0, 4) x [0, 4)` and
`max_epsilon` the `double` 0.2, three candidates are evaluated, all along
axis 0: 1 with overlap 0 and 3 and 4 with overlap 1.  The imbalance 5/14 of 1
is not below `max_epsilon`; 3 and 4 have the same overlap and the same
imbalance 1/14 and 3 is evaluated first, yet the call returns 4: in `double`
the imbalance computed for 4 is the smaller one. -/
theorem tie_goes_to_later_candidate :
    round_double (1 / 5) = double_fifth ∧
    all_candidates segment_env stable_sort tie_box
      (collect_crossings segment_env tie_box tie_lines 0) =
      [(0, 0, 1), (0, 1, 3), (0, 1, 4)] ∧
    exact_imbalance tie_box 0 1 = 5 / 14 ∧ ¬ exact_imbalance tie_box 0 1 < double_fifth ∧
    exact_imbalance tie_box 0 3 = 1 / 14 ∧ exact_imbalance tie_box 0 4 = 1 / 14 ∧
    exact_imbalance tie_box 0 3 < double_fifth ∧
    (find_split segment_env stable_sort tie_lines [] [] tie_box (image.zeros (cube 4))
      double_fifth).1 = ⟨0, 4⟩ ∧
    imbalance tie_box 0 3 = some (1286742750677285 / 18014398509481984) ∧
    imbalance tie_box 0 4 = some (321685687669321 / 4503599627370496) ∧
    (321685687669321 / 4503599627370496 : ℚ) < 1286742750677285 / 18014398509481984 := by
  decide!

/-- C12 (amended).  With a sort that sorts and fewer than `2 ^ 30` lines, when
the search of `find_split` ends with a candidate, and with the imbalance of a
candidate taken as the code computes it in `double`: the split returned is the
axis and coordinate of a candidate with imbalance below `max_epsilon` that,
among all candidates with imbalance below `max_epsilon` evaluated on the three
axes, has the least overlap and, among those of least overlap, the least
imbalance, and that comes before every other candidate with the same overlap
and imbalance in the order of evaluation (axis by axis, along each axis in the
order of the sweep). -/
theorem split_is_first_best {L : Type} (env : collaborators L)
    (sort : Nat → List crossing_event → List crossing_event) (hsort : sorts sort)
    (lines lines_left lines_right : List L) (bounds : box_t) (ws : image) (max_epsilon : ℚ)
    (hsize : 2 * (lines.length : Int) ≤ int_max)
    (haccepted : 0 ≤ (search env sort bounds max_epsilon
      (collect_crossings env bounds lines 0)).1.best_d) :
    ∃ (pre : List (Nat × Int × Int)) (c : Nat × Int × Int) (post : List (Nat × Int × Int)),
      all_candidates env sort bounds (collect_crossings env bounds lines 0) = pre ++ c :: post ∧
      admissible bounds max_epsilon c = true ∧
      (find_split env sort lines lines_left lines_right bounds ws max_epsilon).1 =
        ⟨(c.1 : Int), c.2.2⟩ ∧
      (∀ y ∈ pre, admissible bounds max_epsilon y = true → strictly_better bounds c y) ∧
      (∀ y ∈ post, admissible bounds max_epsilon y = true → not_worse bounds c y) := by
  have hfold := search_eq_foldl_all env sort bounds max_epsilon
    (collect_crossings env bounds lines 0)
  rcases foldl_consider_first_best bounds max_epsilon _
      (all_candidates_overlap_le env sort hsort lines bounds hsize) with
    ⟨hr, _⟩ | ⟨pre, c, post, hdec, hadm, hr, hpre, hpost⟩
  · rw [hfold, hr] at haccepted
    simp [no_candidate] at haccepted
  · refine ⟨pre, c, post, hdec, hadm, ?_, hpre, hpost⟩
    rw [find_split_accepted env sort lines lines_left lines_right bounds ws max_epsilon haccepted,
      hfold, hr]

/-- The amended C12 theorem for the two segments of `tie_lines` and
`max_epsilon` the `double` 0.2: of the three candidates the one returned, the
cut at 4 along axis 0, is the last; the cut at 3 before it has the same
overlap and a larger computed imbalance. -/
theorem split_is_first_best_witness :
    sorts stable_sort ∧ 2 * ((tie_lines.length : Nat) : Int) ≤ int_max ∧
    0 ≤ (search segment_env stable_sort tie_box double_fifth
      (collect_crossings segment_env tie_box tie_lines 0)).1.best_d ∧
    all_candidates segment_env stable_sort tie_box
        (collect_crossings segment_env tie_box tie_lines 0) =
      [(0, 0, 1), (0, 1, 3), (0, 1, 4)] ∧
    (find_split segment_env stable_sort tie_lines [] [] tie_box (image.zeros (cube 4))
      double_fifth).1 = ⟨0, 4⟩ ∧
    ∃ (pre : List (Nat × Int × Int)) (c : Nat × Int × Int) (post : List (Nat × Int × Int)),
      all_candidates segment_env stable_sort tie_box
        (collect_crossings segment_env tie_box tie_lines 0) = pre ++ c :: post ∧
      admissible tie_box double_fifth c = true ∧
      (find_split segment_env stable_sort tie_lines [] [] tie_box (image.zeros (cube 4))
        double_fifth).1 = ⟨(c.1 : Int), c.2.2⟩ ∧
      (∀ y ∈ pre, admissible tie_box double_fifth y = true → strictly_better tie_box c y) ∧
      (∀ y ∈ post, admissible tie_box double_fifth y = true → not_worse tie_box c y) :=
  ⟨stable_sort_sorts, by decide, by decide!, by decide!, by decide!,
    split_is_first_best segment_env stable_sort stable_sort_sorts tie_lines [] []
      tie_box (image.zeros (cube 4)) double_fifth (by decide) (by decide!)⟩

/-! ## C15: the boxes of the two children -/

theorem get_set_hi (b : box_t) (d : Nat) (a : Int) :
    (b.set_hi d a).get d = ((b.get d).1, a) := by
  unfold box_t.set_hi box_t.get
  split_ifs <;> rfl

theorem get_set_lo (b : box_t) (d : Nat) (a : Int) :
    (b.set_lo d a).get d = (a, (b.get d).2) := by
  unfold box_t.set_lo box_t.get
  split_ifs <;> rfl

theorem get_set_hi_other (b : box_t) (d d' : Nat) (a : Int) (hd : d < 3) (hd' : d' < 3)
    (hne : d' ≠ d) : (b.set_hi d a).get d' = b.get d' := by
  unfold box_t.set_hi box_t.get
  interval_cases d <;> interval_cases d' <;> simp_all

theorem get_set_lo_other (b : box_t) (d d' : Nat) (a : Int) (hd : d < 3) (hd' : d' < 3)
    (hne : d' ≠ d) : (b.set_lo d a).get d' = b.get d' := by
  unfold box_t.set_lo box_t.get
  interval_cases d <;> interval_cases d' <;> simp_all

/-- The candidates of the sweep along `d` lie within the bounds along `d`
when the crossings do and the bounds fit. -/
theorem candidates_in_box {L : Type} (env : collaborators L) (bounds : box_t) (d : Nat)
    (crossings : List crossing_event) (hfits : fits_int bounds d)
    (hwithin : ∀ c ∈ crossings, ((bounds.get d).1 : ℚ) ≤ c.point.get d ∧
      c.point.get d ≤ ((bounds.get d).2 : ℚ)) :
    ∀ cand ∈ candidates env bounds d crossings,
      (bounds.get d).1 ≤ cand.2 ∧ cand.2 ≤ (bounds.get d).2 := by
  intro cand hcand
  unfold candidates at hcand
  simp only at hcand
  generalize hrest : crossings.drop (crossings.takeWhile
    (fun c => env.approx_equal (c.point.get d) ((bounds.get d).1 : ℚ))).length = rest at hcand
  have hrest_mem : ∀ c ∈ rest, ((bounds.get d).1 : ℚ) ≤ c.point.get d ∧
      c.point.get d ≤ ((bounds.get d).2 : ℚ) := by
    intro c hc
    rw [← hrest] at hc
    exact hwithin c (List.mem_of_mem_drop hc)
  cases rest with
  | nil => simp [candidates_from] at hcand
  | cons c cs =>
    have hc := hrest_mem c (List.mem_cons_self _ _)
    have hle : (bounds.get d).1 ≤ (bounds.get d).2 := by
      exact_mod_cast le_trans hc.1 hc.2
    exact (candidates_from_in_box d (bounds.get d).1 (bounds.get d).2 hfits.1 hfits.2
      (c :: cs) _ _ ⟨le_refl _, hle⟩ hrest_mem cand hcand).2

theorem foldl_consider_mem (bounds : box_t) (max_epsilon : ℚ) (l : List (Nat × Int × Int)) :
    ∀ best : best_t,
      l.foldl (fun b c => consider bounds max_epsilon c.1 b c.2.1 c.2.2) best = best ∨
      ∃ c ∈ l,
        (l.foldl (fun b c => consider bounds max_epsilon c.1 b c.2.1 c.2.2) best).best_d =
            (c.1 : Int) ∧
        (l.foldl (fun b c => consider bounds max_epsilon c.1 b c.2.1 c.2.2) best).best_split =
            c.2.2 := by
  induction l with
  | nil => intro best; exact Or.inl rfl
  | cons x l ih =>
    intro best
    rw [List.foldl_cons]
    rcases ih (consider bounds max_epsilon x.1 best x.2.1 x.2.2) with h | ⟨c, hc, h1, h2⟩
    · rw [h]
      by_cases hacc : accepts max_epsilon best x.2.1 (imbalance bounds x.1 x.2.2) = true
      · right
        refine ⟨x, List.mem_cons_self _ _, ?_, ?_⟩ <;> simp [consider, hacc]
      · left
        simp [consider, hacc]
    · exact Or.inr ⟨c, List.mem_cons_of_mem _ hc, h1, h2⟩

/-- The split of `find_split` names one of the three axes and, for a box with
`lo <= hi` along axis 0, bounds that fit and crossings within the box, a
coordinate within the bounds along that axis. -/
theorem find_split_in_box {L : Type} (env : collaborators L)
    (sort : Nat → List crossing_event → List crossing_event) (hsort : sorts sort)
    (lines lines_left lines_right : List L) (bounds : box_t) (ws : image) (max_epsilon : ℚ)
    (hbox : (bounds.get 0).1 ≤ (bounds.get 0).2) (hfits : ∀ d < 3, fits_int bounds d)
    (hwithin : ∀ d < 3, ∀ c ∈ collect_crossings env bounds lines 0,
      ((bounds.get d).1 : ℚ) ≤ c.point.get d ∧ c.point.get d ≤ ((bounds.get d).2 : ℚ)) :
    0 ≤ (find_split env sort lines lines_left lines_right bounds ws max_epsilon).1.d ∧
    (find_split env sort lines lines_left lines_right bounds ws max_epsilon).1.d.toNat < 3 ∧
    (bounds.get (find_split env sort lines lines_left lines_right bounds ws
        max_epsilon).1.d.toNat).1 ≤
      (find_split env sort lines lines_left lines_right bounds ws max_epsilon).1.a ∧
    (find_split env sort lines lines_left lines_right bounds ws max_epsilon).1.a ≤
      (bounds.get (find_split env sort lines lines_left lines_right bounds ws
        max_epsilon).1.d.toNat).2 := by
  by_cases hneg : (search env sort bounds max_epsilon
      (collect_crossings env bounds lines 0)).1.best_d < 0
  · rw [find_split_fallback_split env sort lines lines_left lines_right bounds ws max_epsilon hneg]
    have h := half_split_bounds (bounds.get 0).1 (bounds.get 0).2 (bounds.get 0).1
      (bounds.get 0).2 (hfits 0 (by decide)).1 (hfits 0 (by decide)).2 ⟨le_refl _, hbox⟩
      ⟨hbox, le_refl _⟩
    simp only [Int.toNat_zero]
    exact ⟨le_refl _, by norm_num, h.1, h.2⟩
  · have hacc : 0 ≤ (search env sort bounds max_epsilon
        (collect_crossings env bounds lines 0)).1.best_d := not_lt.mp hneg
    rw [find_split_accepted env sort lines lines_left lines_right bounds ws max_epsilon hacc]
    simp only
    have hfold := search_eq_foldl_all env sort bounds max_epsilon
      (collect_crossings env bounds lines 0)
    rcases foldl_consider_mem bounds max_epsilon
        (all_candidates env sort bounds (collect_crossings env bounds lines 0))
        (no_candidate max_epsilon) with h | ⟨c, hc, h1, h2⟩
    · rw [hfold, h] at hacc
      simp [no_candidate] at hacc
    · rw [hfold, h1, h2]
      simp only [all_candidates, List.mem_flatMap, List.mem_map, List.mem_range] at hc
      obtain ⟨d, hd, cand, hcand, rfl⟩ := hc
      have hin := candidates_in_box env bounds d _ (hfits d hd)
        (fun e he => hwithin d hd e
          ((sorted_along_perm sort hsort (collect_crossings env bounds lines 0) d).mem_iff.mp he))
        cand hcand
      simp only [Int.toNat_ofNat]
      exact ⟨by omega, hd, hin.1, hin.2⟩

/-- C15 (counterexample).  In a box with `2^31 - 1` voxels along axis 0, with
a segment from `x = 0` to `x = 10^9` and a segment along axis 1 at
`x = 1.2 * 10^9`, all crossings within the box, and `max_epsilon = 1`, the
sum `10^9 + 1.2 * 10^9` of the second candidate along axis 0 wraps around:
`find_split` returns the cut at `-1047483648` along axis 0, below the lower
bound 0, and the pass of the loop pushes the children `[0, -1047483648)` and
`[-1047483648, 2^31 - 1)`. -/
theorem children_outside_parent :
    (∀ d < 3, ∀ c ∈ collect_crossings segment_env long_box long_lines 0,
      (((long_box.get d).1 : Int) : ℚ) ≤ c.point.get d ∧
        c.point.get d ≤ (((long_box.get d).2 : Int) : ℚ)) ∧
    (long_box.get 0).1 ≤ (long_box.get 0).2 ∧
    (find_split segment_env stable_sort long_lines [] [] long_box (image.zeros (cube 4)) 1).1 =
      ⟨0, -1047483648⟩ ∧
    ¬ (long_box.get 0).1 ≤ -1047483648 ∧
    (loop_body segment_env stable_sort (image.zeros (cube 4)) 1 2
      ⟨long_box, none, dir.left, long_lines, 0⟩ [] .nil).split_stack.map
        (fun child => (child.bounds.get 0, child.direction)) =
      [((-1047483648, 2147483647), dir.right), ((0, -1047483648), dir.left)] := by
  decide!

/-- C15 (amended).  With a sort that sorts, for a subvolume with `depth + 1`
below the depth of the tree, a box with `lo <= hi` along axis 0 whose bounds
lie between `-2^30` and `2^30 - 1` on every axis, and crossings within the
box: the pass of the loop that splits it with decision `(d, a)` adds the
decision as a new node in the slot of the subvolume and pushes two children,
the right one on top; `lo_d <= a <= hi_d`; along `d` the left child has the
bounds `[lo_d, a)` and the right child `[a, hi_d)`, along the other two axes
both have the bounds of the parent, so that the children are disjoint and
together are the parent; both have the depth of the parent plus one and the
new node as parent, they own the left and the right lines, and their boxes
again have `lo <= hi` along axis 0 and bounds between `-2^30` and `2^30 - 1`
on every axis. -/
theorem children_partition_parent {L : Type} (env : collaborators L)
    (sort : Nat → List crossing_event → List crossing_event) (hsort : sorts sort)
    (ws : image) (max_epsilon : ℚ) (depth : Int) (sub : subvolume L)
    (rest : List (subvolume L)) (t : binary_tree split_t) (hdepth : sub.depth + 1 < depth)
    (hbox : (sub.bounds.get 0).1 ≤ (sub.bounds.get 0).2)
    (hfits : ∀ d < 3, fits_int sub.bounds d)
    (hwithin : ∀ d < 3, ∀ c ∈ collect_crossings env sub.bounds sub.lines 0,
      ((sub.bounds.get d).1 : ℚ) ≤ c.point.get d ∧ c.point.get d ≤ ((sub.bounds.get d).2 : ℚ)) :
    ∃ (d : Nat) (a : Int) (left right : subvolume L),
      (find_split env sort sub.lines [] [] sub.bounds ws max_epsilon).1 = ⟨(d : Int), a⟩ ∧
      d < 3 ∧
      (loop_body env sort ws max_epsilon depth sub rest t).split_stack = right :: left :: rest ∧
      (loop_body env sort ws max_epsilon depth sub rest t).result =
        t.graft sub.slot (.node ⟨(d : Int), a⟩ .nil .nil) ∧
      (sub.bounds.get d).1 ≤ a ∧ a ≤ (sub.bounds.get d).2 ∧
      left.bounds.get d = ((sub.bounds.get d).1, a) ∧
      right.bounds.get d = (a, (sub.bounds.get d).2) ∧
      (∀ d' < 3, d' ≠ d →
        left.bounds.get d' = sub.bounds.get d' ∧ right.bounds.get d' = sub.bounds.get d') ∧
      left.depth = sub.depth + 1 ∧ right.depth = sub.depth + 1 ∧
      left.parent = some sub.slot ∧ right.parent = some sub.slot ∧
      left.direction = dir.left ∧ right.direction = dir.right ∧
      left.lines = (find_split env sort sub.lines [] [] sub.bounds ws max_epsilon).2.1 ∧
      right.lines = (find_split env sort sub.lines [] [] sub.bounds ws max_epsilon).2.2 ∧
      (∀ x : Int, ((sub.bounds.get d).1 ≤ x ∧ x < (sub.bounds.get d).2) ↔
        (((left.bounds.get d).1 ≤ x ∧ x < (left.bounds.get d).2) ∨
          ((right.bounds.get d).1 ≤ x ∧ x < (right.bounds.get d).2))) ∧
      (∀ x : Int, ¬ (((left.bounds.get d).1 ≤ x ∧ x < (left.bounds.get d).2) ∧
          ((right.bounds.get d).1 ≤ x ∧ x < (right.bounds.get d).2))) ∧
      (left.bounds.get 0).1 ≤ (left.bounds.get 0).2 ∧
      (right.bounds.get 0).1 ≤ (right.bounds.get 0).2 ∧
      (∀ d' < 3, fits_int left.bounds d' ∧ fits_int right.bounds d') := by
  obtain ⟨h0, h3, hlo, hhi⟩ := find_split_in_box env sort hsort sub.lines [] [] sub.bounds ws
    max_epsilon hbox hfits hwithin
  generalize hf : find_split env sort sub.lines [] [] sub.bounds ws max_epsilon = found at *
  obtain ⟨⟨fd, fa⟩, fleft, fright⟩ := found
  simp only at h0 h3 hlo hhi
  have hfd : ((fd.toNat : Nat) : Int) = fd := Int.toNat_of_nonneg h0
  refine ⟨fd.toNat, fa,
    ⟨sub.bounds.set_hi fd.toNat fa, some sub.slot, dir.left, fleft, sub.depth + 1⟩,
    ⟨sub.bounds.set_lo fd.toNat fa, some sub.slot, dir.right, fright, sub.depth + 1⟩,
    by rw [hfd], h3, ?_, ?_, hlo, hhi, get_set_hi _ _ _, get_set_lo _ _ _, ?_, rfl, rfl, rfl, rfl,
    rfl, rfl, rfl, rfl, ?_, ?_, ?_, ?_, ?_⟩
  · simp only [loop_body, hdepth, if_true, hf, add_eq_graft]
  · simp only [loop_body, hdepth, if_true, hf, add_eq_graft, hfd]
  · intro d' hd' hne
    exact ⟨get_set_hi_other _ _ _ _ h3 hd' hne, get_set_lo_other _ _ _ _ h3 hd' hne⟩
  · intro x
    simp only [get_set_hi, get_set_lo]
    constructor
    · rintro ⟨h1, h2⟩
      by_cases hx : x < fa
      · exact Or.inl ⟨h1, hx⟩
      · exact Or.inr ⟨by omega, h2⟩
    · rintro (⟨h1, h2⟩ | ⟨h1, h2⟩)
      · exact ⟨h1, by omega⟩
      · exact ⟨by omega, h2⟩
  · intro x
    simp only [get_set_hi, get_set_lo]
    omega
  · by_cases hd0 : fd.toNat = 0
    · simp only
      rw [← hd0, get_set_hi]
      exact hlo
    · simp only
      rw [get_set_hi_other _ _ _ _ h3 (by decide) (Ne.symm hd0)]
      exact hbox
  · by_cases hd0 : fd.toNat = 0
    · simp only
      rw [← hd0, get_set_lo]
      exact hhi
    · simp only
      rw [get_set_lo_other _ _ _ _ h3 (by decide) (Ne.symm hd0)]
      exact hbox
  · intro d' hd'
    have hp := hfits d' hd'
    have hq := hfits fd.toNat h3
    unfold fits_int at hp hq ⊢
    by_cases hdd : d' = fd.toNat
    · subst hdd
      simp only [get_set_hi, get_set_lo]
      omega
    · simp only
      rw [get_set_hi_other _ _ _ _ h3 hd' hdd, get_set_lo_other _ _ _ _ h3 hd' hdd]
      exact ⟨hp, hp⟩

/-- The amended C15 theorem for the whole cube with the four lines, split for
four processors. -/
theorem children_partition_parent_witness :
    sorts stable_sort ∧
    ((complete_volume (cube 4) four_lines : subvolume segment).depth + 1 < 2) ∧
    (∀ d < 3, fits_int (complete_volume (cube 4) four_lines : subvolume segment).bounds d) ∧
    (∀ d < 3, ∀ c ∈ collect_crossings segment_env
        (complete_volume (cube 4) four_lines : subvolume segment).bounds four_lines 0,
      ((((complete_volume (cube 4) four_lines : subvolume segment).bounds.get d).1 : Int) : ℚ) ≤
          c.point.get d ∧
        c.point.get d ≤
          ((((complete_volume (cube 4) four_lines : subvolume segment).bounds.get d).2 : Int) : ℚ)) ∧
    ∃ (d : Nat) (a : Int) (left right : subvolume segment),
      (find_split segment_env stable_sort four_lines [] []
        (complete_volume (cube 4) four_lines : subvolume segment).bounds (image.zeros (cube 4))
        (1 / 5)).1 = ⟨(d : Int), a⟩ ∧
      d < 3 ∧
      (loop_body segment_env stable_sort (image.zeros (cube 4)) (1 / 5) 2
        (complete_volume (cube 4) four_lines) [] .nil).split_stack = right :: left :: [] ∧
      left.bounds.get d =
        (((complete_volume (cube 4) four_lines : subvolume segment).bounds.get d).1, a) ∧
      right.bounds.get d =
        (a, ((complete_volume (cube 4) four_lines : subvolume segment).bounds.get d).2) :=
  ⟨stable_sort_sorts, by decide, by decide, by decide!,
    by
      obtain ⟨d, a, left, right, h1, h2, h3, _, _, _, h7, h8, _⟩ :=
        children_partition_parent segment_env stable_sort stable_sort_sorts
          (image.zeros (cube 4)) (1 / 5) 2 (complete_volume (cube 4) four_lines) [] .nil
          (by decide) (by decide) (by decide) (by decide!)
      exact ⟨d, a, left, right, h1, h2, h3, h7, h8⟩⟩

/-! ## C19: the order of the lines does not matter -/

theorem pass_step_unlabelled {L : Type} (env : collaborators L) (bounds : box_t)
    (max_epsilon : ℚ) (d : Nat) (st : pass_state) (c : crossing_event) :
    pass_step env bounds max_epsilon d st c.unlabelled =
      pass_step env bounds max_epsilon d st c := rfl

theorem sweep_axis_as_pass {L : Type} (env : collaborators L) (bounds : box_t)
    (max_epsilon : ℚ) (d : Nat) (l : List crossing_event) (best : best_t) :
    sweep_axis env bounds max_epsilon d l best =
      (l.foldl (pass_step env bounds max_epsilon d)
        ⟨true, ⟨0, (bounds.get d).1, best⟩⟩).sweep.best := by
  rw [← sweep_axis_eq_pass env bounds max_epsilon d l 0 best]
  simp [sweep_axis]

/-- The sweep along `d` gives the same best candidate on two sorted lists
that hold the same events up to the indices of their lines. -/
theorem sweep_axis_unlabelled_perm {L : Type} (env : collaborators L) (bounds : box_t)
    (max_epsilon : ℚ) (d : Nat) (l₁ l₂ : List crossing_event)
    (hperm : (l₁.map crossing_event.unlabelled).Perm (l₂.map crossing_event.unlabelled))
    (hs₁ : l₁.Sorted (along d)) (hs₂ : l₂.Sorted (along d)) (best : best_t) :
    sweep_axis env bounds max_epsilon d l₁ best = sweep_axis env bounds max_epsilon d l₂ best := by
  have hfold : ∀ (l : List crossing_event) (st : pass_state),
      l.foldl (pass_step env bounds max_epsilon d) st =
        (l.map crossing_event.unlabelled).foldl (pass_step env bounds max_epsilon d) st := by
    intro l st
    rw [List.foldl_map]
    rfl
  have hsorted : ∀ l : List crossing_event, l.Sorted (along d) →
      (l.map crossing_event.unlabelled).Sorted
        (fun a b : crossing_event => a.point.get d ≤ b.point.get d) := by
    intro l hl
    exact List.pairwise_map.mpr hl
  rw [sweep_axis_as_pass, sweep_axis_as_pass, hfold l₁, hfold l₂,
    foldl_eq_of_sorted_perm (fun c : crossing_event => c.point.get d)
      (pass_step env bounds max_epsilon d) (pass_step_comm env bounds max_epsilon d) _ _ hperm
      (hsorted l₁ hs₁) (hsorted l₂ hs₂)]

theorem collect_crossings_unlabelled {L : Type} (env : collaborators L) (bounds : box_t) :
    ∀ (lines : List L) (idx : Nat),
      (collect_crossings env bounds lines idx).map crossing_event.unlabelled =
        lines.flatMap (events_of env bounds) := by
  intro lines
  induction lines with
  | nil => intro idx; rfl
  | cons l rest ih =>
    intro idx
    rw [List.flatMap_cons, ← ih (idx + 1)]
    cases hint : env.intersect_bounds l bounds with
    | none => simp [collect_crossings, events_of, hint]
    | some ab =>
      obtain ⟨a, b⟩ := ab
      simp [collect_crossings, events_of, hint, crossing_event.unlabelled]

/-- The search finds the same best candidate for two lists of crossings that
hold the same events up to the indices of their lines, with any two sorts
that sort. -/
theorem search_unlabelled_perm {L : Type} (env : collaborators L)
    (sort₁ sort₂ : Nat → List crossing_event → List crossing_event) (h₁ : sorts sort₁)
    (h₂ : sorts sort₂) (bounds : box_t) (max_epsilon : ℚ) (cr₁ cr₂ : List crossing_event)
    (hperm : (cr₁.map crossing_event.unlabelled).Perm (cr₂.map crossing_event.unlabelled)) :
    (search env sort₁ bounds max_epsilon cr₁).1 = (search env sort₂ bounds max_epsilon cr₂).1 := by
  have hp : ∀ d, ((sorted_along sort₁ cr₁ d).map crossing_event.unlabelled).Perm
      ((sorted_along sort₂ cr₂ d).map crossing_event.unlabelled) :=
    fun d => (((sorted_along_perm sort₁ h₁ cr₁ d).map _).trans hperm).trans
      ((sorted_along_perm sort₂ h₂ cr₂ d).map _).symm
  rw [search_eq, search_eq]
  simp only
  rw [sweep_axis_unlabelled_perm env bounds max_epsilon 0 _ _ (hp 0)
      (sorted_along_sorted sort₁ h₁ _ 0) (sorted_along_sorted sort₂ h₂ _ 0),
    sweep_axis_unlabelled_perm env bounds max_epsilon 1 _ _ (hp 1)
      (sorted_along_sorted sort₁ h₁ _ 1) (sorted_along_sorted sort₂ h₂ _ 1),
    sweep_axis_unlabelled_perm env bounds max_epsilon 2 _ _ (hp 2)
      (sorted_along_sorted sort₁ h₁ _ 2) (sorted_along_sorted sort₂ h₂ _ 2)]

theorem filterMap_get?_filter_range {α : Type} (p : α → Bool) (l : List α) :
    ((List.range l.length).filter (fun i => (l.get? i).any p)).filterMap (fun i => l.get? i) =
      l.filter p := by
  induction l with
  | nil => rfl
  | cons a l ih =>
    rw [List.length_cons, List.range_succ_eq_map, List.filter_cons]
    have hmap : (List.map Nat.succ (List.range l.length)).filter
        (fun i => ((a :: l).get? i).any p) =
        List.map Nat.succ ((List.range l.length).filter (fun i => (l.get? i).any p)) := by
      rw [List.filter_map]
      rfl
    have htail : (List.map Nat.succ ((List.range l.length).filter
          (fun i => (l.get? i).any p))).filterMap (fun i => (a :: l).get? i) = l.filter p := by
      rw [List.filterMap_map]
      exact ih
    by_cases hp : p a = true
    · simp only [List.get?_cons_zero, Option.any_some, hp, if_true, List.filterMap_cons,
        List.filter_cons]
      rw [hmap, htail]
    · simp only [List.get?_cons_zero, Option.any_some, hp, Bool.false_eq_true, if_false,
        List.filter_cons]
      rw [hmap, htail]

theorem is_set_filter_range (n : Nat) (q : Nat → Bool) : is_set ((List.range n).filter q) :=
  ⟨(List.sorted_le_range n).filter q, (List.nodup_range n).filter q⟩

/-- A set of indices that holds exactly the indices of the lines with a
property lists, through `lines[i]`, the lines with the property in their
order. -/
theorem filterMap_get?_of_set {α : Type} (p : α → Bool) (l : List α) (idxs : List Nat)
    (hset : is_set idxs) (hmem : ∀ i, i ∈ idxs ↔ ∃ x, l.get? i = some x ∧ p x = true) :
    idxs.filterMap (fun i => l.get? i) = l.filter p := by
  have hidx : idxs = (List.range l.length).filter (fun i => (l.get? i).any p) := by
    apply is_set_ext _ _ hset (is_set_filter_range _ _)
    intro i
    rw [hmem i, List.mem_filter, List.mem_range]
    constructor
    · rintro ⟨x, hx, hpx⟩
      exact ⟨(List.get?_eq_some.mp hx).1, by rw [hx]; simpa using hpx⟩
    · rintro ⟨hlt, hany⟩
      refine ⟨l.get ⟨i, hlt⟩, List.get?_eq_get hlt, ?_⟩
      rw [List.get?_eq_get hlt] at hany
      simpa using hany
  rw [hidx, filterMap_get?_filter_range]

/-- The vectors `lines_left` and `lines_right` of a call with empty vectors
are the lines that begin by the cut and the lines that end beyond it, in the
order of `lines`. -/
theorem find_split_eq_filter {L : Type} (env : collaborators L)
    (sort : Nat → List crossing_event → List crossing_event) (hsort : sorts sort)
    (lines : List L) (bounds : box_t) (ws : image) (max_epsilon : ℚ) :
    (find_split env sort lines [] [] bounds ws max_epsilon).2.1 =
      lines.filter (begins_by env bounds
        (find_split env sort lines [] [] bounds ws max_epsilon).1.d.toNat
        (find_split env sort lines [] [] bounds ws max_epsilon).1.a) ∧
    (find_split env sort lines [] [] bounds ws max_epsilon).2.2 =
      lines.filter (ends_beyond env bounds
        (find_split env sort lines [] [] bounds ws max_epsilon).1.d.toNat
        (find_split env sort lines [] [] bounds ws max_epsilon).1.a) := by
  have hsplit : (find_split env sort lines [] [] bounds ws max_epsilon).1 =
      (find_split_indices env sort lines bounds max_epsilon).1 := rfl
  have hleft : (find_split env sort lines [] [] bounds ws max_epsilon).2.1 =
      (find_split_indices env sort lines bounds max_epsilon).2.1.filterMap
        (fun i => lines.get? i) := by simp [find_split]
  have hright : (find_split env sort lines [] [] bounds ws max_epsilon).2.2 =
      (find_split_indices env sort lines bounds max_epsilon).2.2.filterMap
        (fun i => lines.get? i) := by simp [find_split]
  have hsets : is_set (find_split_indices env sort lines bounds max_epsilon).2.1 ∧
      is_set (find_split_indices env sort lines bounds max_epsilon).2.2 :=
    classify_is_set _ _ _ _
  rw [hsplit, hleft, hright]
  constructor
  · apply filterMap_get?_of_set _ _ _ hsets.1
    intro i
    rw [(find_split_indices_mem env sort hsort lines bounds max_epsilon i).1]
    constructor
    · rintro ⟨l, a, b, hget, hint, hle⟩
      exact ⟨l, hget, by simp [begins_by, hint, hle]⟩
    · rintro ⟨l, hget, hp⟩
      unfold begins_by at hp
      cases hint : env.intersect_bounds l bounds with
      | none => simp [hint] at hp
      | some ab =>
        obtain ⟨a, b⟩ := ab
        simp only [hint, decide_eq_true_eq] at hp
        exact ⟨l, a, b, hget, hint, hp⟩
  · apply filterMap_get?_of_set _ _ _ hsets.2
    intro i
    rw [(find_split_indices_mem env sort hsort lines bounds max_epsilon i).2]
    constructor
    · rintro ⟨l, hget, hall⟩
      refine ⟨l, hget, ?_⟩
      unfold ends_beyond
      cases hint : env.intersect_bounds l bounds with
      | none => rfl
      | some ab =>
        obtain ⟨a, b⟩ := ab
        simp only [decide_eq_true_eq]
        exact hall a b hint
    · rintro ⟨l, hget, hp⟩
      refine ⟨l, hget, ?_⟩
      intro a b hint
      simpa [ends_beyond, hint] using hp

/-- C19.  With sorts that sort, whatever order they give to events of equal
coordinate, and for any rearrangement `lines'` of the input `lines`:
`find_split` returns the same axis and coordinate for both, and its
`lines_left` and `lines_right` for `lines'` hold the same lines, each as
often, as those for `lines`. -/
theorem find_split_of_permuted_lines {L : Type} (env : collaborators L)
    (sort₁ sort₂ : Nat → List crossing_event → List crossing_event) (h₁ : sorts sort₁)
    (h₂ : sorts sort₂) (lines lines' : List L) (hperm : lines'.Perm lines) (bounds : box_t)
    (ws : image) (max_epsilon : ℚ) :
    (find_split env sort₂ lines' [] [] bounds ws max_epsilon).1 =
      (find_split env sort₁ lines [] [] bounds ws max_epsilon).1 ∧
    (find_split env sort₂ lines' [] [] bounds ws max_epsilon).2.1.Perm
      (find_split env sort₁ lines [] [] bounds ws max_epsilon).2.1 ∧
    (find_split env sort₂ lines' [] [] bounds ws max_epsilon).2.2.Perm
      (find_split env sort₁ lines [] [] bounds ws max_epsilon).2.2 := by
  have hcr : ((collect_crossings env bounds lines' 0).map crossing_event.unlabelled).Perm
      ((collect_crossings env bounds lines 0).map crossing_event.unlabelled) := by
    rw [collect_crossings_unlabelled, collect_crossings_unlabelled]
    exact hperm.flatMap_right _
  have hsearch := search_unlabelled_perm env sort₂ sort₁ h₂ h₁ bounds max_epsilon _ _ hcr
  have hsplit : (find_split env sort₂ lines' [] [] bounds ws max_epsilon).1 =
      (find_split env sort₁ lines [] [] bounds ws max_epsilon).1 := by
    simp only [find_split, find_split_indices, hsearch]
  obtain ⟨hl', hr'⟩ := find_split_eq_filter env sort₂ h₂ lines' bounds ws max_epsilon
  obtain ⟨hl, hr⟩ := find_split_eq_filter env sort₁ h₁ lines bounds ws max_epsilon
  refine ⟨hsplit, ?_, ?_⟩
  · rw [hl', hl, hsplit]
    exact hperm.filter _
  · rw [hr', hr, hsplit]
    exact hperm.filter _

/-- The C19 theorem for the four lines in the cube and the same lines in
reverse order, sorted by a sort that keeps and a sort that reverses the order
of events of equal coordinate. -/
theorem find_split_of_permuted_lines_witness :
    sorts stable_sort ∧ sorts reversing_sort ∧ four_lines.reverse.Perm four_lines ∧
    (find_split segment_env reversing_sort four_lines.reverse [] [] ⟨(0, 4), (0, 4), (0, 4)⟩
        (image.zeros (cube 4)) (1 / 5)).1 =
      (find_split segment_env stable_sort four_lines [] [] ⟨(0, 4), (0, 4), (0, 4)⟩
        (image.zeros (cube 4)) (1 / 5)).1 ∧
    (find_split segment_env reversing_sort four_lines.reverse [] [] ⟨(0, 4), (0, 4), (0, 4)⟩
        (image.zeros (cube 4)) (1 / 5)).2.1.Perm
      (find_split segment_env stable_sort four_lines [] [] ⟨(0, 4), (0, 4), (0, 4)⟩
        (image.zeros (cube 4)) (1 / 5)).2.1 ∧
    (find_split segment_env reversing_sort four_lines.reverse [] [] ⟨(0, 4), (0, 4), (0, 4)⟩
        (image.zeros (cube 4)) (1 / 5)).2.2.Perm
      (find_split segment_env stable_sort four_lines [] [] ⟨(0, 4), (0, 4), (0, 4)⟩
        (image.zeros (cube 4)) (1 / 5)).2.2 :=
  ⟨stable_sort_sorts, reversing_sort_sorts, List.reverse_perm four_lines,
    find_split_of_permuted_lines segment_env stable_sort reversing_sort stable_sort_sorts
      reversing_sort_sorts four_lines four_lines.reverse (List.reverse_perm four_lines)
      ⟨(0, 4), (0, 4), (0, 4)⟩ (image.zeros (cube 4)) (1 / 5)⟩

/-! ## C14: the overlap of a candidate -/

theorem swept_from_candidates (d : Nat) (rest : List crossing_event) :
    ∀ (swept : List crossing_event) (overlap last_split : Int),
      (swept_from d swept overlap last_split rest).map (fun t => (t.1, t.2.1)) =
        candidates_from d overlap last_split rest := by
  induction rest with
  | nil => intro swept overlap last_split; rfl
  | cons c rest ih =>
    intro swept overlap last_split
    by_cases h : trunc (c.point.get d) = last_split
    · simp only [swept_from, candidates_from, h, ne_eq, not_true_eq_false, if_false]
      exact ih _ _ _
    · simp only [swept_from, candidates_from, h, ne_eq, not_false_eq_true, if_true,
        List.map_cons]
      rw [ih]

/-- Each candidate of the `for` loop is evaluated at a crossing of the list;
the loop has passed the crossings before it, which lie strictly before it
along `d`, and its overlap is the overlap at the start plus the directions of
the crossings passed. -/
theorem swept_from_spec (d : Nat) (lower : List crossing_event) (rest : List crossing_event) :
    ∀ (swept : List crossing_event) (overlap last_split : Int),
      (lower ++ swept ++ rest).Sorted (along d) →
      (swept = [] → ∀ c, rest.head? = some c → ∀ e ∈ lower, e.point.get d ≠ c.point.get d) →
      (∀ e₀, swept.getLast? = some e₀ → last_split = trunc (e₀.point.get d)) →
      ∀ t ∈ swept_from d swept overlap last_split rest,
        ∃ mid after : List crossing_event,
          rest = mid ++ t.2.2.2 :: after ∧ t.2.2.1 = swept ++ mid ∧
          t.1 = overlap + direction_sum d mid ∧
          ∀ e ∈ lower ++ t.2.2.1, e.point.get d < t.2.2.2.point.get d := by
  induction rest with
  | nil => intro swept overlap last_split _ _ _ t ht; simp [swept_from] at ht
  | cons c rest ih =>
    intro swept overlap last_split hsorted hfirst hlast t ht
    have hrec : ∀ last' : Int, last' = trunc (c.point.get d) →
        ∀ t ∈ swept_from d (swept ++ [c]) (overlap + c.direction.get d) last' rest,
        ∃ mid after : List crossing_event,
          c :: rest = mid ++ t.2.2.2 :: after ∧ t.2.2.1 = swept ++ mid ∧
          t.1 = overlap + direction_sum d mid ∧
          ∀ e ∈ lower ++ t.2.2.1, e.point.get d < t.2.2.2.point.get d := by
      intro last' hlast' t ht
      obtain ⟨mid, after, h1, h2, h3, h4⟩ := ih (swept ++ [c]) (overlap + c.direction.get d) last'
        (by simpa [List.append_assoc] using hsorted)
        (fun h => absurd h (by simp))
        (fun e₀ he₀ => by
          have h₀ : e₀ = c := by simpa using he₀.symm
          rw [h₀]; exact hlast') t ht
      refine ⟨c :: mid, after, by rw [h1]; rfl, by rw [h2]; simp, ?_, h4⟩
      rw [h3]
      simp only [direction_sum, List.map_cons, List.sum_cons]
      ring
    by_cases h : trunc (c.point.get d) = last_split
    · simp only [swept_from, h, ne_eq, not_true_eq_false, if_false] at ht
      exact hrec last_split h.symm t ht
    · simp only [swept_from, h, ne_eq, not_false_eq_true, if_true, List.mem_cons] at ht
      rcases ht with rfl | ht
      · refine ⟨[], rest, rfl, by simp, by simp [direction_sum], ?_⟩
        simp only
        intro e he
        have hle : ∀ e' ∈ lower ++ swept, e'.point.get d ≤ c.point.get d := by
          intro e' he'
          exact (List.pairwise_append.mp hsorted).2.2 e' he' c (List.mem_cons_self _ _)
        rcases List.eq_nil_or_concat swept with hnil | ⟨init, e₀, hconcat⟩
        · subst hnil
          simp only [List.append_nil] at he hle
          exact lt_of_le_of_ne (hle e he) (hfirst rfl c rfl e he)
        · have hlast₀ : last_split = trunc (e₀.point.get d) := by
            apply hlast
            rw [hconcat]
            simp
          have hne : e₀.point.get d ≠ c.point.get d := by
            intro heq
            rw [hlast₀, heq] at h
            exact h rfl
          have he₀ : e₀.point.get d < c.point.get d :=
            lt_of_le_of_ne (hle e₀ (by rw [hconcat]; simp)) hne
          have hsorted' : (lower ++ swept).Sorted (along d) :=
            (List.pairwise_append.mp hsorted).1
          rw [hconcat, List.concat_eq_append, ← List.append_assoc] at hsorted' he
          rcases List.mem_append.mp he with he | he
          · exact lt_of_le_of_lt
              ((List.pairwise_append.mp hsorted').2.2 e he e₀ (List.mem_singleton_self _)) he₀
          · rw [List.mem_singleton.mp he]
            exact he₀
      · exact hrec (trunc (c.point.get d)) rfl t ht

theorem drop_takeWhile_length {α : Type} (p : α → Bool) (l : List α) :
    l.drop (l.takeWhile p).length = l.dropWhile p := by
  induction l with
  | nil => rfl
  | cons a l ih =>
    by_cases h : p a
    · simp [List.takeWhile_cons, List.dropWhile_cons, h, ih]
    · simp [List.takeWhile_cons, List.dropWhile_cons, h]

theorem head?_dropWhile_false {α : Type} (p : α → Bool) (l : List α) (c : α)
    (h : (l.dropWhile p).head? = some c) : p c = false := by
  induction l with
  | nil => simp at h
  | cons a l ih =>
    by_cases ha : p a
    · rw [List.dropWhile_cons, if_pos ha] at h
      exact ih h
    · rw [List.dropWhile_cons, if_neg ha] at h
      simp only [List.head?_cons, Option.some.injEq] at h
      rw [← h]
      simpa using ha

/-- Each candidate of the sweep along `d` over sorted crossings is evaluated
at a crossing; the crossings before it are those the `while` loop passed and
those the `for` loop has passed, all strictly before it along `d`, and its
overlap is the number of the former plus the directions of the latter. -/
theorem swept_candidates_spec {L : Type} (env : collaborators L) (bounds : box_t) (d : Nat)
    (crossings : List crossing_event) (hsorted : crossings.Sorted (along d)) :
    ∀ t ∈ swept_candidates env bounds d crossings,
      ∃ after : List crossing_event,
        crossings = at_lower_bound env bounds d crossings ++ t.2.2.1 ++ t.2.2.2 :: after ∧
        t.1 = (at_lower_bound env bounds d crossings).length + direction_sum d t.2.2.1 ∧
        ∀ e ∈ at_lower_bound env bounds d crossings ++ t.2.2.1,
          e.point.get d < t.2.2.2.point.get d := by
  intro t ht
  have hsplit : at_lower_bound env bounds d crossings ++
      crossings.drop (at_lower_bound env bounds d crossings).length = crossings := by
    unfold at_lower_bound
    rw [drop_takeWhile_length]
    exact List.takeWhile_append_dropWhile _ _
  obtain ⟨mid, after, h1, h2, h3, h4⟩ := swept_from_spec d
    (at_lower_bound env bounds d crossings)
    (crossings.drop (at_lower_bound env bounds d crossings).length) []
    (at_lower_bound env bounds d crossings).length (bounds.get d).1
    (by rw [List.append_nil, hsplit]; exact hsorted)
    (by
      intro _ c hc e he heq
      unfold at_lower_bound at hc he
      rw [drop_takeWhile_length] at hc
      have hfalse := head?_dropWhile_false _ _ c hc
      have htrue := List.mem_takeWhile_imp he
      simp only at hfalse htrue
      rw [heq, hfalse] at htrue
      exact Bool.noConfusion htrue)
    (by intro e₀ he₀; simp at he₀) t ht
  rw [List.nil_append] at h2
  refine ⟨after, ?_, ?_, h4⟩
  · rw [h2, List.append_assoc, ← h1, hsplit]
  · rw [h3, h2]

theorem filter_before_sorted (d : Nat) (known after : List crossing_event) (c : crossing_event)
    (hsorted : (known ++ c :: after).Sorted (along d))
    (hknown : ∀ e ∈ known, e.point.get d < c.point.get d) :
    (known ++ c :: after).filter (fun e => decide (e.point.get d < c.point.get d)) = known := by
  rw [List.filter_append]
  have h1 : known.filter (fun e => decide (e.point.get d < c.point.get d)) = known :=
    List.filter_eq_self.mpr (fun e he => by simpa using hknown e he)
  have h2 : (c :: after).filter (fun e => decide (e.point.get d < c.point.get d)) = [] := by
    apply List.filter_eq_nil_iff.mpr
    intro e he
    have hle : c.point.get d ≤ e.point.get d := by
      rcases List.mem_cons.mp he with rfl | he
      · exact le_refl _
      · exact List.rel_of_sorted_cons (List.pairwise_append.mp hsorted).2.1 e he
    simpa using hle
  rw [h1, h2, List.append_nil]

theorem sign1_neg_add (q : ℚ) : sign1 q + sign1 (-q) = 0 := by
  unfold sign1
  rcases lt_trichotomy q 0 with h | h | h
  · have h1 : ¬ 0 < q := not_lt.mpr h.le
    have h2 : 0 < -q := by linarith
    simp [h, h1, h2]
  · subst h; simp
  · have h1 : ¬ q < 0 := not_lt.mpr h.le
    have h2 : ¬ 0 < -q := by linarith
    have h3 : -q < 0 := by linarith
    simp [h, h1, h2, h3]

theorem sign1_of_pos (q : ℚ) (h : 0 < q) : sign1 q = 1 := by
  unfold sign1
  simp [h]

theorem direction_sum_append (d : Nat) (l₁ l₂ : List crossing_event) :
    direction_sum d (l₁ ++ l₂) = direction_sum d l₁ + direction_sum d l₂ := by
  simp [direction_sum]

/-- The directions along `d` of the two events of a line that lie before `x`
add up to 1 when the line spans `x`, and to 0 otherwise. -/
theorem direction_sum_line (d : Nat) (x : ℚ) (a b : vec3) (idx : Nat) :
    direction_sum d
      (([⟨a, idx, sign (b.sub a)⟩, ⟨b, idx, sign (a.sub b)⟩] : List crossing_event).filter
        (fun e => decide (e.point.get d < x))) =
      if (decide (extent_lo d (a, b) < x) && decide (x ≤ extent_hi d (a, b))) = true
      then 1 else 0 := by
  have hneg : sign1 (b.get d - a.get d) + sign1 (a.get d - b.get d) = 0 := by
    have h := sign1_neg_add (b.get d - a.get d)
    rwa [neg_sub] at h
  by_cases ha : a.get d < x <;> by_cases hb : b.get d < x
  · have hhi : ¬ x ≤ extent_hi d (a, b) := by
      simp only [extent_hi, not_le]
      exact max_lt ha hb
    simp [List.filter_cons, ha, hb, hhi, direction_sum, sign_get, sub_get, hneg]
  · have hlo : extent_lo d (a, b) < x := by
      simp only [extent_lo]
      exact lt_of_le_of_lt (min_le_left _ _) ha
    have hhi : x ≤ extent_hi d (a, b) := by
      simp only [extent_hi]
      exact le_trans (not_lt.mp hb) (le_max_right _ _)
    have hs : sign1 (b.get d - a.get d) = 1 := sign1_of_pos _ (by linarith [not_lt.mp hb])
    simp [List.filter_cons, ha, hb, hlo, hhi, direction_sum, sign_get, sub_get, hs]
  · have hlo : extent_lo d (a, b) < x := by
      simp only [extent_lo]
      exact lt_of_le_of_lt (min_le_right _ _) hb
    have hhi : x ≤ extent_hi d (a, b) := by
      simp only [extent_hi]
      exact le_trans (not_lt.mp ha) (le_max_left _ _)
    have hs : sign1 (a.get d - b.get d) = 1 := sign1_of_pos _ (by linarith [not_lt.mp ha])
    simp [List.filter_cons, ha, hb, hlo, hhi, direction_sum, sign_get, sub_get, hs]
  · have hlo : ¬ extent_lo d (a, b) < x := by
      simp only [extent_lo, not_lt]
      exact le_min (not_lt.mp ha) (not_lt.mp hb)
    simp [List.filter_cons, ha, hb, hlo, direction_sum]

/-- The directions along `d` of the crossings before `x` add up to the number
of lines that span `x`. -/
theorem direction_sum_before {L : Type} (env : collaborators L) (bounds : box_t) (d : Nat)
    (x : ℚ) : ∀ (lines : List L) (idx : Nat),
      direction_sum d ((collect_crossings env bounds lines idx).filter
        (fun e => decide (e.point.get d < x))) = (spanning_lines env bounds d x lines : Int) := by
  intro lines
  induction lines with
  | nil => intro idx; simp [collect_crossings, direction_sum, spanning_lines]
  | cons line rest ih =>
    intro idx
    have ih' := ih (idx + 1)
    unfold spanning_lines at ih' ⊢
    rw [List.countP_cons]
    cases hint : env.intersect_bounds line bounds with
    | none =>
      simp only [collect_crossings, hint, spans]
      rw [ih']
      simp
    | some ab =>
      obtain ⟨a, b⟩ := ab
      have hcons : collect_crossings env bounds (line :: rest) idx =
          [⟨a, idx, sign (b.sub a)⟩, ⟨b, idx, sign (a.sub b)⟩] ++
            collect_crossings env bounds rest (idx + 1) := by
        simp only [collect_crossings, hint]
        rfl
      rw [hcons, List.filter_append, direction_sum_append, ih', direction_sum_line]
      simp only [spans, hint]
      split <;> simp [add_comm]

theorem direction_sum_le_length (d : Nat) (l : List crossing_event)
    (h : ∀ e ∈ l, e.direction.get d ≤ 1) : direction_sum d l ≤ l.length := by
  induction l with
  | nil => simp [direction_sum]
  | cons a l ih =>
    have h1 := h a (List.mem_cons_self _ _)
    have h2 := ih (fun e he => h e (List.mem_cons_of_mem _ he))
    simp only [direction_sum, List.map_cons, List.sum_cons, List.length_cons,
      Nat.cast_add, Nat.cast_one] at h2 ⊢
    linarith

theorem direction_sum_eq_length (d : Nat) (l : List crossing_event)
    (h : ∀ e ∈ l, e.direction.get d = 1) : direction_sum d l = l.length := by
  induction l with
  | nil => simp [direction_sum]
  | cons a l ih =>
    have h1 := h a (List.mem_cons_self _ _)
    have h2 := ih (fun e he => h e (List.mem_cons_of_mem _ he))
    simp only [direction_sum, List.map_cons, List.sum_cons, List.length_cons,
      Nat.cast_add, Nat.cast_one] at h2 ⊢
    linarith

/-- The smaller coordinate along `d` of the two points where a line meets the
box is the coordinate of one of its crossing events. -/
theorem extent_lo_event {L : Type} (env : collaborators L) (bounds : box_t) (d : Nat)
    (lines : List L) (line : L) (hline : line ∈ lines) (a b : vec3)
    (hint : env.intersect_bounds line bounds = some (a, b)) :
    ∃ e ∈ collect_crossings env bounds lines 0, e.point.get d = extent_lo d (a, b) := by
  obtain ⟨i, hget⟩ := List.mem_iff_get?.mp hline
  rcases le_total (a.get d) (b.get d) with h | h
  · refine ⟨⟨a, 0 + i, sign (b.sub a)⟩, ?_, ?_⟩
    · rw [mem_collect_crossings]
      exact ⟨i, line, a, b, hget, hint, Or.inl rfl⟩
    · simp only [extent_lo]
      exact (min_eq_left h).symm
  · refine ⟨⟨b, 0 + i, sign (a.sub b)⟩, ?_, ?_⟩
    · rw [mem_collect_crossings]
      exact ⟨i, line, a, b, hget, hint, Or.inr rfl⟩
    · simp only [extent_lo]
      exact (min_eq_right h).symm

/-- The facts about one candidate of the sweep over the sorted crossings of
the lines. -/
theorem swept_candidate_overlap {L : Type} (env : collaborators L) (bounds : box_t) (d : Nat)
    (lines : List L) (crossings : List crossing_event)
    (hperm : crossings.Perm (collect_crossings env bounds lines 0))
    (hsorted : crossings.Sorted (along d))
    (t : Int × Int × List crossing_event × crossing_event)
    (ht : t ∈ swept_candidates env bounds d crossings) :
    t.1 = (at_lower_bound env bounds d crossings).length + direction_sum d t.2.2.1 ∧
    (spanning_lines env bounds d (t.2.2.2.point.get d) lines : Int) ≤ t.1 ∧
    0 ≤ t.1 ∧
    ((∀ e ∈ at_lower_bound env bounds d crossings, e.direction.get d = 1) →
      t.1 = (spanning_lines env bounds d (t.2.2.2.point.get d) lines : Int)) ∧
    (∀ (init : List crossing_event) (e₀ : crossing_event),
      at_lower_bound env bounds d crossings ++ t.2.2.1 = init ++ [e₀] →
      spanning_between env bounds d (e₀.point.get d) (t.2.2.2.point.get d) lines =
        spanning_lines env bounds d (t.2.2.2.point.get d) lines) := by
  obtain ⟨after, hcs, hov, hlt⟩ := swept_candidates_spec env bounds d crossings hsorted t ht
  generalize at_lower_bound env bounds d crossings = lower at hcs hov hlt ⊢
  obtain ⟨overlap, half, swept, c⟩ := t
  simp only at hcs hov hlt ⊢
  have hsorted' : (lower ++ swept ++ c :: after).Sorted (along d) := by
    rw [← hcs]; exact hsorted
  have hfilter : crossings.filter (fun e => decide (e.point.get d < c.point.get d)) =
      lower ++ swept := by
    have h := filter_before_sorted d (lower ++ swept) after c hsorted' hlt
    rw [← hcs] at h
    exact h
  have hsum : direction_sum d (lower ++ swept) =
      (spanning_lines env bounds d (c.point.get d) lines : Int) := by
    rw [← hfilter, ← direction_sum_before env bounds d (c.point.get d) lines 0]
    unfold direction_sum
    exact ((hperm.filter _).map _).sum_eq
  rw [direction_sum_append] at hsum
  have hmem : ∀ e ∈ lower, e ∈ collect_crossings env bounds lines 0 := by
    intro e he
    apply hperm.mem_iff.mp
    rw [hcs]
    exact List.mem_append_left _ (List.mem_append_left _ he)
  have hle := direction_sum_le_length d lower
    (fun e he => collect_crossings_direction_le env bounds lines d e (hmem e he))
  have hspan : (0 : Int) ≤ (spanning_lines env bounds d (c.point.get d) lines : Int) :=
    Int.ofNat_nonneg _
  refine ⟨hov, by linarith, by linarith, ?_, ?_⟩
  · intro hone
    have heq := direction_sum_eq_length d lower hone
    linarith
  · intro init e₀ hinit
    unfold spanning_between spanning_lines
    apply List.countP_congr
    intro line hline
    unfold spans
    cases hint : env.intersect_bounds line bounds with
    | none => simp
    | some ab =>
      obtain ⟨a, b⟩ := ab
      have he₀ : e₀.point.get d < c.point.get d :=
        hlt e₀ (by rw [hinit]; simp)
      have hiff : extent_lo d (a, b) ≤ e₀.point.get d ↔
          extent_lo d (a, b) < c.point.get d := by
        constructor
        · intro h
          exact lt_of_le_of_lt h he₀
        · intro h
          obtain ⟨e, he, hpoint⟩ := extent_lo_event env bounds d lines line hline a b hint
          have hin : e ∈ crossings.filter
              (fun e => decide (e.point.get d < c.point.get d)) := by
            rw [List.mem_filter]
            refine ⟨hperm.mem_iff.mpr he, ?_⟩
            rw [hpoint]
            simpa using h
          rw [hfilter, hinit] at hin
          have hs : (init ++ [e₀]).Sorted (along d) := by
            rw [← hinit]
            exact (List.pairwise_append.mp hsorted').1
          rw [← hpoint]
          rcases List.mem_append.mp hin with hin | hin
          · exact (List.pairwise_append.mp hs).2.2 e hin e₀ (List.mem_singleton_self _)
          · rw [List.mem_singleton.mp hin]
      simp only [Bool.and_eq_true, decide_eq_true_eq]
      rw [hiff]

/-- C14 (counterexample): with a line along the face `x = 0` of the cube of
4 x 4 x 4 voxels and a line through the cube along axis 0, the sweep along
axis 0 passes three events at the lower bound and evaluates its one candidate
at the crossing at `x = 4` with overlap 3, while one line has its smaller
coordinate at or before the previous swept coordinate 0 and its larger one at
or after the current swept coordinate 4. -/
theorem overlap_counts_tangent_line_twice :
    candidates segment_env ⟨(0, 4), (0, 4), (0, 4)⟩ 0
      (sorted_along stable_sort
        (collect_crossings segment_env ⟨(0, 4), (0, 4), (0, 4)⟩ tangent_lines 0) 0) =
      [(3, 2)] ∧
    swept_candidates segment_env ⟨(0, 4), (0, 4), (0, 4)⟩ 0
      (sorted_along stable_sort
        (collect_crossings segment_env ⟨(0, 4), (0, 4), (0, 4)⟩ tangent_lines 0) 0) =
      [(3, 2, [], ⟨⟨4, 2, 2⟩, 1, ⟨-1, 0, 0⟩⟩)] ∧
    (at_lower_bound segment_env ⟨(0, 4), (0, 4), (0, 4)⟩ 0
      (sorted_along stable_sort
        (collect_crossings segment_env ⟨(0, 4), (0, 4), (0, 4)⟩ tangent_lines 0) 0)).map
      (fun e => (e.point.get 0, e.direction.get 0)) = [(0, 0), (0, 0), (0, 1)] ∧
    spanning_between segment_env ⟨(0, 4), (0, 4), (0, 4)⟩ 0 0 4 tangent_lines = 1 := by
  decide!

/-- C14 (amended): for every axis `d`, the sweep of `find_split` along `d`
considers exactly the candidates of `swept_candidates`, each with its overlap
and at a crossing.  The overlap of a candidate is the number of events the
`while` loop passed at the lower bound plus the sum of the directions along
`d` of the events the `for` loop has passed before the candidate; it is at
least the number of lines whose intersection with the box has its smaller
coordinate along `d` before the current swept coordinate and its larger one at
or after it, so it is never negative; it equals that number when every event
the `while` loop passed has direction +1 along `d`.  When an event was swept
before the candidate, "before the current swept coordinate" is the same as
"at or before the previous swept coordinate". -/
theorem overlap_counts_spanning_lines {L : Type} (env : collaborators L)
    (sort : Nat → List crossing_event → List crossing_event) (hsort : sorts sort)
    (lines : List L) (bounds : box_t) (d : Nat) :
    (∀ (max_epsilon : ℚ) (best : best_t),
      sweep_axis env bounds max_epsilon d
          (sorted_along sort (collect_crossings env bounds lines 0) d) best =
        ((swept_candidates env bounds d
            (sorted_along sort (collect_crossings env bounds lines 0) d)).map
          (fun t => (t.1, t.2.1))).foldl
          (fun b c => consider bounds max_epsilon d b c.1 c.2) best) ∧
    ∀ t ∈ swept_candidates env bounds d
        (sorted_along sort (collect_crossings env bounds lines 0) d),
      t.1 = (at_lower_bound env bounds d
          (sorted_along sort (collect_crossings env bounds lines 0) d)).length +
        direction_sum d t.2.2.1 ∧
      (spanning_lines env bounds d (t.2.2.2.point.get d) lines : Int) ≤ t.1 ∧
      0 ≤ t.1 ∧
      ((∀ e ∈ at_lower_bound env bounds d
          (sorted_along sort (collect_crossings env bounds lines 0) d),
          e.direction.get d = 1) →
        t.1 = (spanning_lines env bounds d (t.2.2.2.point.get d) lines : Int)) ∧
      (∀ (init : List crossing_event) (e₀ : crossing_event),
        at_lower_bound env bounds d
            (sorted_along sort (collect_crossings env bounds lines 0) d) ++ t.2.2.1 =
          init ++ [e₀] →
        spanning_between env bounds d (e₀.point.get d) (t.2.2.2.point.get d) lines =
          spanning_lines env bounds d (t.2.2.2.point.get d) lines) := by
  refine ⟨?_, ?_⟩
  · intro max_epsilon best
    rw [sweep_axis_eq]
    unfold swept_candidates candidates at_lower_bound
    rw [swept_from_candidates]
  · intro t ht
    exact swept_candidate_overlap env bounds d lines _
      (sorted_along_perm sort hsort _ d) (sorted_along_sorted sort hsort _ d) t ht

theorem overlap_counts_spanning_lines_witness :
    sorts stable_sort ∧
    (swept_candidates segment_env ⟨(0, 4), (0, 4), (0, 4)⟩ 0
        (sorted_along stable_sort
          (collect_crossings segment_env ⟨(0, 4), (0, 4), (0, 4)⟩ four_lines 0) 0)).map
      (fun t => (t.1, t.2.2.2.point.get 0)) = [(2, 1), (2, 3), (2, 4)] ∧
    (at_lower_bound segment_env ⟨(0, 4), (0, 4), (0, 4)⟩ 0
        (sorted_along stable_sort
          (collect_crossings segment_env ⟨(0, 4), (0, 4), (0, 4)⟩ four_lines 0) 0)).map
      (fun e => e.direction.get 0) = [1, 1] ∧
    [spanning_lines segment_env ⟨(0, 4), (0, 4), (0, 4)⟩ 0 1 four_lines,
      spanning_lines segment_env ⟨(0, 4), (0, 4), (0, 4)⟩ 0 3 four_lines,
      spanning_lines segment_env ⟨(0, 4), (0, 4), (0, 4)⟩ 0 4 four_lines] = [2, 2, 2] ∧
    ((∀ (max_epsilon : ℚ) (best : best_t),
      sweep_axis segment_env ⟨(0, 4), (0, 4), (0, 4)⟩ max_epsilon 0
          (sorted_along stable_sort
            (collect_crossings segment_env ⟨(0, 4), (0, 4), (0, 4)⟩ four_lines 0) 0) best =
        ((swept_candidates segment_env ⟨(0, 4), (0, 4), (0, 4)⟩ 0
            (sorted_along stable_sort
              (collect_crossings segment_env ⟨(0, 4), (0, 4), (0, 4)⟩ four_lines 0) 0)).map
          (fun t => (t.1, t.2.1))).foldl
          (fun b c => consider ⟨(0, 4), (0, 4), (0, 4)⟩ max_epsilon 0 b c.1 c.2) best) ∧
    ∀ t ∈ swept_candidates segment_env ⟨(0, 4), (0, 4), (0, 4)⟩ 0
        (sorted_along stable_sort
          (collect_crossings segment_env ⟨(0, 4), (0, 4), (0, 4)⟩ four_lines 0) 0),
      t.1 = (at_lower_bound segment_env ⟨(0, 4), (0, 4), (0, 4)⟩ 0
          (sorted_along stable_sort
            (collect_crossings segment_env ⟨(0, 4), (0, 4), (0, 4)⟩ four_lines 0) 0)).length +
        direction_sum 0 t.2.2.1 ∧
      (spanning_lines segment_env ⟨(0, 4), (0, 4), (0, 4)⟩ 0 (t.2.2.2.point.get 0)
        four_lines : Int) ≤ t.1 ∧
      0 ≤ t.1 ∧
      ((∀ e ∈ at_lower_bound segment_env ⟨(0, 4), (0, 4), (0, 4)⟩ 0
          (sorted_along stable_sort
            (collect_crossings segment_env ⟨(0, 4), (0, 4), (0, 4)⟩ four_lines 0) 0),
          e.direction.get 0 = 1) →
        t.1 = (spanning_lines segment_env ⟨(0, 4), (0, 4), (0, 4)⟩ 0 (t.2.2.2.point.get 0)
          four_lines : Int)) ∧
      (∀ (init : List crossing_event) (e₀ : crossing_event),
        at_lower_bound segment_env ⟨(0, 4), (0, 4), (0, 4)⟩ 0
            (sorted_along stable_sort
              (collect_crossings segment_env ⟨(0, 4), (0, 4), (0, 4)⟩ four_lines 0) 0) ++
            t.2.2.1 = init ++ [e₀] →
        spanning_between segment_env ⟨(0, 4), (0, 4), (0, 4)⟩ 0 (e₀.point.get 0)
            (t.2.2.2.point.get 0) four_lines =
          spanning_lines segment_env ⟨(0, 4), (0, 4), (0, 4)⟩ 0 (t.2.2.2.point.get 0)
            four_lines)) :=
  ⟨stable_sort_sorts, by decide!, by decide!, by decide!,
    overlap_counts_spanning_lines segment_env stable_sort stable_sort_sorts four_lines
      ⟨(0, 4), (0, 4), (0, 4)⟩ 0⟩

end distributed
end tomo
